import Mathlib

/-!
dupe-checker: the query-plan / template engine, the traversal engine and the
base-URI helper.

A shallow embedding of `query/template_builder.go`, `visit/visitor.go`,
`StripBaseUri` of `env/env.go` and the triple filter of
`internal/integration/fedorautil_test.go`.

Conventions of the embedding

* Go strings are modelled by `String`; `strings.HasPrefix`, `strings.HasSuffix`,
  `strings.TrimPrefix` and `strings.Join` act on the character sequence, which
  agrees with Go's byte-wise functions on valid UTF-8 text.  The verb `%d` is
  `toString` on `Int`.
* A Go `panic` is an explicit outcome (`Outcome.panicked`), and a method with a
  pointer receiver returns the receiver's state after the call together with
  the outcome.
* A Go map is an association list; the order in which `range` visits a map is
  not fixed by the language, so it is an input of the model.
* Library calls (`html/template`, `net/http`, `encoding/json`) and the retriever
  are parameters.
* The goroutines of `Walk` and `walkInternal` are the threads of a machine that
  moves one goroutine at a time (`stepWalk`).  The order in which goroutines
  move is not fixed by the language, so the schedule is an input of the model.
  The variables `c` and `e` of a call of `walkInternal` are shared by the units
  that the call launches; each step reads or writes them at most once.  The
  channels `Containers` and `Errors` are the lists of the values sent, their
  receivers being always ready; the semaphore channel is the number of values
  in its buffer.  Log lines of the traversal are left out.
-/

set_option linter.dupNamespace false

namespace DupeChecker

/-! ## Strings -/

/-- Go `strings.HasPrefix(s, p)`. -/
def hasPrefix (s p : String) : Bool := p.data.isPrefixOf s.data

/-- Go `strings.HasSuffix(s, suf)`. -/
def hasSuffix (s suf : String) : Bool := suf.data.isSuffixOf s.data

/-- Go `strings.TrimPrefix(s, p)`. -/
def trimPrefix (s p : String) : String :=
  if hasPrefix s p then String.mk (s.data.drop p.data.length) else s

/-- Go `strings.Join(xs, sep)`. -/
def join (xs : List String) (sep : String) : String := sep.intercalate xs

/-- Go `%t`. -/
def fmtBool (b : Bool) : String := if b then "true" else "false"

/-! ## Errors and panics -/

/-- Go values of the interface type `error` that occur in the packages `query` and
`visit`.  The three sentinels are the package-level variables created with
`errors.New`; they are compared by identity. -/
inductive error where
  /-- The nil interface value: "no error". -/
  | nil
  | ErrMissingRequiredKey
  | ErrPerformingElasticSearchRequest
  | ErrIllegalStateNotBuilt
  /-- The struct `Error{wrapped, context}` of package `query`. -/
  | Error (wrapped : error) (context : String)
  /-- The value of `fmt.Errorf(format, ..., err)` with a `%w` verb: the text
  before the verb and the wrapped error. -/
  | wrapError (msg : String) (err : error)
  /-- The value of `errors.New(msg)` or `fmt.Errorf` without `%w`. -/
  | errorString (msg : String)
  /-- An error made outside this package (`net/http`, `encoding/json`, ...). -/
  | foreign (msg : String)
  /-- The struct `VisitErr{Uri, Message, Wrapped}` of package `visit`. -/
  | VisitErr (Uri : String) (Message : String) (Wrapped : error)
  deriving DecidableEq, Repr

/-- Modelled from the spec: the declaration of `query.Error` (its `Unwrap` method) is
not part of the sources at hand; the spec and `Template.Execute` rely on
`errors.Is(Error{wrapped: w}, w)`, so `Error` unwraps to its `wrapped` field.
`errorsIs err target` is Go `errors.Is(err, target)`. -/
def errorsIs : error → error → Bool
  | .Error w c, target => decide (error.Error w c = target) || errorsIs w target
  | .wrapError m e, target => decide (error.wrapError m e = target) || errorsIs e target
  | .VisitErr u m e, target => decide (error.VisitErr u m e = target) || errorsIs e target
  | e, target => decide (e = target)

/-- Go `err.Error()`.  The texts of the errors whose `Error` method is declared outside
the sources at hand (`query.Error`, `ErrIllegalStateNotBuilt`) are given by `ext`. -/
def errText (ext : error → String) : error → String
  | .ErrMissingRequiredKey => "query: missing required key(s)"
  | .ErrPerformingElasticSearchRequest => "query: error performing search"
  | .wrapError msg err => msg ++ errText ext err
  | .errorString msg => msg
  | .foreign msg => msg
  | .VisitErr uri message _ => "visit: error visiting uri " ++ uri ++ ", " ++ message
  | e => ext e

/-- The outcome of a call that may panic. -/
inductive Outcome (α : Type) where
  | returned (a : α)
  | panicked (msg : String)
  deriving DecidableEq, Repr

/-- Whether the call panicked. -/
def Outcome.isPanic {α : Type} : Outcome α → Bool
  | .returned _ => false
  | .panicked _ => true

/-! ## The plan builder -/

/-- Go `KvPair`. -/
structure KvPair where
  Key : String
  Value : String
  deriving DecidableEq, Repr

/-- Go `Template`; `τ` is the type of parsed `html/template` templates. -/
structure Template (τ : Type) where
  Template : τ
  Keys : List String
  deriving DecidableEq, Repr

/-- Go `tmplBuilderImpl`.  A nil slice and an empty slice are both `[]`. -/
structure tmplBuilderImpl where
  built : Bool
  keys : List String
  query : String
  deriving DecidableEq, Repr

/-- Go `newTmplBuilder`. -/
def newTmplBuilder : tmplBuilderImpl := { built := false, keys := [], query := "" }

/-- The rendering of `%T@%p` for a builder at address `p`. -/
def fmtPtr (p : String) : String := "*query.tmplBuilderImpl@" ++ p

/-- Go `tmplBuilderImpl.String` (the name `String` is taken by the type). -/
def tmplBuilderImpl.toStr (p : String) (tb : tmplBuilderImpl) : String :=
  "(" ++ fmtPtr p ++ ") built: " ++ fmtBool tb.built ++ " keys: \x27" ++ join tb.keys ","
    ++ "\x27 q: \x27" ++ tb.query ++ "\x27\n"

/-- Go `tmplBuilderImpl.ifBuilt`. -/
def tmplBuilderImpl.ifBuilt (tb : tmplBuilderImpl) (msg : String) (shouldPanic : Bool) :
    Outcome error :=
  if tb.built then
    if shouldPanic then .panicked msg else .returned (.errorString msg)
  else .returned .nil

/-- Go `tmplBuilderImpl.AddKey`; `p` is the address of the receiver. -/
def tmplBuilderImpl.AddKey (p : String) (tb : tmplBuilderImpl) (key : String) :
    tmplBuilderImpl × Outcome Unit :=
  match tb.ifBuilt
      ("illegal state: cannot append key \x27" ++ key ++ "\x27 to existing keys \x27"
        ++ join tb.keys "," ++ "\x27: already built " ++ fmtPtr p ++ "\n" ++ tb.toStr p) true with
  | .panicked msg => (tb, .panicked msg)
  | .returned _ =>
    if tb.keys = [] then ({ tb with keys := [key] }, .returned ())
    else ({ tb with keys := tb.keys ++ [key] }, .returned ())

/-- Go `tmplBuilderImpl.AddQuery`. -/
def tmplBuilderImpl.AddQuery (p : String) (tb : tmplBuilderImpl) (query : String) :
    tmplBuilderImpl × Outcome Unit :=
  match tb.ifBuilt
      ("illegal state: cannot overwrite existing query \x27" ++ tb.query ++ "\x27 with query \x27"
        ++ query ++ "\x27: already built " ++ fmtPtr p ++ "\n" ++ tb.toStr p) true with
  | .panicked msg => (tb, .panicked msg)
  | .returned _ =>
    if tb.query.length = 0 then ({ tb with query := query }, .returned ())
    else (tb, .panicked
      ("illegal state: cannot overwrite existing query \x27" ++ tb.query ++ "\x27 with query \x27"
        ++ query ++ "\x27: " ++ fmtPtr p ++ "\n" ++ tb.toStr p))

/-- Go `tmplBuilderImpl.asTemplate`; `parse name text` is
`template.New(name).Funcs(templateFuncs).Parse(text)`. -/
def tmplBuilderImpl.asTemplate {τ : Type} [Inhabited τ] (parse : String → String → Except error τ)
    (p : String) (tb : tmplBuilderImpl) : Template τ × error :=
  if !tb.built then
    ({ Template := default, Keys := [] },
      .Error .ErrIllegalStateNotBuilt
        (fmtPtr p ++ " must be built before it can be returned as a Template"))
  else
    match parse ("Template for " ++ fmtPtr p) tb.query with
    | .error err => ({ Template := default, Keys := [] }, err)
    | .ok tmpl => ({ Template := tmpl, Keys := tb.keys }, .nil)

/-- Go `tmplBuilderImpl.Build`. -/
def tmplBuilderImpl.Build {τ : Type} [Inhabited τ] (parse : String → String → Except error τ)
    (p : String) (tb : tmplBuilderImpl) : tmplBuilderImpl × Outcome (Template τ × error) :=
  match tb.ifBuilt
      ("illegal state: this " ++ fmtPtr p ++ " has already been built\n" ++ tb.toStr p) true with
  | .panicked msg => (tb, .panicked msg)
  | .returned _ =>
    let tb1 := { tb with built := true }
    (tb1, .returned (tb1.asTemplate parse p))

/-- A call made on a builder. -/
inductive BuilderCall where
  | AddKey (key : String)
  | AddQuery (query : String)
  | Build
  deriving DecidableEq, Repr

/-- The state of the builder after one call (whether or not the call panicked). -/
def BuilderCall.after {τ : Type} [Inhabited τ] (parse : String → String → Except error τ)
    (p : String) (tb : tmplBuilderImpl) : BuilderCall → tmplBuilderImpl
  | .AddKey key => (tb.AddKey p key).1
  | .AddQuery query => (tb.AddQuery p query).1
  | .Build => (tb.Build parse p).1

/-- The state of the builder after a sequence of calls. -/
def afterCalls {τ : Type} [Inhabited τ] (parse : String → String → Except error τ)
    (p : String) (tb : tmplBuilderImpl) (calls : List BuilderCall) : tmplBuilderImpl :=
  calls.foldl (BuilderCall.after parse p) tb

/-! ## Key extraction -/

/-- Modelled from the spec: `model.LdpContainer` is declared outside the sources at
hand; a container is the values of the accessors the code calls: identity URI,
ordered type-tag list, matched type name, the attribute map restricted to
domain properties, listed in the order in which `range` visits it, the child URI
list and the "is this a domain resource" classification. -/
structure LdpContainer where
  Uri : String
  Types : List String
  PassType : String
  PassProperties : List (String × List String)
  /-- The child URIs, `Contains()`. -/
  Contains : List String := []
  /-- The two results of `IsPassResource()`: the classification and the type name. -/
  IsPassResource : Bool × String := (false, "")
  deriving DecidableEq, Repr

/-- Go `map[string][]KvPair`, as an association list with at most one entry per key
when built with `mapSet` from the empty map. -/
abbrev KvMap := List (String × List KvPair)

/-- Go `v, exists := m[k]`: `none` when the key is absent. -/
def mapGet : KvMap → String → Option (List KvPair)
  | [], _ => none
  | (k1, v) :: m, k => if k1 = k then some v else mapGet m k

/-- Go `m[k] = v`. -/
def mapSet : KvMap → String → List KvPair → KvMap
  | [], k, v => [(k, v)]
  | (k1, v1) :: m, k, v => if k1 = k then (k, v) :: m else (k1, v1) :: mapSet m k v

/-- The body of the loop over the values of one property (lines 171-176). -/
def bindValue (key : String) (m : KvMap) (value : String) : KvMap :=
  match mapGet m key with
  | some pairs => mapSet m key (pairs ++ [{ Key := key, Value := value }])
  | none => mapSet m key [{ Key := key, Value := value }]

/-- The body of the loop over the properties: the loop over the keys (lines 166-179). -/
def bindProperty (keys : List String) (m : KvMap) (prop : String × List String) : KvMap :=
  keys.foldl (fun m key => if !hasSuffix prop.1 key then m else prop.2.foldl (bindValue key) m) m

/-- The loop over the type tags (lines 186-190); `pfx` is `model.PassResourceUriPrefix`. -/
def bindTypes (pfx : String) (types : List String) (m : KvMap) : KvMap :=
  types.foldl (fun m t =>
    if hasPrefix t pfx then mapSet m "@type" [{ Key := "@type", Value := trimPrefix t pfx }]
    else m) m

/-- The map `extractedKvps` when the first two loops of `extractKeys` are done
(lines 163-192). -/
def extractedKvps (pfx : String) (container : LdpContainer) (keys : List String) : KvMap :=
  keys.foldl (fun m key => if key = "@type" then bindTypes pfx container.Types m else m)
    (container.PassProperties.foldl (bindProperty keys) [])

/-- The slice `missing` (lines 194-200). -/
def missingKeys (m : KvMap) (keys : List String) : List String :=
  keys.foldl (fun missing key => if (mapGet m key).isNone then missing ++ [key] else missing) []

/-- The slice `result` (lines 206-212), the map being visited in the order `visit`. -/
def flattenKvps (visit : List (String × List KvPair)) : List KvPair :=
  visit.foldl (fun result e => e.2.foldl (fun result x => result ++ [x]) result) []

/-- Go `extractKeys`.  `rangeOrder m` is the order in which `range` visits the map
`m`; `pfx` is the constant `model.PassResourceUriPrefix`. -/
def extractKeys (rangeOrder : KvMap → KvMap) (pfx : String) (container : LdpContainer)
    (keys : List String) : List KvPair × error :=
  let m := extractedKvps pfx container keys
  let missing := missingKeys m keys
  if missing.length > 0 then ([], .Error .ErrMissingRequiredKey (join missing ","))
  else (flattenKvps (rangeOrder m), .nil)

/-- The bindings that one property gives to the required key `key`: one per value
of the property when the property name has `key` as a suffix, none otherwise. -/
def propBindings (key : String) (prop : String × List String) : List KvPair :=
  if hasSuffix prop.1 key then prop.2.map (fun value => { Key := key, Value := value }) else []

/-- The suffix rule of the specification: one binding for every required key other
than `@type`, every property whose name has the key as a suffix, and every value
of that property. -/
def suffixBindings (props : List (String × List String)) (keys : List String) : List KvPair :=
  (keys.filter (fun key => key ≠ "@type")).flatMap
    (fun key => props.flatMap (fun prop => propBindings key prop))

/-- The pairs that the first loop of `extractKeys` appends to the map, in the order
in which it appends them. -/
def appended (keys : List String) (props : List (String × List String)) : List KvPair :=
  props.flatMap (fun prop => keys.flatMap (fun key => propBindings key prop))

/-- The pairs of `pairs` that are bound to `k`, or `none` when there is none. -/
def grouped (pairs : List KvPair) (k : String) : Option (List KvPair) :=
  if pairs.filter (fun kv => kv.Key = k) = [] then none
  else some (pairs.filter (fun kv => kv.Key = k))

/-- The type tags that start with the prefix `pfx`, in the order of `Types()`. -/
def passTags (pfx : String) (types : List String) : List String :=
  types.filter (fun t => hasPrefix t pfx)

/-- The binding of `@type` to the local name of the type tag `t`. -/
def typeBinding (pfx : String) (t : String) : KvPair :=
  { Key := "@type", Value := trimPrefix t pfx }

/-- The required key `k` has a bound value: a property whose name has `k` as a suffix
holds at least one value, or `k` is `@type` and a type tag starts with `pfx`. -/
def hasBinding (pfx : String) (container : LdpContainer) (k : String) : Bool :=
  container.PassProperties.any (fun prop => hasSuffix prop.1 k && !prop.2.isEmpty)
    || (decide (k = "@type") && container.Types.any (fun t => hasPrefix t pfx))

/-- A well-formed map: one entry per key, and every pair stored under a key is a
binding of that key. -/
def MapInv (m : KvMap) : Prop :=
  (m.map Prod.fst).Nodup ∧ ∀ e ∈ m, ∀ kv ∈ e.2, kv.Key = e.1

/-- The map `m` holds the pairs `pairs`, grouped by key. -/
def Holds (m : KvMap) (pairs : List KvPair) : Prop :=
  MapInv m ∧ ∀ k, mapGet m k = grouped pairs k

/-- The effect of the second loop of `extractKeys` on the lookups of the map: `@type`
is bound to the last prefixed type tag when there is one. -/
def typeLookup (pfx : String) (types : List String) (g : String → Option (List KvPair))
    (k : String) : Option (List KvPair) :=
  if k = "@type" then
    match (passTags pfx types).getLast? with
    | some t => some [typeBinding pfx t]
    | none => g k
  else g k

/-- The bindings of `@type` that `extractKeys` returns: none when `@type` is not
required; the local name of the last prefixed type tag when there is one; and
otherwise what the suffix rule gives for `@type`. -/
def typeBindings (pfx : String) (container : LdpContainer) (keys : List String) : List KvPair :=
  if "@type" ∈ keys then
    match (passTags pfx container.Types).getLast? with
    | some t => [typeBinding pfx t]
    | none =>
      (keys.filter (fun key => key = "@type")).flatMap
        (fun key => container.PassProperties.flatMap (fun prop => propBindings key prop))
  else []

/-- The resource of the specification's example: one property whose name ends in
`title` with the values `A` and `B`, and the one type tag `NS#Article`. -/
def articleContainer : LdpContainer :=
  { Uri := "http://repo/articles/1", Types := ["NS#Article"], PassType := "Article",
    PassProperties := [("NS#title", ["A", "B"])] }

/-- A resource with two prefixed type tags. -/
def twoTypesContainer : LdpContainer :=
  { Uri := "http://repo/articles/2", Types := ["NS#Article", "NS#Journal"],
    PassType := "Article", PassProperties := [] }

/-! ## The search client -/

/-- The request made by `http.NewRequest(method, url, nil)`. -/
structure Request where
  Method : String
  URL : String
  deriving DecidableEq, Repr

/-- The fields of `http.Response` that `performQuery` reads.  `Body` is the outcome of
reading the body to its end: the text read, or the `Error()` text of the
failure of `io.Copy`. -/
structure Response where
  StatusCode : Int
  Status : String
  Body : Except String String

/-- Go `http.Client`: its method `Do`. -/
structure HttpClient where
  Do : Request → Except error Response

/-- Modelled from the spec: `ElasticSearchClient` is declared outside the sources at
hand; it is a struct with the one field `http` of type `http.Client`. -/
structure ElasticSearchClient where
  http : HttpClient

/-- Modelled from the spec: `Match` is declared outside the sources at hand; it has
the five fields the code assigns: query string executed, hit count, ordered
matching identifiers, originating resource URI and its matched type. -/
structure Match where
  QueryUrl : String
  HitCount : Int
  MatchingUris : List String
  PassUri : String
  PassType : String
  deriving DecidableEq, Repr

/-- The zero value `Match{}`. -/
def Match.zero : Match :=
  { QueryUrl := "", HitCount := 0, MatchingUris := [], PassUri := "", PassType := "" }

/-- The innermost anonymous struct of `hits`: `Source.Id`, JSON `_source["@id"]`. -/
structure HitSource where
  Id : String
  deriving DecidableEq, Repr

/-- One element of `hits.Hits.Hits`. -/
structure Hit where
  Source : HitSource
  deriving DecidableEq, Repr

/-- The field `Hits` of the struct `hits`. -/
structure HitsBody where
  Total : Int
  Hits : List Hit
  deriving DecidableEq, Repr

/-- The anonymous struct `hits` that the response body is decoded into. -/
structure HitsDoc where
  Hits : HitsBody
  deriving DecidableEq, Repr

/-- The loop that collects the identifiers (lines 285-287). -/
def collectUris (m : Match) (hits : List Hit) : Match :=
  hits.foldl (fun m hit => { m with MatchingUris := m.MatchingUris ++ [hit.Source.Id] }) m

/-- Go `performQuery`.  `NewRequest` is `http.NewRequest` and `Unmarshal body` is
`json.Unmarshal(body, hits)` on a zero `hits`. -/
def performQuery (NewRequest : String → String → Except error Request)
    (Unmarshal : String → Except error HitsDoc) (query : String)
    (esClient : ElasticSearchClient) : Match × error :=
  match NewRequest "GET" query with
  | .error err => (Match.zero, err)
  | .ok req =>
    match esClient.http.Do req with
    | .error err => (Match.zero, err)
    | .ok res =>
      let err : error :=
        if res.StatusCode ≠ 200 then .Error .ErrPerformingElasticSearchRequest "" else .nil
      match res.Body with
      | .error readErr =>
        (Match.zero, .Error .ErrPerformingElasticSearchRequest
          ("unable to read body of request \x27" ++ query ++ "\x27: " ++ readErr))
      | .ok resbytes =>
        if err ≠ .nil then
          match err with
          | .Error wrapped _ =>
            (Match.zero, .Error wrapped
              ("\x27" ++ query ++ "\x27 returned unexpected status code \x27"
                ++ toString res.StatusCode ++ "\x27 (" ++ res.Status ++ ")\n" ++ resbytes))
          | _ =>
            (Match.zero, .Error .nil
              ("\x27" ++ query ++ "\x27 returned unexpected status code \x27"
                ++ toString res.StatusCode ++ "\x27 (" ++ res.Status ++ ")"))
        else
          match Unmarshal resbytes with
          | .error err =>
            (Match.zero, .wrapError
              ("query: unable to unmarshal body of request \x27" ++ query ++ "\x27: ") err)
          | .ok hits =>
            let m : Match := { Match.zero with QueryUrl := query, HitCount := hits.Hits.Total }
            if m.HitCount = 0 then (m, .nil)
            else (collectUris m hits.Hits.Hits, .nil)

/-- The text `s` embeds the text `sub`: `sub` occurs in `s` as a contiguous part. -/
def embeds (s sub : String) : Prop := sub.data <:+: s.data

/-- An `http.NewRequest` that accepts every method and URL. -/
def newRequestOk (method url : String) : Except error Request :=
  .ok { Method := method, URL := url }

/-- A search client whose transport answers every request with `res`. -/
def clientAnswering (res : Response) : ElasticSearchClient :=
  { http := { Do := fun _ => .ok res } }

/-- A decoder that yields `doc` for every body. -/
def unmarshalTo (doc : HitsDoc) (_body : String) : Except error HitsDoc := .ok doc

/-- The decoded form of a body with `total` hits that lists the identifiers `ids`. -/
def hitsDoc (total : Int) (ids : List String) : HitsDoc :=
  { Hits := { Total := total, Hits := ids.map (fun id => { Source := { Id := id } }) } }

/-- A 200 response with the given body. -/
def okResponse (body : String) : Response :=
  { StatusCode := 200, Status := "200 OK", Body := .ok body }

/-! ## Template evaluation and execution -/

/-- The anonymous struct that `eval` hands to the template: the fixed rendering
context and the bindings. -/
structure TemplateData where
  Scheme : String
  HostAndPort : String
  Index : String
  KvPairs : List KvPair
  deriving DecidableEq, Repr

/-- Go `Template.String`; `p` is the rendering of `%p`, and `%s` prints a slice of
strings as `[a b]`. -/
def Template.toStr {τ : Type} (p : String) (qt : DupeChecker.Template τ) : String :=
  "query.Template: Keys: [" ++ join qt.Keys " " ++ "], Template: template.Template@" ++ p

/-- Go `Template.eval`; `render t data` is what `t.Execute(buf, data)` of
`html/template` writes to the buffer, or the error it returns. -/
def Template.eval {τ : Type} (render : τ → TemplateData → Except error String) (p : String)
    (qt : DupeChecker.Template τ) (kvp : List KvPair) : String × error :=
  if kvp.length = 0 then
    ("", .errorString
      ("query: cannot evaluate template, empty key-value pairs for " ++ qt.toStr p
        ++ " (error extracting keys from the LdpContainer?)"))
  else
    match render qt.Template
        { Scheme := "http", HostAndPort := "elasticsearch.local:9200", Index := "pass",
          KvPairs := kvp } with
    | .error err => ("", err)
    | .ok text => (text, .nil)

/-- What `Template.Execute` does besides returning: the calls it makes, in order. -/
inductive Event where
  /-- A line written with `log.Printf`. -/
  | logged (msg : String)
  /-- A call of `qt.eval(kvp)`: the template is rendered. -/
  | evaluated (kvp : List KvPair)
  /-- A call of `performQuery(query, ...)`: the search request is made. -/
  | queried (query : String)
  /-- A call of the result handler. -/
  | handled (m : Match)
  deriving DecidableEq, Repr

/-- Go `Template.Execute`.  `client` is the `http.Client` value with which the search
client is built, `handler` the result handler; the second component lists the
calls made. -/
def Template.Execute {τ : Type} (rangeOrder : KvMap → KvMap) (pfx : String)
    (ext : error → String) (render : τ → TemplateData → Except error String)
    (NewRequest : String → String → Except error Request)
    (Unmarshal : String → Except error HitsDoc) (client : HttpClient) (p : String)
    (qt : DupeChecker.Template τ) (container : LdpContainer) (handler : Match → error) :
    error × List Event :=
  let extracted := extractKeys rangeOrder pfx container qt.Keys
  if errorsIs extracted.2 .ErrMissingRequiredKey then
    (extracted.2,
      [.logged ("Skipping query evaluation for " ++ container.Uri
        ++ ", resource is missing at least one key required to formulate the query: "
        ++ errText ext extracted.2)])
  else
    let evaluated := qt.eval render p extracted.1
    if evaluated.2 ≠ .nil then (evaluated.2, [.evaluated extracted.1])
    else
      let found := performQuery NewRequest Unmarshal evaluated.1 { http := client }
      if found.2 ≠ .nil then (found.2, [.evaluated extracted.1, .queried evaluated.1])
      else
        let m : Match :=
          { found.1 with PassUri := container.Uri, PassType := container.PassType }
        let handlerErr := handler m
        if handlerErr ≠ .nil then
          (handlerErr, [.evaluated extracted.1, .queried evaluated.1, .handled m])
        else (.nil, [.evaluated extracted.1, .queried evaluated.1, .handled m])

/-- The handler calls among the events. -/
def handlerCalls (events : List Event) : List Match :=
  events.filterMap (fun ev => match ev with
    | .handled m => some m
    | _ => none)

/-- The event is a log line: no rendering, no search request, no handler call. -/
def Event.isLog : Event → Bool
  | .logged _ => true
  | _ => false

/-- A renderer for a template that writes the fixed context and then the value of the
first binding as the query. -/
def renderFirst (_t : Unit) (d : TemplateData) : Except error String :=
  .ok (d.Scheme ++ "://" ++ d.HostAndPort ++ "/" ++ d.Index ++ "/_search?q="
    ++ ((d.KvPairs.head?).map (fun kv => kv.Value)).getD "")

/-- A plan that requires the key `title`. -/
def titlePlan : Template Unit := { Template := (), Keys := ["title"] }

/-- A plan that requires the key `doi`. -/
def doiPlan : Template Unit := { Template := (), Keys := ["doi"] }

/-- A result handler that reports a duplicate when the search has a hit. -/
def duplicateHandler (m : Match) : error :=
  if m.HitCount = 0 then .nil else .foreign ("duplicate of " ++ m.PassUri)

/-- An `http.Client` that answers every request with `res`. -/
def transportAnswering (res : Response) : HttpClient := { Do := fun _ => .ok res }

/-! ## Base URIs (`env/env.go`) -/

/-- The loop of `StripBaseUri`: `r` holds `resultingPath` and `baseUri`. -/
def stripLoop (uri : String) : List String → String × String → String × String
  | [], r => r
  | p :: ps, r => if hasPrefix uri p then (trimPrefix uri p, p) else stripLoop uri ps r

/-- Go `StripBaseUri`: the resulting path and the base URI that was stripped. -/
def StripBaseUri (uri : String) (baseUris : List String) : String × String :=
  stripLoop uri baseUris (uri, "")

/-! ## The traversal engine (`visit/visitor.go`)

The visitor, the default predicates and container trees; then `Walk` and
`walkInternal` as functions, for the runs in which the units of work go one at a
time: each unit runs to its end (the walk below it included) before the next is
launched, so that it reads back from `c` and `e` what its own fetch wrote.  The
runs in which the goroutines interleave are those of the machine of the next
section, of which the functions give the run under `Tree.oneAtATime`. -/

/-- Go `Visitor`.  `semaphore` is the number of values in the buffer of the semaphore
channel and `semaphoreCap` its capacity; `Containers` and `Errors` are the values
sent on the two channels so far, in order, with the flags set by `close`. -/
structure Visitor where
  retriever : String → LdpContainer × error
  semaphoreCap : Nat
  semaphore : Nat
  Containers : List LdpContainer
  Errors : List error
  closedContainers : Bool
  closedErrors : Bool

/-- Go `New`; a negative `maxConcurrent` (for which `make` panics) is excluded by the
type. -/
def New (retriever : String → LdpContainer × error) (maxConcurrent : Nat) : Visitor :=
  { retriever := retriever, semaphoreCap := maxConcurrent, semaphore := 0,
    Containers := [], Errors := [], closedContainers := false, closedErrors := false }

/-- Go `defaultFilter`. -/
def defaultFilter (_c : LdpContainer) : Bool := true

/-- Go `defaultAccept`. -/
def defaultAccept (c : LdpContainer) : Bool :=
  if c.IsPassResource.1 then
    if c.Uri.length > 0 then true else false
  else false

/-- How far a walk got. -/
inductive Walked (α : Type) where
  /-- The call returned. -/
  | done (a : α)
  /-- The call ended in `log.Fatalf`: the process exits. -/
  | fatal (msg : String)
  /-- The send on the semaphore channel cannot proceed: the buffer is full and no
  unit is left to drain it. -/
  | blocked
  /-- The model ran out of fuel before the walk ended. -/
  | outOfFuel

/-- One iteration of the loop of `walkInternal` (lines 108-130) when the unit launched
runs to its end before the loop goes on: a slot is taken, the unit fetches,
releases the slot, and sends the error or tests the resource that it fetched.
`recurse` is the nested call of `walkInternal`. -/
def walkUnit (ext : error → String) (recurse : Visitor → LdpContainer → Walked Visitor)
    (filter accept : LdpContainer → Bool) (r : Walked Visitor) (uri : String) :
    Walked Visitor :=
  match r with
  | .done v =>
    if v.semaphore < v.semaphoreCap then
      let v1 := { v with semaphore := v.semaphore + 1 }
      let got := v1.retriever uri
      if got.2 ≠ .nil then
        let v2 := { v1 with semaphore := v1.semaphore - 1 }
        .done { v2 with
          Errors := v2.Errors ++
            [.errorString (errText ext (.VisitErr uri (errText ext got.2) got.2))] }
      else
        let v2 := { v1 with semaphore := v1.semaphore - 1 }
        let v3 := if accept got.1 then { v2 with Containers := v2.Containers ++ [got.1] } else v2
        if filter got.1 then recurse v3 got.1 else .done v3
    else .blocked
  | r => r

/-- Go `Visitor.walkInternal` with its units one at a time; the first argument bounds the
depth of the descent. -/
def walkInternal (ext : error → String) :
    Nat → Visitor → LdpContainer → (LdpContainer → Bool) → (LdpContainer → Bool) →
      Walked Visitor
  | 0, _, _, _, _ => .outOfFuel
  | fuel + 1, v, c, filter, accept =>
    c.Contains.foldl
      (walkUnit ext (fun v c => walkInternal ext fuel v c filter accept) filter accept) (.done v)

/-- Go `Visitor.Walk` with the units one at a time; a nil predicate is `none`. -/
def Walk (ext : error → String) (fuel : Nat) (v : Visitor) (startUri : String)
    (filter accept : Option (LdpContainer → Bool)) : Walked Visitor :=
  let got := v.retriever startUri
  if got.2 ≠ .nil then
    .fatal ("visit: error retrieving " ++ startUri ++ ": " ++ errText ext got.2)
  else if got.1.Uri = "" then .fatal ("visit: missing container for " ++ startUri)
  else
    let filter := match filter with
      | none => defaultFilter
      | some f => f
    let accept := match accept with
      | none => defaultAccept
      | some f => f
    let v1 := if accept got.1 then { v with Containers := v.Containers ++ [got.1] } else v
    match walkInternal ext fuel v1 got.1 filter accept with
    | .done v2 => .done { v2 with closedContainers := true, closedErrors := true }
    | r => r

/-- The errors sent on the `Errors` channel by a walk that returned. -/
def Walked.errors : Walked Visitor → Option (List error)
  | .done v => some v.Errors
  | _ => none

mutual
/-- A finite container tree: a resource and the trees of its children. -/
inductive Tree where
  | node (c : LdpContainer) (children : Forest)
/-- The trees of the children of a node, in the order of `Contains()`. -/
inductive Forest where
  | nil
  | cons (t : Tree) (ts : Forest)
end

/-- The resource at the root of a tree. -/
def Tree.root : Tree → LdpContainer
  | .node c _ => c

/-- The trees of the children of the root. -/
def Tree.children : Tree → Forest
  | .node _ ts => ts

mutual
/-- All the nodes of a tree, the root first. -/
def Tree.nodes : Tree → List LdpContainer
  | .node c ts => c :: Forest.nodes ts
/-- All the nodes of the trees of a forest. -/
def Forest.nodes : Forest → List LdpContainer
  | .nil => []
  | .cons t ts => Tree.nodes t ++ Forest.nodes ts
end

mutual
/-- The nodes of the tree of a child that the descent fetches: the child, and what is
fetched below it when the descend predicate holds of it. -/
def Tree.visited (filter : LdpContainer → Bool) : Tree → List LdpContainer
  | .node c ts => c :: (if filter c then Forest.visited filter ts else [])
/-- The nodes that the descent fetches in the trees of a forest. -/
def Forest.visited (filter : LdpContainer → Bool) : Forest → List LdpContainer
  | .nil => []
  | .cons t ts => Tree.visited filter t ++ Forest.visited filter ts
end

/-- The nodes that a walk of the tree fetches: the root, its children, and the
children of every fetched node other than the root of which the descend
predicate holds. -/
def Tree.reached (filter : LdpContainer → Bool) : Tree → List LdpContainer
  | .node c ts => c :: Forest.visited filter ts

mutual
/-- The number of levels of a tree. -/
def Tree.height : Tree → Nat
  | .node _ ts => Forest.height ts + 1
/-- The number of levels of the highest tree of a forest. -/
def Forest.height : Forest → Nat
  | .nil => 0
  | .cons t ts => max (Tree.height t) (Forest.height ts)
end

mutual
/-- The retriever `get` serves the tree below its root: every child URI is fetched
without error and yields the root of the child's tree. -/
def Tree.Fetched (get : String → LdpContainer × error) : Tree → Prop
  | .node c ts => Forest.Fetched get c.Contains ts
/-- The retriever serves the trees `ts` at the URIs `uris`. -/
def Forest.Fetched (get : String → LdpContainer × error) : List String → Forest → Prop
  | [], .nil => True
  | u :: us, .cons t ts => get u = (Tree.root t, .nil) ∧ Tree.Fetched get t ∧ Forest.Fetched get us ts
  | _, _ => False
end

/-- A plain container with the given URI and children. -/
def plainContainer (uri : String) (children : List String) : LdpContainer :=
  { Uri := uri, Types := [], PassType := "", PassProperties := [], Contains := children }

/-- A retriever for the chain `http://repo/a` ⊃ `http://repo/a/b` ⊃ `http://repo/a/b/c`;
every other URI fails with `404 Not Found`. -/
def chainRetriever (uri : String) : LdpContainer × error :=
  if uri = "http://repo/a" then (plainContainer "http://repo/a" ["http://repo/a/b"], .nil)
  else if uri = "http://repo/a/b" then
    (plainContainer "http://repo/a/b" ["http://repo/a/b/c"], .nil)
  else if uri = "http://repo/a/b/c" then (plainContainer "http://repo/a/b/c" [], .nil)
  else (plainContainer "" [], .foreign "404 Not Found")

/-- The tree served by `chainRetriever` from `http://repo/a`. -/
def chainTree : Tree :=
  .node (plainContainer "http://repo/a" ["http://repo/a/b"])
    (.cons (.node (plainContainer "http://repo/a/b" ["http://repo/a/b/c"])
      (.cons (.node (plainContainer "http://repo/a/b/c" []) .nil) .nil)) .nil)

/-- A PASS resource of type `Policy` without children. -/
def policyContainer (uri : String) : LdpContainer :=
  { Uri := uri, Types := [], PassType := "Policy", PassProperties := [],
    IsPassResource := (true, "Policy") }

/-- A retriever for the container `http://repo/policies` with two children: the PASS
resource `http://repo/policies/1` and the plain container `http://repo/policies/acl`. -/
def policiesRetriever (uri : String) : LdpContainer × error :=
  if uri = "http://repo/policies" then
    (plainContainer "http://repo/policies"
      ["http://repo/policies/1", "http://repo/policies/acl"], .nil)
  else if uri = "http://repo/policies/1" then (policyContainer "http://repo/policies/1", .nil)
  else if uri = "http://repo/policies/acl" then
    (plainContainer "http://repo/policies/acl" [], .nil)
  else (plainContainer "" [], .foreign "404 Not Found")

/-- The tree served by `policiesRetriever` from `http://repo/policies`. -/
def policiesTree : Tree :=
  .node (plainContainer "http://repo/policies"
      ["http://repo/policies/1", "http://repo/policies/acl"])
    (.cons (.node (policyContainer "http://repo/policies/1") .nil)
      (.cons (.node (plainContainer "http://repo/policies/acl" []) .nil) .nil))

/-- A retriever for a root `http://repo/r` with the one child `http://repo/r/gone`,
whose fetch fails with `404 Not Found`. -/
def brokenRetriever (uri : String) : LdpContainer × error :=
  if uri = "http://repo/r" then (plainContainer "http://repo/r" ["http://repo/r/gone"], .nil)
  else (plainContainer "" [], .foreign "404 Not Found")

/-! ## The traversal engine as a machine of goroutines (`visit/visitor.go`)

A state holds the visitor, the calls of `walkInternal` in progress with their
shared `c` and `e`, and the program point of every goroutine.  A step moves one
goroutine over one statement of lines 108-131; the return of `retriever.Get`
with the assignment `c, e = ...` is one step, and so is each later read of `c`
or `e`.  A schedule is the list of the goroutines that move, in order. -/

/-- An evaluation of one of the two predicates during a walk. -/
inductive PredicateCall where
  /-- A call `accept(c)`. -/
  | accept (c : LdpContainer)
  /-- A call `filter(c)` of the descend predicate. -/
  | filter (c : LdpContainer)
  deriving DecidableEq, Repr

/-- The visitor together with the predicate calls made so far, in order. -/
abbrev Traced := Visitor × List PredicateCall

/-- Where a unit of work (the goroutine of lines 110-129) stands. -/
inductive UnitPc where
  /-- Launched by `go`; `retriever.Get` is not yet called. -/
  | launched
  /-- Inside `retriever.Get(uri)` (line 112). -/
  | fetching
  /-- The fetch returned and `c, e` are assigned; `e != nil` is tested next. -/
  | fetched
  /-- Before `<-v.semaphore` of line 113. -/
  | errRelease
  /-- Before the send on `v.Errors` of line 114. -/
  | errSend
  /-- Before `<-v.semaphore` of line 120. -/
  | okRelease
  /-- Before the call `accept(c)` of line 121. -/
  | acceptCall
  /-- Before the send `v.Containers <- c` of line 122. -/
  | sendContainer
  /-- Before the call `filter(c)` of line 124. -/
  | filterCall
  /-- Before the call `v.walkInternal(c, filter, accept)` of line 125. -/
  | descend
  /-- Before `wg.Done()` of line 128. -/
  | finishing
  /-- The goroutine has ended. -/
  | finished
  deriving DecidableEq, Repr

mutual
/-- A call of `walkInternal` in progress: its variables `c` (the parameter) and `e`
(line 105), which every unit it launches reads and writes, the URIs of the loop
of line 108 that are still to come, and the units launched so far. -/
inductive Frame where
  | mk (c : LdpContainer) (e : error) (todo : List String) (units : Units)
/-- The units launched by a call of `walkInternal`, in the order of their launch. -/
inductive Units where
  | nil
  | cons (u : WorkUnit) (us : Units)
/-- A unit of work: at a program point of its own, or inside its nested call of
`walkInternal`. -/
inductive WorkUnit where
  | running (uri : String) (pc : UnitPc)
  | inside (uri : String) (frame : Frame)
end

/-- The unit with the given index. -/
def Units.get? : Units → Nat → Option WorkUnit
  | .nil, _ => none
  | .cons u _, 0 => some u
  | .cons _ us, n + 1 => Units.get? us n

/-- The units with the unit of the given index replaced. -/
def Units.set : Units → Nat → WorkUnit → Units
  | .nil, _, _ => .nil
  | .cons _ us, 0, w => .cons w us
  | .cons u us, n + 1, w => .cons u (Units.set us n w)

/-- The units with one more unit launched. -/
def Units.snoc : Units → WorkUnit → Units
  | .nil, w => .cons w .nil
  | .cons u us, w => .cons u (Units.snoc us w)

/-- The number of units. -/
def Units.length : Units → Nat
  | .nil => 0
  | .cons _ us => Units.length us + 1

/-- The unit has called `wg.Done()`. -/
def WorkUnit.isFinished : WorkUnit → Bool
  | .running _ .finished => true
  | _ => false

/-- Every unit has called `wg.Done()`. -/
def Units.allFinished : Units → Bool
  | .nil => true
  | .cons u us => u.isFinished && Units.allFinished us

/-- The result of a step of a unit at a program point of its own. -/
inductive UnitStep where
  /-- The visitor and the call log, the shared `c` and `e`, and the unit after the step. -/
  | next (s : Traced) (c : LdpContainer) (e : error) (u : WorkUnit)
  /-- The step called `e.Error()` on a nil `e`: the goroutine panics and the process
  ends. -/
  | panic (s : Traced)

/-- One step of a unit that is not inside a nested call.  `c` and `e` are the variables
of the enclosing call of `walkInternal`; each step reads or writes them at most
once.  `none`: the unit cannot move (it has ended, or it waits to receive from an
empty semaphore channel). -/
def stepUnit (ext : error → String) (filter accept : LdpContainer → Bool) (s : Traced)
    (c : LdpContainer) (e : error) (uri : String) : UnitPc → Option UnitStep
  | .launched => some (.next s c e (.running uri .fetching))
  | .fetching =>
    let got := s.1.retriever uri
    some (.next s got.1 got.2 (.running uri .fetched))
  | .fetched => some (.next s c e (.running uri (if e ≠ .nil then .errRelease else .okRelease)))
  | .errRelease =>
    if s.1.semaphore = 0 then none
    else some (.next ({ s.1 with semaphore := s.1.semaphore - 1 }, s.2) c e (.running uri .errSend))
  | .errSend =>
    if e = .nil then some (.panic s)
    else some (.next ({ s.1 with
        Errors := s.1.Errors ++ [.errorString (errText ext (.VisitErr uri (errText ext e) e))] },
      s.2) c e (.running uri .finishing))
  | .okRelease =>
    if s.1.semaphore = 0 then none
    else some (.next ({ s.1 with semaphore := s.1.semaphore - 1 }, s.2) c e
      (.running uri .acceptCall))
  | .acceptCall =>
    some (.next (s.1, s.2 ++ [.accept c]) c e
      (.running uri (if accept c then .sendContainer else .filterCall)))
  | .sendContainer =>
    some (.next ({ s.1 with Containers := s.1.Containers ++ [c] }, s.2) c e
      (.running uri .filterCall))
  | .filterCall =>
    some (.next (s.1, s.2 ++ [.filter c]) c e
      (.running uri (if filter c then .descend else .finishing)))
  | .descend => some (.next s c e (.inside uri (.mk c .nil c.Contains .nil)))
  | .finishing => some (.next s c e (.running uri .finished))
  | .finished => none

/-- The result of a step inside a call of `walkInternal`. -/
inductive FrameStep where
  /-- The visitor, the call log and the call after the step. -/
  | stepped (s : Traced) (f : Frame)
  /-- The step was the return of the call: `wg.Wait()` passed. -/
  | returned (s : Traced)
  /-- A goroutine panicked. -/
  | panicked (s : Traced)

/-- One step of the goroutine named by `path` in a call of `walkInternal`.  The empty
path names the goroutine that runs the call itself: it takes a slot and launches
the unit of the next URI (lines 109-110, possible only while the semaphore
channel has room) or, after the loop, returns once every unit has called
`wg.Done()` (line 131).  The path `i :: path` names a goroutine in or below the
unit launched `i`-th: the unit itself when `path` is empty, and otherwise the
goroutine named by `path` in the nested call of that unit. -/
def stepFrame (ext : error → String) (filter accept : LdpContainer → Bool) :
    List Nat → Traced → Frame → Option FrameStep
  | [], s, .mk c e todo units =>
    match todo with
    | uri :: rest =>
      if s.1.semaphore < s.1.semaphoreCap then
        some (.stepped ({ s.1 with semaphore := s.1.semaphore + 1 }, s.2)
          (.mk c e rest (units.snoc (.running uri .launched))))
      else none
    | [] => if units.allFinished then some (.returned s) else none
  | i :: path, s, .mk c e todo units =>
    match units.get? i with
    | none => none
    | some (.running uri pc) =>
      match path with
      | [] =>
        match stepUnit ext filter accept s c e uri pc with
        | none => none
        | some (.next s1 c1 e1 u1) => some (.stepped s1 (.mk c1 e1 todo (units.set i u1)))
        | some (.panic s1) => some (.panicked s1)
      | _ :: _ => none
    | some (.inside uri sub) =>
      match stepFrame ext filter accept path s sub with
      | none => none
      | some (.stepped s1 sub1) => some (.stepped s1 (.mk c e todo (units.set i (.inside uri sub1))))
      | some (.returned s1) =>
        some (.stepped s1 (.mk c e todo (units.set i (.running uri .finishing))))
      | some (.panicked s1) => some (.panicked s1)

/-- Where the goroutine that called `Walk` stands once the start resource is fetched
and tested. -/
inductive WalkPc where
  /-- Inside the call `v.walkInternal(c, filter, accept)` of line 98. -/
  | walking (f : Frame)
  /-- Both channels are closed and `Walk` has returned. -/
  | returned
  /-- A goroutine panicked: the process has ended. -/
  | panicked

/-- The state of a walk: the visitor with the values sent so far, the predicate calls
made so far, and the goroutines. -/
abbrev WalkState := Traced × WalkPc

/-- One step of the goroutine named by `path`; `none` when that goroutine does not
exist or cannot move. -/
def stepWalk (ext : error → String) (filter accept : LdpContainer → Bool) (m : WalkState)
    (path : List Nat) : Option WalkState :=
  match m.2 with
  | .walking f =>
    match stepFrame ext filter accept path m.1 f with
    | none => none
    | some (.stepped s f1) => some (s, .walking f1)
    | some (.returned s) =>
      some (({ s.1 with closedContainers := true, closedErrors := true }, s.2), .returned)
    | some (.panicked s) => some (s, .panicked)
  | _ => none

/-- The steps of a schedule, one after the other; `none` when the schedule names a
goroutine that cannot move. -/
def runWalk (ext : error → String) (filter accept : LdpContainer → Bool) :
    WalkState → List (List Nat) → Option WalkState
  | m, [] => some m
  | m, path :: sched =>
    match stepWalk ext filter accept m path with
    | none => none
    | some m1 => runWalk ext filter accept m1 sched

/-- The predicate that `Walk` uses for a possibly nil argument. -/
def orDefault (dflt : LdpContainer → Bool) :
    Option (LdpContainer → Bool) → LdpContainer → Bool
  | none => dflt
  | some f => f

/-- Go `Visitor.Walk` up to the call of `walkInternal` (lines 73-98): no other
goroutine exists yet.  The descend predicate is not called here. -/
def startWalk (ext : error → String) (v : Visitor) (startUri : String)
    (accept : Option (LdpContainer → Bool)) : Walked WalkState :=
  let got := v.retriever startUri
  if got.2 ≠ .nil then
    .fatal ("visit: error retrieving " ++ startUri ++ ": " ++ errText ext got.2)
  else if got.1.Uri = "" then .fatal ("visit: missing container for " ++ startUri)
  else
    let accept := orDefault defaultAccept accept
    let v1 := if accept got.1 then { v with Containers := v.Containers ++ [got.1] } else v
    .done ((v1, [.accept got.1]), .walking (.mk got.1 .nil got.1.Contains .nil))

/-- Go `Visitor.Walk` under a schedule: the start of the walk followed by the steps
of the goroutines in the order given.  `none` when the walk ends in `log.Fatalf`
or the schedule names a goroutine that cannot move. -/
def WalkUnder (ext : error → String) (v : Visitor) (startUri : String)
    (filter accept : Option (LdpContainer → Bool)) (sched : List (List Nat)) :
    Option WalkState :=
  match startWalk ext v startUri accept with
  | .done m => runWalk ext (orDefault defaultFilter filter) (orDefault defaultAccept accept) m sched
  | _ => none

mutual
/-- The number of units of a call, nested calls included, that hold a slot of the
semaphore: launched and not yet past `<-v.semaphore`. -/
def Frame.slots : Frame → Nat
  | .mk _ _ _ units => Units.slots units
/-- Slots held by the units of a list. -/
def Units.slots : Units → Nat
  | .nil => 0
  | .cons u us => WorkUnit.slots u + Units.slots us
/-- Slots held by a unit or below it. -/
def WorkUnit.slots : WorkUnit → Nat
  | .running _ pc =>
    if pc = .launched ∨ pc = .fetching ∨ pc = .fetched ∨ pc = .errRelease ∨ pc = .okRelease
    then 1 else 0
  | .inside _ f => Frame.slots f
end

mutual
/-- The number of units of a call, nested calls included, that are inside
`retriever.Get`. -/
def Frame.inFlight : Frame → Nat
  | .mk _ _ _ units => Units.inFlight units
/-- Fetches in flight among the units of a list. -/
def Units.inFlight : Units → Nat
  | .nil => 0
  | .cons u us => WorkUnit.inFlight u + Units.inFlight us
/-- Fetches in flight in a unit or below it. -/
def WorkUnit.inFlight : WorkUnit → Nat
  | .running _ pc => if pc = .fetching then 1 else 0
  | .inside _ f => Frame.inFlight f
end

/-- The number of child `retriever.Get` calls in flight in a state of a walk. -/
def WalkState.inFlight (m : WalkState) : Nat :=
  match m.2 with
  | .walking f => f.inFlight
  | _ => 0

/-- The walk has returned. -/
def WalkState.isReturned (m : WalkState) : Bool :=
  match m.2 with
  | .returned => true
  | _ => false

mutual
/-- The steps of the unit launched `i`-th that fetches the root of the tree, when it
runs from its launch to its end without any other goroutine of its call moving:
the launch, the fetch, the release, the two predicate calls with the send and the
nested call between them as the predicates decide, and `wg.Done()`. -/
def Tree.unitSteps (filter accept : LdpContainer → Bool) (i : Nat) : Tree → List (List Nat)
  | .node c ts =>
    [[], [i], [i], [i], [i], [i]]
      ++ (if accept c then [[i]] else [])
      ++ [[i]]
      ++ (if filter c then
            [[i]] ++ (Forest.unitSteps filter accept 0 ts).map (fun path => i :: path) ++ [[i]]
          else [])
      ++ [[i]]
/-- The steps of the units of the trees of a forest, one unit after the other, the
first of them launched `i`-th. -/
def Forest.unitSteps (filter accept : LdpContainer → Bool) (i : Nat) : Forest → List (List Nat)
  | .nil => []
  | .cons t ts => Tree.unitSteps filter accept i t ++ Forest.unitSteps filter accept (i + 1) ts
end

/-- The schedule of a walk of the tree in which the units run one at a time: each unit
runs from its launch to its end, the walk below it included, before the next unit
is launched; the last step is the return of `Walk`. -/
def Tree.oneAtATime (filter accept : LdpContainer → Bool) (t : Tree) : List (List Nat) :=
  Forest.unitSteps filter accept 0 t.children ++ [[]]

/-- The resources on which `accept` was called. -/
def acceptCalls (log : List PredicateCall) : List LdpContainer :=
  log.filterMap (fun call => match call with
    | .accept c => some c
    | .filter _ => none)

/-- The resources on which the descend predicate was called. -/
def filterCalls (log : List PredicateCall) : List LdpContainer :=
  log.filterMap (fun call => match call with
    | .accept _ => none
    | .filter c => some c)

mutual
/-- The predicate calls of the unit that fetches the root of the tree `t`, when it
reads back its own fetch result. -/
def Tree.unitCalls (filter : LdpContainer → Bool) : Tree → List PredicateCall
  | .node c ts =>
    [.accept c, .filter c] ++ (if filter c then Forest.unitCalls filter ts else [])
/-- The predicate calls of the units that fetch the roots of the trees of a forest. -/
def Forest.unitCalls (filter : LdpContainer → Bool) : Forest → List PredicateCall
  | .nil => []
  | .cons t ts => Tree.unitCalls filter t ++ Forest.unitCalls filter ts
end

/-! ## Runs in which every unit reads back its own fetch result -/

/-- The unit has fetched and has yet to read `c` or `e`: it stands between the
assignment of line 112 and its last use of the two variables (the test of `e`,
`e.Error()`, `accept(c)`, the send, `filter(c)`, the nested call). -/
def UnitPc.reading : UnitPc → Bool
  | .fetched => true
  | .errRelease => true
  | .errSend => true
  | .okRelease => true
  | .acceptCall => true
  | .sendContainer => true
  | .filterCall => true
  | .descend => true
  | _ => false

/-- The unit stands between its fetch and its last read of `c` and `e`. -/
def WorkUnit.reading : WorkUnit → Bool
  | .running _ pc => pc.reading
  | .inside _ _ => false

/-- The number of units of a call that stand between their fetch and their last read
of the variables `c`, `e` of the call. -/
def Units.readers : Units → Nat
  | .nil => 0
  | .cons u us => (if u.reading then 1 else 0) + Units.readers us

mutual
/-- In the call and in every call nested in it, at most one unit stands between its
fetch and its last read of `c` and `e`: no unit finds the fetch result of
another unit in the variables it is about to read. -/
def Frame.exclusive : Frame → Bool
  | .mk _ _ _ units => decide (Units.readers units ≤ 1) && Units.exclusive units
/-- Every call nested in the units of the list is exclusive. -/
def Units.exclusive : Units → Bool
  | .nil => true
  | .cons u us => WorkUnit.exclusive u && Units.exclusive us
/-- The call nested in the unit, if any, is exclusive. -/
def WorkUnit.exclusive : WorkUnit → Bool
  | .running _ _ => true
  | .inside _ f => Frame.exclusive f
end

/-- Every call of `walkInternal` in progress is exclusive. -/
def WalkState.exclusive (m : WalkState) : Bool :=
  match m.2 with
  | .walking f => f.exclusive
  | _ => true

/-- Every state that the schedule goes through, from `m` on, is exclusive: no fetch
overwrites `c` and `e` while a unit of the same call still has to read them. -/
def ownReads (ext : error → String) (filter accept : LdpContainer → Bool) :
    WalkState → List (List Nat) → Bool
  | m, [] => m.exclusive
  | m, path :: sched =>
    m.exclusive &&
      match stepWalk ext filter accept m path with
      | none => true
      | some m1 => ownReads ext filter accept m1 sched

/-- Every state of the run of `Walk` under the schedule is exclusive. -/
def WalkOwnReads (ext : error → String) (v : Visitor) (startUri : String)
    (filter accept : Option (LdpContainer → Bool)) (sched : List (List Nat)) : Bool :=
  match startWalk ext v startUri accept with
  | .done m =>
    ownReads ext (orDefault defaultFilter filter) (orDefault defaultAccept accept) m sched
  | _ => false

mutual
/-- What the units of a call have sent on `Containers` so far, nested calls
included, when the units of the call fetch the roots of the trees `ts` and each
unit reads back its own fetch result. -/
def Frame.sent (filter accept : LdpContainer → Bool) : Frame → Forest → List LdpContainer
  | .mk _ _ _ units, ts => Units.sent filter accept units ts
/-- What the units of the list have sent so far. -/
def Units.sent (filter accept : LdpContainer → Bool) : Units → Forest → List LdpContainer
  | .cons u us, .cons t ts => WorkUnit.sent filter accept u t ++ Units.sent filter accept us ts
  | _, _ => []
/-- What the unit that fetches the root of `t` has sent so far, with the units below
it. -/
def WorkUnit.sent (filter accept : LdpContainer → Bool) : WorkUnit → Tree → List LdpContainer
  | .running _ pc, t =>
    if pc = .filterCall ∨ pc = .descend then (if accept t.root then [t.root] else [])
    else if pc = .finishing ∨ pc = .finished then (Tree.visited filter t).filter accept
    else []
  | .inside _ sub, t =>
    (if accept t.root then [t.root] else []) ++ Frame.sent filter accept sub t.children
end

mutual
/-- The predicate calls that the units of a call have made so far, nested calls
included, when each unit reads back its own fetch result. -/
def Frame.called (filter : LdpContainer → Bool) : Frame → Forest → List PredicateCall
  | .mk _ _ _ units, ts => Units.called filter units ts
/-- The predicate calls that the units of the list have made so far. -/
def Units.called (filter : LdpContainer → Bool) : Units → Forest → List PredicateCall
  | .cons u us, .cons t ts => WorkUnit.called filter u t ++ Units.called filter us ts
  | _, _ => []
/-- The predicate calls that the unit that fetches the root of `t` has made so far,
with the units below it. -/
def WorkUnit.called (filter : LdpContainer → Bool) : WorkUnit → Tree → List PredicateCall
  | .running _ pc, t =>
    if pc = .sendContainer ∨ pc = .filterCall then [.accept t.root]
    else if pc = .descend then [.accept t.root, .filter t.root]
    else if pc = .finishing ∨ pc = .finished then Tree.unitCalls filter t
    else []
  | .inside _ sub, t => [.accept t.root, .filter t.root] ++ Frame.called filter sub t.children
end

mutual
/-- The call of `walkInternal` is at work on the node at the root of `t`: its units
fetch the children of the node, in order. -/
def Frame.Ok (get : String → LdpContainer × error) (filter accept : LdpContainer → Bool) :
    Frame → Tree → Prop
  | .mk c e todo units, t =>
    Units.Ok get filter accept c e todo units t.root.Contains t.children
/-- The units launched are those of the first URIs of `uris`, which the retriever
serves with the roots of the first trees of `ts`; `todo` holds the other URIs. -/
def Units.Ok (get : String → LdpContainer × error) (filter accept : LdpContainer → Bool)
    (c : LdpContainer) (e : error) (todo : List String) :
    Units → List String → Forest → Prop
  | .nil, uris, ts => todo = uris ∧ Forest.Fetched get uris ts
  | .cons w ws, u :: uris, .cons t ts =>
    WorkUnit.Ok get filter accept c e w u t ∧ Units.Ok get filter accept c e todo ws uris ts
  | .cons _ _, _, _ => False
/-- The unit is the one of the URI `u`, served with the root of `t`; while it has reads
to come, `c` and `e` hold its own fetch result, and its program point agrees
with what the predicates return on it. -/
def WorkUnit.Ok (get : String → LdpContainer × error) (filter accept : LdpContainer → Bool)
    (c : LdpContainer) (e : error) : WorkUnit → String → Tree → Prop
  | .running uri pc, u, t =>
    uri = u ∧ get u = (t.root, .nil) ∧ Tree.Fetched get t ∧
      (pc.reading = true → c = t.root ∧ e = .nil) ∧
      pc ≠ .errRelease ∧ pc ≠ .errSend ∧
      (pc = .sendContainer → accept t.root = true) ∧
      (pc = .descend → filter t.root = true)
  | .inside uri sub, u, t =>
    uri = u ∧ get u = (t.root, .nil) ∧ Tree.Fetched get t ∧ filter t.root = true ∧
      Frame.Ok get filter accept sub t
end

/-- The state belongs to a walk of the tree `t` in which every unit has read back its
own fetch result: the calls in progress are at work on the nodes of `t`, and what
was sent and which predicate calls were made is, up to the order, what the units
have done so far; once `Walk` has returned, that is the whole of it. -/
def WalkState.Ok (get : String → LdpContainer × error) (filter accept : LdpContainer → Bool)
    (t : Tree) (m : WalkState) : Prop :=
  m.1.1.retriever = get ∧
    match m.2 with
    | .walking fr =>
      Frame.Ok get filter accept fr t ∧
      m.1.1.Containers.Perm
        ((if accept t.root then [t.root] else []) ++ Frame.sent filter accept fr t.children) ∧
      m.1.2.Perm (.accept t.root :: Frame.called filter fr t.children)
    | .returned =>
      m.1.1.Containers.Perm ((Tree.reached filter t).filter accept) ∧
      m.1.2.Perm (.accept t.root :: Forest.unitCalls filter t.children)
    | .panicked => False

/-- Steps inside a call of `walkInternal` that do not end it and after each of which the
call is exclusive, one after the other. -/
def runFrame (ext : error → String) (filter accept : LdpContainer → Bool) :
    List (List Nat) → Traced → Frame → Option (Traced × Frame)
  | [], s, f => some (s, f)
  | path :: sched, s, f =>
    match stepFrame ext filter accept path s f with
    | some (.stepped s1 f1) =>
      if f1.exclusive then runFrame ext filter accept sched s1 f1 else none
    | _ => none

/-- A state of the walk of `http://repo/policies` in which the units of both children
are inside `retriever.Get`. -/
def bothFetching : WalkState :=
  (({ retriever := policiesRetriever, semaphoreCap := 2, semaphore := 2, Containers := [],
      Errors := [], closedContainers := false, closedErrors := false },
    [.accept (plainContainer "http://repo/policies"
      ["http://repo/policies/1", "http://repo/policies/acl"])]),
   .walking (.mk (plainContainer "http://repo/policies"
       ["http://repo/policies/1", "http://repo/policies/acl"]) .nil []
     (.cons (.running "http://repo/policies/1" .fetching)
       (.cons (.running "http://repo/policies/acl" .fetching) .nil))))

/-- A schedule for a walk of `http://repo/policies` with the default predicates in which
the units of the two children overlap.  The unit of `policies/1` is launched,
fetches, releases its slot and calls `accept(c)` (five steps); the unit of
`policies/acl` is launched and fetches, which writes `c`; the first unit sends
`c`, calls `filter(c)`, descends and ends; then the second unit goes on to its
end and `Walk` returns. -/
def overlapAfterAccept : List (List Nat) :=
  [[], [0], [0], [0], [0], [0], [], [1], [1], [0], [0], [0], [0], [0],
   [1], [1], [1], [1], [1], [1], [1], []]

/-- A schedule for a walk of `http://repo/policies` with predicates that are constantly
true in which the units of the two children overlap.  The unit of `policies/1`
is launched, fetches and releases its slot (four steps); the unit of
`policies/acl` is launched and fetches, which writes `c`; the first unit calls
`accept(c)`, sends, calls `filter(c)`, descends and ends; then the second unit
goes on to its end and `Walk` returns. -/
def overlapBeforeAccept : List (List Nat) :=
  [[], [0], [0], [0], [0], [], [1], [1], [0], [0], [0], [0], [0], [0],
   [1], [1], [1], [1], [1], [1], [1], [1], []]

/-- A schedule for a walk of `http://repo/policies` with `N = 2` and predicates that are
constantly true in which the units of the two children overlap and each reads
back its own fetch result.  Both units are launched and call `retriever.Get`;
the fetch of `policies/acl` returns first and its unit goes on until it is
inside its nested call (seven steps); then the fetch of `policies/1` returns and
its unit runs to its end; the unit of `policies/acl` ends and `Walk` returns. -/
def ownReadsOverlap : List (List Nat) :=
  [[], [], [0], [1], [1], [1], [1], [1], [1], [1], [1], [0], [0], [0], [0], [0], [0], [0],
   [0], [0], [1], [1], []]

/-- The state in which the walk of `http://repo/policies` ends under `ownReadsOverlap`:
`policies/acl` was delivered before `policies/1`. -/
def policiesWalked : WalkState :=
  (({ retriever := policiesRetriever, semaphoreCap := 2, semaphore := 0,
      Containers := [plainContainer "http://repo/policies"
          ["http://repo/policies/1", "http://repo/policies/acl"],
        plainContainer "http://repo/policies/acl" [],
        policyContainer "http://repo/policies/1"],
      Errors := [], closedContainers := true, closedErrors := true },
    [.accept (plainContainer "http://repo/policies"
        ["http://repo/policies/1", "http://repo/policies/acl"]),
     .accept (plainContainer "http://repo/policies/acl" []),
     .filter (plainContainer "http://repo/policies/acl" []),
     .accept (policyContainer "http://repo/policies/1"),
     .filter (policyContainer "http://repo/policies/1")]),
   .returned)

/-! ## Triple filters (`internal/integration/fedorautil_test.go`) -/

/-- An `rdf.Triple`, each term given by the text of its `String` method. -/
structure Triple where
  Subj : String
  Pred : String
  Obj : String
  deriving DecidableEq, Repr

/-- The transformer returned by Go `passPredicateAndObjectFilter`: the slice after
the call.  A nil pointer is `none`; `pfx` is `model.PassResourceUriPrefix`. -/
def passPredicateAndObjectFilter (pfx : String) (trips : List (Option Triple)) :
    List (Option Triple) :=
  trips.map (fun trip =>
    match trip with
    | none => none
    | some t => if !hasPrefix t.Pred pfx && !hasPrefix t.Obj pfx then none else some t)

/-- Go `removeNils`. -/
def removeNils (trips : List (Option Triple)) : List Triple :=
  trips.foldl (fun result trip =>
    match trip with
    | some t => result ++ [t]
    | none => result) []

/-- The triples that have both a prefixed predicate and a prefixed object. -/
def bothPrefixed (pfx : String) (trips : List Triple) : List Triple :=
  trips.filter (fun t => hasPrefix t.Pred pfx && hasPrefix t.Obj pfx)

/-- The triples that have a prefixed predicate or a prefixed object. -/
def eitherPrefixed (pfx : String) (trips : List Triple) : List Triple :=
  trips.filter (fun t => hasPrefix t.Pred pfx || hasPrefix t.Obj pfx)

/-- Four triples about `http://repo/s`: a PASS property with a literal value, the
`rdf:type` of a PASS type, a PASS property with a PASS object, and a triple with
neither. -/
def sampleTriples : List Triple :=
  [ { Subj := "http://repo/s", Pred := "NS#title", Obj := "A title" },
    { Subj := "http://repo/s", Pred := "rdf:type", Obj := "NS#Article" },
    { Subj := "http://repo/s", Pred := "NS#journal", Obj := "NS#J1" },
    { Subj := "http://repo/s", Pred := "ldp:contains", Obj := "http://repo/s/c" } ]

/-! ## Further examples -/

/-- A template parser that accepts every text. -/
def parseAlways (_name _text : String) : Except error Unit := .ok ()

/-- A template parser that rejects every text with a syntax error. -/
def parseNever (_name _text : String) : Except error Unit :=
  .error (.foreign "template: unexpected unclosed action")

/-- A plan without required keys. -/
def noKeyPlan : Template Unit := { Template := (), Keys := [] }

/-! # Theorems -/

/-! ## The plan builder -/

theorem length_eq_zero (s : String) (h : s.length = 0) : s = "" := by
  cases s with
  | mk d =>
    have hd : d = [] := List.length_eq_zero.mp h
    subst hd
    rfl

theorem ifBuilt_of_built (tb : tmplBuilderImpl) (msg : String) (h : tb.built = true) :
    tb.ifBuilt msg true = .panicked msg := by
  simp [tmplBuilderImpl.ifBuilt, h]

theorem ifBuilt_of_not_built (tb : tmplBuilderImpl) (msg : String) (b : Bool)
    (h : tb.built = false) : tb.ifBuilt msg b = .returned .nil := by
  simp [tmplBuilderImpl.ifBuilt, h]

theorem built_after_Build {τ : Type} [Inhabited τ] (parse : String → String → Except error τ)
    (p : String) (tb : tmplBuilderImpl) : (tb.Build parse p).1.built = true := by
  cases hb : tb.built
  · simp [tmplBuilderImpl.Build, ifBuilt_of_not_built _ _ _ hb]
  · simp [tmplBuilderImpl.Build, ifBuilt_of_built _ _ hb, hb]

theorem AddKey_of_built (p : String) (tb : tmplBuilderImpl) (key : String)
    (h : tb.built = true) : ∃ msg, tb.AddKey p key = (tb, .panicked msg) := by
  simp [tmplBuilderImpl.AddKey, ifBuilt_of_built _ _ h]

theorem AddQuery_of_built (p : String) (tb : tmplBuilderImpl) (query : String)
    (h : tb.built = true) : ∃ msg, tb.AddQuery p query = (tb, .panicked msg) := by
  simp [tmplBuilderImpl.AddQuery, ifBuilt_of_built _ _ h]

theorem Build_of_built {τ : Type} [Inhabited τ] (parse : String → String → Except error τ)
    (p : String) (tb : tmplBuilderImpl) (h : tb.built = true) :
    ∃ msg, tb.Build parse p = (tb, .panicked msg) := by
  simp [tmplBuilderImpl.Build, ifBuilt_of_built _ _ h]

theorem built_after_call {τ : Type} [Inhabited τ] (parse : String → String → Except error τ)
    (p : String) (tb : tmplBuilderImpl) (c : BuilderCall) (h : tb.built = true) :
    (c.after parse p tb).built = true := by
  cases c with
  | AddKey key =>
    obtain ⟨msg, hm⟩ := AddKey_of_built p tb key h
    simp [BuilderCall.after, hm, h]
  | AddQuery query =>
    obtain ⟨msg, hm⟩ := AddQuery_of_built p tb query h
    simp [BuilderCall.after, hm, h]
  | Build => exact built_after_Build parse p tb

theorem built_after_calls {τ : Type} [Inhabited τ] (parse : String → String → Except error τ)
    (p : String) (calls : List BuilderCall) (tb : tmplBuilderImpl) (h : tb.built = true) :
    (afterCalls parse p tb calls).built = true := by
  induction calls generalizing tb with
  | nil => simpa [afterCalls] using h
  | cons c cs ih =>
    simpa [afterCalls] using ih (c.after parse p tb) (built_after_call parse p tb c h)

/-- C5: once `Build()` has been called on a builder (whatever its state was, and
whatever calls were made on it since), a call of `Build()` panics: it returns
no Template-Plan, and the builder is left as it was. -/
theorem Build_single_use {τ : Type} [Inhabited τ] (parse : String → String → Except error τ)
    (p : String) (tb : tmplBuilderImpl) (calls : List BuilderCall) :
    ∃ msg, (afterCalls parse p (tb.Build parse p).1 calls).Build parse p
      = (afterCalls parse p (tb.Build parse p).1 calls, .panicked msg) :=
  Build_of_built parse p _ (built_after_calls parse p calls _ (built_after_Build parse p tb))

/-- C6: once `Build()` has been called on a builder, `AddKey(key)` and
`AddQuery(text)` panic for every key and text, and leave the builder (its keys
and its query) unchanged. -/
theorem no_mutation_after_Build {τ : Type} [Inhabited τ]
    (parse : String → String → Except error τ) (p : String) (tb : tmplBuilderImpl)
    (calls : List BuilderCall) (key text : String) :
    (∃ msg, (afterCalls parse p (tb.Build parse p).1 calls).AddKey p key
      = (afterCalls parse p (tb.Build parse p).1 calls, .panicked msg)) ∧
    (∃ msg, (afterCalls parse p (tb.Build parse p).1 calls).AddQuery p text
      = (afterCalls parse p (tb.Build parse p).1 calls, .panicked msg)) :=
  ⟨AddKey_of_built p _ key (built_after_calls parse p calls _ (built_after_Build parse p tb)),
   AddQuery_of_built p _ text (built_after_calls parse p calls _ (built_after_Build parse p tb))⟩

/-- C7: on a fresh builder `AddQuery(q1)` with a non-empty `q1` returns and stores
`q1` as the raw query; a following `AddQuery(q2)`, for every text `q2`, panics
and leaves the stored query equal to `q1`. -/
theorem AddQuery_once (p q1 q2 : String) (h1 : q1 ≠ "") :
    newTmplBuilder.AddQuery p q1 = ({ newTmplBuilder with query := q1 }, .returned ()) ∧
    (∃ msg, (newTmplBuilder.AddQuery p q1).1.AddQuery p q2
      = ((newTmplBuilder.AddQuery p q1).1, .panicked msg)) ∧
    ((newTmplBuilder.AddQuery p q1).1.AddQuery p q2).1.query = q1 := by
  have hlen : q1.length ≠ 0 := fun h => h1 (length_eq_zero q1 h)
  have e1 : newTmplBuilder.AddQuery p q1 = ({ newTmplBuilder with query := q1 }, .returned ()) := by
    simp [tmplBuilderImpl.AddQuery, tmplBuilderImpl.ifBuilt, newTmplBuilder]
  refine ⟨e1, ?_, ?_⟩ <;> rw [e1] <;>
    simp [tmplBuilderImpl.AddQuery, tmplBuilderImpl.ifBuilt, newTmplBuilder, hlen]

theorem AddQuery_once_witness :
    newTmplBuilder.AddQuery "0xc000010000" "q=1"
      = ({ newTmplBuilder with query := "q=1" }, .returned ()) ∧
    (∃ msg, (newTmplBuilder.AddQuery "0xc000010000" "q=1").1.AddQuery "0xc000010000" "q=2"
      = ((newTmplBuilder.AddQuery "0xc000010000" "q=1").1, .panicked msg)) ∧
    ((newTmplBuilder.AddQuery "0xc000010000" "q=1").1.AddQuery "0xc000010000" "q=2").1.query
      = "q=1" :=
  AddQuery_once "0xc000010000" "q=1" "q=2" (by decide)

/-! ## The search client -/

theorem collectUris_eq (hits : List Hit) (m : Match) :
    collectUris m hits
      = { m with MatchingUris := m.MatchingUris ++ hits.map (fun hit => hit.Source.Id) } := by
  induction hits generalizing m with
  | nil => simp [collectUris]
  | cons hit hits ih =>
    have := ih { m with MatchingUris := m.MatchingUris ++ [hit.Source.Id] }
    simp only [collectUris, List.foldl_cons] at this ⊢
    rw [this]
    simp

theorem performQuery_of_decoded (NewRequest : String → String → Except error Request)
    (Unmarshal : String → Except error HitsDoc) (query : String) (esClient : ElasticSearchClient)
    (req : Request) (res : Response) (body : String) (doc : HitsDoc)
    (hreq : NewRequest "GET" query = .ok req) (hdo : esClient.http.Do req = .ok res)
    (hstatus : res.StatusCode = 200) (hbody : res.Body = .ok body)
    (hdec : Unmarshal body = .ok doc) :
    performQuery NewRequest Unmarshal query esClient
      = ({ QueryUrl := query, HitCount := doc.Hits.Total,
           MatchingUris :=
             if doc.Hits.Total = 0 then [] else doc.Hits.Hits.map (fun hit => hit.Source.Id),
           PassUri := "", PassType := "" }, .nil) := by
  by_cases h0 : doc.Hits.Total = 0
  · simp [performQuery, hreq, hdo, hstatus, hbody, hdec, h0, Match.zero]
  · simp [performQuery, hreq, hdo, hstatus, hbody, hdec, h0, Match.zero, collectUris_eq]

theorem performQuery_of_status (NewRequest : String → String → Except error Request)
    (Unmarshal : String → Except error HitsDoc) (query : String) (esClient : ElasticSearchClient)
    (req : Request) (res : Response) (body : String)
    (hreq : NewRequest "GET" query = .ok req) (hdo : esClient.http.Do req = .ok res)
    (hstatus : res.StatusCode ≠ 200) (hbody : res.Body = .ok body) :
    performQuery NewRequest Unmarshal query esClient
      = (Match.zero, .Error .ErrPerformingElasticSearchRequest
          ("\x27" ++ query ++ "\x27 returned unexpected status code \x27"
            ++ toString res.StatusCode ++ "\x27 (" ++ res.Status ++ ")\n" ++ body)) := by
  simp [performQuery, hreq, hdo, hstatus, hbody]

/-- C8: for a 200 response whose body decodes to `hits: (total: T, hits: [h1..hn])`,
`performQuery` returns no error and a Match whose `QueryUrl` is the query, whose
`HitCount` is `T`, and whose `MatchingUris` is empty when `T = 0` and is otherwise
the list of the `_source["@id"]` of `h1..hn` in response order. -/
theorem performQuery_decoding (NewRequest : String → String → Except error Request)
    (Unmarshal : String → Except error HitsDoc) (query : String) (esClient : ElasticSearchClient)
    (req : Request) (res : Response) (body : String) (doc : HitsDoc)
    (hreq : NewRequest "GET" query = .ok req) (hdo : esClient.http.Do req = .ok res)
    (hstatus : res.StatusCode = 200) (hbody : res.Body = .ok body)
    (hdec : Unmarshal body = .ok doc) :
    (performQuery NewRequest Unmarshal query esClient).2 = .nil ∧
    (performQuery NewRequest Unmarshal query esClient).1.QueryUrl = query ∧
    (performQuery NewRequest Unmarshal query esClient).1.HitCount = doc.Hits.Total ∧
    (doc.Hits.Total = 0 →
      (performQuery NewRequest Unmarshal query esClient).1.MatchingUris = []) ∧
    (doc.Hits.Total ≠ 0 →
      (performQuery NewRequest Unmarshal query esClient).1.MatchingUris
        = doc.Hits.Hits.map (fun hit => hit.Source.Id)) := by
  rw [performQuery_of_decoded NewRequest Unmarshal query esClient req res body doc
    hreq hdo hstatus hbody hdec]
  refine ⟨rfl, rfl, rfl, ?_, ?_⟩ <;> intro h <;> simp [h]

theorem performQuery_decoding_witness :
    (performQuery newRequestOk (unmarshalTo (hitsDoc 2 ["http://r/a", "http://r/b"]))
      "http://es/pass/_search?q=x" (clientAnswering (okResponse "two hits"))).1.MatchingUris
      = ["http://r/a", "http://r/b"] :=
  (performQuery_decoding newRequestOk (unmarshalTo (hitsDoc 2 ["http://r/a", "http://r/b"]))
    "http://es/pass/_search?q=x" (clientAnswering (okResponse "two hits"))
    { Method := "GET", URL := "http://es/pass/_search?q=x" } (okResponse "two hits") "two hits"
    (hitsDoc 2 ["http://r/a", "http://r/b"]) rfl rfl rfl rfl rfl).2.2.2.2 (by decide)

/-- C9, as stated, fails: a 200 response that declares two hits and lists none
(a search with `size=0`) gives a Match with `HitCount = 2` and no matching URI,
and a response that declares a negative total gives a negative `HitCount`. -/
theorem Match_invariant_counterexample :
    (performQuery newRequestOk (unmarshalTo (hitsDoc 2 [])) "http://es/pass/_search?q=x"
        (clientAnswering (okResponse "no hit listed")))
      = ({ QueryUrl := "http://es/pass/_search?q=x", HitCount := 2, MatchingUris := [],
           PassUri := "", PassType := "" }, .nil) ∧
    (performQuery newRequestOk (unmarshalTo (hitsDoc (-1) [])) "http://es/pass/_search?q=x"
        (clientAnswering (okResponse "negative total")))
      = ({ QueryUrl := "http://es/pass/_search?q=x", HitCount := -1, MatchingUris := [],
           PassUri := "", PassType := "" }, .nil) ∧
    ¬ ((performQuery newRequestOk (unmarshalTo (hitsDoc 2 [])) "http://es/pass/_search?q=x"
          (clientAnswering (okResponse "no hit listed"))).1.MatchingUris = [] ↔
       (performQuery newRequestOk (unmarshalTo (hitsDoc 2 [])) "http://es/pass/_search?q=x"
          (clientAnswering (okResponse "no hit listed"))).1.HitCount = 0) ∧
    ¬ (0 ≤ (performQuery newRequestOk (unmarshalTo (hitsDoc (-1) []))
          "http://es/pass/_search?q=x"
          (clientAnswering (okResponse "negative total"))).1.HitCount) := by
  refine ⟨by decide, by decide, by decide, by decide⟩

/-- C9, amended: every Match that `performQuery` returns for a decodable 200
response has `HitCount` equal to the total the response declares (so it is
`≥ 0` when that total is), has no matching URI when `HitCount` is 0, and has an
empty `MatchingUris` if and only if `HitCount` is 0 or the response lists no hit. -/
theorem Match_invariant (NewRequest : String → String → Except error Request)
    (Unmarshal : String → Except error HitsDoc) (query : String) (esClient : ElasticSearchClient)
    (req : Request) (res : Response) (body : String) (doc : HitsDoc)
    (hreq : NewRequest "GET" query = .ok req) (hdo : esClient.http.Do req = .ok res)
    (hstatus : res.StatusCode = 200) (hbody : res.Body = .ok body)
    (hdec : Unmarshal body = .ok doc) :
    (performQuery NewRequest Unmarshal query esClient).1.HitCount = doc.Hits.Total ∧
    (0 ≤ doc.Hits.Total → 0 ≤ (performQuery NewRequest Unmarshal query esClient).1.HitCount) ∧
    ((performQuery NewRequest Unmarshal query esClient).1.HitCount = 0 →
      (performQuery NewRequest Unmarshal query esClient).1.MatchingUris = []) ∧
    ((performQuery NewRequest Unmarshal query esClient).1.MatchingUris = [] ↔
      ((performQuery NewRequest Unmarshal query esClient).1.HitCount = 0 ∨
        doc.Hits.Hits = [])) := by
  rw [performQuery_of_decoded NewRequest Unmarshal query esClient req res body doc
    hreq hdo hstatus hbody hdec]
  refine ⟨rfl, fun h => h, ?_, ?_⟩
  · intro h
    simp only at h
    simp [h]
  · by_cases h0 : doc.Hits.Total = 0 <;> simp [h0]

theorem Match_invariant_witness :
    (performQuery newRequestOk (unmarshalTo (hitsDoc 0 [])) "http://es/pass/_search?q=x"
      (clientAnswering (okResponse "no hits"))).1.MatchingUris = [] :=
  (Match_invariant newRequestOk (unmarshalTo (hitsDoc 0 [])) "http://es/pass/_search?q=x"
    (clientAnswering (okResponse "no hits"))
    { Method := "GET", URL := "http://es/pass/_search?q=x" } (okResponse "no hits") "no hits"
    (hitsDoc 0 []) rfl rfl rfl rfl rfl).2.2.1 (by decide)

/-- C10: for a response whose status code is not 200 and whose body can be read,
`performQuery` returns the empty Match and an `Error` that wraps
`ErrPerformingElasticSearchRequest` and whose context embeds the query string,
the status code in decimal, the status text and the response body. -/
theorem performQuery_status_error (NewRequest : String → String → Except error Request)
    (Unmarshal : String → Except error HitsDoc) (query : String) (esClient : ElasticSearchClient)
    (req : Request) (res : Response) (body : String)
    (hreq : NewRequest "GET" query = .ok req) (hdo : esClient.http.Do req = .ok res)
    (hstatus : res.StatusCode ≠ 200) (hbody : res.Body = .ok body) :
    ∃ context : String,
      performQuery NewRequest Unmarshal query esClient
        = (Match.zero, .Error .ErrPerformingElasticSearchRequest context) ∧
      errorsIs (performQuery NewRequest Unmarshal query esClient).2
        .ErrPerformingElasticSearchRequest = true ∧
      embeds context query ∧ embeds context (toString res.StatusCode) ∧
      embeds context res.Status ∧ embeds context body := by
  refine ⟨_, performQuery_of_status NewRequest Unmarshal query esClient req res body
    hreq hdo hstatus hbody, ?_, ?_, ?_, ?_, ?_⟩
  · rw [performQuery_of_status NewRequest Unmarshal query esClient req res body
      hreq hdo hstatus hbody]
    simp [errorsIs]
  · exact ⟨"\x27".data, ("\x27 returned unexpected status code \x27"
      ++ toString res.StatusCode ++ "\x27 (" ++ res.Status ++ ")\n" ++ body).data,
      by simp [String.data_append]⟩
  · exact ⟨("\x27" ++ query ++ "\x27 returned unexpected status code \x27").data,
      ("\x27 (" ++ res.Status ++ ")\n" ++ body).data, by simp [String.data_append]⟩
  · exact ⟨("\x27" ++ query ++ "\x27 returned unexpected status code \x27"
      ++ toString res.StatusCode ++ "\x27 (").data, (")\n" ++ body).data,
      by simp [String.data_append]⟩
  · exact ⟨("\x27" ++ query ++ "\x27 returned unexpected status code \x27"
      ++ toString res.StatusCode ++ "\x27 (" ++ res.Status ++ ")\n").data, [],
      by simp [String.data_append]⟩

theorem performQuery_status_error_witness :
    ∃ context : String,
      performQuery newRequestOk (unmarshalTo (hitsDoc 0 [])) "http://es/pass/_search?q=x"
          (clientAnswering { StatusCode := 503, Status := "503 Service Unavailable",
                             Body := .ok "try later" })
        = (Match.zero, .Error .ErrPerformingElasticSearchRequest context) ∧
      errorsIs (performQuery newRequestOk (unmarshalTo (hitsDoc 0 []))
          "http://es/pass/_search?q=x"
          (clientAnswering { StatusCode := 503, Status := "503 Service Unavailable",
                             Body := .ok "try later" })).2
        .ErrPerformingElasticSearchRequest = true ∧
      embeds context "http://es/pass/_search?q=x" ∧ embeds context (toString (503 : Int)) ∧
      embeds context "503 Service Unavailable" ∧ embeds context "try later" :=
  performQuery_status_error newRequestOk (unmarshalTo (hitsDoc 0 []))
    "http://es/pass/_search?q=x"
    (clientAnswering { StatusCode := 503, Status := "503 Service Unavailable",
                       Body := .ok "try later" })
    { Method := "GET", URL := "http://es/pass/_search?q=x" }
    { StatusCode := 503, Status := "503 Service Unavailable", Body := .ok "try later" }
    "try later" rfl rfl (by decide) rfl

/-! ## Key extraction: the map -/

theorem mapGet_mapSet_self (m : KvMap) (k : String) (v : List KvPair) :
    mapGet (mapSet m k v) k = some v := by
  induction m with
  | nil => simp [mapSet, mapGet]
  | cons e m ih =>
    obtain ⟨k1, v1⟩ := e
    by_cases h : k1 = k
    · simp [mapSet, mapGet, h]
    · simp [mapSet, mapGet, h, ih]

theorem mapGet_mapSet_ne (m : KvMap) (k k2 : String) (v : List KvPair) (hne : k2 ≠ k) :
    mapGet (mapSet m k v) k2 = mapGet m k2 := by
  induction m with
  | nil => simp [mapSet, mapGet, Ne.symm hne]
  | cons e m ih =>
    obtain ⟨k1, v1⟩ := e
    by_cases h : k1 = k
    · subst h
      simp [mapSet, mapGet, Ne.symm hne]
    · by_cases h2 : k1 = k2
      · subst h2
        simp [mapSet, mapGet, h]
      · simp [mapSet, mapGet, h, h2, ih]

theorem mem_mapSet (m : KvMap) (k : String) (v : List KvPair) (e : String × List KvPair)
    (he : e ∈ mapSet m k v) : e = (k, v) ∨ e ∈ m := by
  induction m with
  | nil => simpa [mapSet] using he
  | cons e1 m ih =>
    obtain ⟨k1, v1⟩ := e1
    by_cases h : k1 = k
    · simp only [mapSet, h, if_true, List.mem_cons] at he
      rcases he with he | he
      · exact Or.inl he
      · exact Or.inr (List.mem_cons_of_mem _ he)
    · simp only [mapSet, h, if_false, List.mem_cons] at he
      rcases he with he | he
      · exact Or.inr (by simp [he])
      · rcases ih he with h1 | h1
        · exact Or.inl h1
        · exact Or.inr (List.mem_cons_of_mem _ h1)

theorem mem_keys_mapSet (m : KvMap) (k : String) (v : List KvPair) (x : String)
    (hx : x ∈ (mapSet m k v).map Prod.fst) : x = k ∨ x ∈ m.map Prod.fst := by
  obtain ⟨e, he, rfl⟩ := List.mem_map.mp hx
  rcases mem_mapSet m k v e he with h | h
  · exact Or.inl (by simp [h])
  · exact Or.inr (List.mem_map.mpr ⟨e, h, rfl⟩)

theorem nodup_keys_mapSet (m : KvMap) (k : String) (v : List KvPair)
    (hm : (m.map Prod.fst).Nodup) : ((mapSet m k v).map Prod.fst).Nodup := by
  induction m with
  | nil => simp [mapSet]
  | cons e1 m ih =>
    obtain ⟨k1, v1⟩ := e1
    simp only [List.map_cons, List.nodup_cons] at hm
    by_cases h : k1 = k
    · subst h
      simpa [mapSet] using hm
    · simp only [mapSet, h, if_false, List.map_cons, List.nodup_cons]
      refine ⟨fun hx => ?_, ih hm.2⟩
      rcases mem_keys_mapSet m k v k1 hx with h1 | h1
      · exact h h1
      · exact hm.1 h1

theorem MapInv_nil : MapInv [] := by
  simp [MapInv]

theorem MapInv_mapSet (m : KvMap) (k : String) (v : List KvPair) (hm : MapInv m)
    (hv : ∀ kv ∈ v, kv.Key = k) : MapInv (mapSet m k v) := by
  refine ⟨nodup_keys_mapSet m k v hm.1, fun e he kv hkv => ?_⟩
  rcases mem_mapSet m k v e he with h | h
  · subst h
    exact hv kv hkv
  · exact hm.2 e h kv hkv

theorem mapGet_eq_none_of_not_mem (m : KvMap) (k : String) (h : k ∉ m.map Prod.fst) :
    mapGet m k = none := by
  induction m with
  | nil => rfl
  | cons e m ih =>
    obtain ⟨k1, v1⟩ := e
    simp only [List.map_cons, List.mem_cons, not_or] at h
    simp [mapGet, Ne.symm h.1, ih h.2]

theorem flattenKvps_eq (visit : List (String × List KvPair)) :
    flattenKvps visit = visit.flatMap (fun e => e.2) := by
  have inner : ∀ (v result : List KvPair),
      v.foldl (fun result x => result ++ [x]) result = result ++ v := by
    intro v
    induction v with
    | nil => simp
    | cons x v ih => intro result; simp [ih]
  have outer : ∀ (visit : List (String × List KvPair)) (result : List KvPair),
      visit.foldl (fun result e => e.2.foldl (fun result x => result ++ [x]) result) result
        = result ++ visit.flatMap (fun e => e.2) := by
    intro visit
    induction visit with
    | nil => simp
    | cons e visit ih =>
      intro result
      rw [List.foldl_cons, inner, ih, List.flatMap_cons, List.append_assoc]
  simpa [flattenKvps] using outer visit []

theorem filter_flatten (m : KvMap) (k : String) (hm : MapInv m) :
    (m.flatMap (fun e => e.2)).filter (fun kv => kv.Key = k) = (mapGet m k).getD [] := by
  induction m with
  | nil => simp [mapGet]
  | cons e m ih =>
    obtain ⟨k1, v1⟩ := e
    have hkeys := hm.1
    simp only [List.map_cons, List.nodup_cons] at hkeys
    have hm2 : MapInv m := ⟨hkeys.2, fun e he => hm.2 e (List.mem_cons_of_mem _ he)⟩
    have hv1 : ∀ kv ∈ v1, kv.Key = k1 := hm.2 (k1, v1) (List.mem_cons_self _ _)
    simp only [List.flatMap_cons, List.filter_append, ih hm2]
    by_cases h : k1 = k
    · subst h
      have h1 : v1.filter (fun kv => kv.Key = k1) = v1 :=
        List.filter_eq_self.mpr (fun kv hkv => by simp [hv1 kv hkv])
      simp [mapGet, h1, mapGet_eq_none_of_not_mem m k1 hkeys.1]
    · have h1 : v1.filter (fun kv => kv.Key = k) = [] :=
        List.filter_eq_nil_iff.mpr (fun kv hkv => by simp [hv1 kv hkv, h])
      simp [mapGet, h1, h]

/-! ## Key extraction: the first loop -/

theorem grouped_append_self (pairs : List KvPair) (key value : String) :
    grouped (pairs ++ [{ Key := key, Value := value }]) key
      = some (pairs.filter (fun kv => kv.Key = key) ++ [{ Key := key, Value := value }]) := by
  simp [grouped, List.filter_append]

theorem grouped_append_ne (pairs : List KvPair) (key value k : String) (hne : k ≠ key) :
    grouped (pairs ++ [{ Key := key, Value := value }]) k = grouped pairs k := by
  simp [grouped, List.filter_append, Ne.symm hne]

theorem Holds_bindValue (m : KvMap) (pairs : List KvPair) (key value : String)
    (h : Holds m pairs) :
    Holds (bindValue key m value) (pairs ++ [{ Key := key, Value := value }]) := by
  obtain ⟨hinv, hget⟩ := h
  have hkey := hget key
  by_cases hnil : pairs.filter (fun kv => kv.Key = key) = []
  · have hnone : mapGet m key = none := by simpa [grouped, hnil] using hkey
    have hb : bindValue key m value = mapSet m key [{ Key := key, Value := value }] := by
      simp [bindValue, hnone]
    rw [hb]
    refine ⟨MapInv_mapSet m key _ hinv (by simp), fun k => ?_⟩
    by_cases hk : k = key
    · subst hk
      rw [mapGet_mapSet_self, grouped_append_self, hnil]
      rfl
    · rw [mapGet_mapSet_ne m key k _ hk, grouped_append_ne pairs key value k hk]
      exact hget k
  · have hsome : mapGet m key = some (pairs.filter (fun kv => kv.Key = key)) := by
      simpa [grouped, hnil] using hkey
    have hb : bindValue key m value
        = mapSet m key
            (pairs.filter (fun kv => kv.Key = key) ++ [{ Key := key, Value := value }]) := by
      simp [bindValue, hsome]
    rw [hb]
    refine ⟨MapInv_mapSet m key _ hinv ?_, fun k => ?_⟩
    · intro kv hkv
      rcases List.mem_append.mp hkv with h1 | h1
      · simpa using (List.mem_filter.mp h1).2
      · simp at h1
        simp [h1]
    · by_cases hk : k = key
      · subst hk
        rw [mapGet_mapSet_self, grouped_append_self]
      · rw [mapGet_mapSet_ne m key k _ hk, grouped_append_ne pairs key value k hk]
        exact hget k

theorem Holds_values (key : String) (values : List String) (m : KvMap) (pairs : List KvPair)
    (h : Holds m pairs) :
    Holds (values.foldl (bindValue key) m)
      (pairs ++ values.map (fun value => { Key := key, Value := value })) := by
  induction values generalizing m pairs with
  | nil => simpa using h
  | cons value values ih =>
    have := ih (bindValue key m value) _ (Holds_bindValue m pairs key value h)
    simpa [List.append_assoc] using this

theorem Holds_bindProperty (prop : String × List String) (keys : List String) (m : KvMap)
    (pairs : List KvPair) (h : Holds m pairs) :
    Holds (bindProperty keys m prop)
      (pairs ++ keys.flatMap (fun key => propBindings key prop)) := by
  unfold bindProperty
  induction keys generalizing m pairs with
  | nil => simpa using h
  | cons key keys ih =>
    simp only [List.foldl_cons, List.flatMap_cons]
    rw [← List.append_assoc]
    apply ih
    by_cases hs : hasSuffix prop.1 key = true
    · simpa [propBindings, hs] using Holds_values key prop.2 m pairs h
    · simpa [propBindings, hs] using h

theorem Holds_properties (keys : List String) (props : List (String × List String))
    (m : KvMap) (pairs : List KvPair) (h : Holds m pairs) :
    Holds (props.foldl (bindProperty keys) m) (pairs ++ appended keys props) := by
  unfold appended
  induction props generalizing m pairs with
  | nil => simpa using h
  | cons prop props ih =>
    simp only [List.foldl_cons, List.flatMap_cons]
    rw [← List.append_assoc]
    exact ih _ _ (Holds_bindProperty prop keys m pairs h)

theorem Holds_first_loop (keys : List String) (props : List (String × List String)) :
    Holds (props.foldl (bindProperty keys) []) (appended keys props) := by
  have h0 : Holds [] [] := ⟨MapInv_nil, fun k => by simp [mapGet, grouped]⟩
  simpa using Holds_properties keys props [] [] h0

/-! ## Key extraction: the second loop -/

theorem MapInv_bindTypes (pfx : String) (types : List String) (m : KvMap) (hm : MapInv m) :
    MapInv (bindTypes pfx types m) := by
  unfold bindTypes
  induction types generalizing m with
  | nil => simpa using hm
  | cons t types ih =>
    simp only [List.foldl_cons]
    apply ih
    by_cases ht : hasPrefix t pfx = true
    · simpa [ht] using MapInv_mapSet m "@type" _ hm (by simp)
    · simpa [ht] using hm

theorem mapGet_bindTypes (pfx : String) (types : List String) (m : KvMap) (k : String) :
    mapGet (bindTypes pfx types m) k = typeLookup pfx types (mapGet m) k := by
  unfold bindTypes
  induction types generalizing m with
  | nil => simp [typeLookup, passTags]
  | cons t types ih =>
    simp only [List.foldl_cons]
    rw [ih]
    have hp : passTags pfx (t :: types)
        = if hasPrefix t pfx = true then t :: passTags pfx types else passTags pfx types := by
      simp only [passTags, List.filter_cons]
    by_cases hk : k = "@type"
    · subst hk
      by_cases ht : hasPrefix t pfx = true
      · cases hl : (passTags pfx types).getLast? with
        | none =>
          simp only [typeLookup, hp, ht, hl, List.getLast?_cons, Option.getD_none,
            mapGet_mapSet_self, typeBinding, reduceIte]
        | some x =>
          simp only [typeLookup, hp, ht, hl, List.getLast?_cons, Option.getD_some,
            reduceIte]
      · simp only [typeLookup, hp, ht, reduceIte]
        rfl
    · by_cases ht : hasPrefix t pfx = true
      · simp [typeLookup, hk, ht, mapGet_mapSet_ne _ _ _ _ hk]
      · simp [typeLookup, hk, ht]

theorem typeLookup_idem (pfx : String) (types : List String)
    (g : String → Option (List KvPair)) (k : String) :
    typeLookup pfx types (typeLookup pfx types g) k = typeLookup pfx types g k := by
  by_cases hk : k = "@type"
  · cases hl : (passTags pfx types).getLast? <;> simp [typeLookup, hk, hl]
  · simp [typeLookup, hk]

theorem typeLookup_congr (pfx : String) (types : List String)
    (g1 g2 : String → Option (List KvPair)) (h : ∀ k, g1 k = g2 k) (k : String) :
    typeLookup pfx types g1 k = typeLookup pfx types g2 k := by
  have : g1 = g2 := funext h
  rw [this]

theorem MapInv_second_loop (pfx : String) (types keys : List String) (m : KvMap)
    (hm : MapInv m) :
    MapInv (keys.foldl (fun m key => if key = "@type" then bindTypes pfx types m else m) m) := by
  induction keys generalizing m with
  | nil => simpa using hm
  | cons key keys ih =>
    simp only [List.foldl_cons]
    apply ih
    by_cases hk : key = "@type"
    · simpa [hk] using MapInv_bindTypes pfx types m hm
    · simpa [hk] using hm

theorem mapGet_second_loop (pfx : String) (types keys : List String) (m : KvMap) (k : String) :
    mapGet (keys.foldl (fun m key => if key = "@type" then bindTypes pfx types m else m) m) k
      = if "@type" ∈ keys then typeLookup pfx types (mapGet m) k else mapGet m k := by
  induction keys generalizing m with
  | nil => simp
  | cons key keys ih =>
    simp only [List.foldl_cons]
    rw [ih]
    by_cases hk : key = "@type"
    · subst hk
      have hcongr := typeLookup_congr pfx types _ _ (mapGet_bindTypes pfx types m) k
      by_cases hmem : "@type" ∈ keys
      · simp [hmem, hcongr, typeLookup_idem]
      · simp [hmem, mapGet_bindTypes]
    · have hne : ¬ "@type" = key := fun h => hk h.symm
      simp [hk, hne]

theorem MapInv_extractedKvps (pfx : String) (container : LdpContainer) (keys : List String) :
    MapInv (extractedKvps pfx container keys) :=
  MapInv_second_loop pfx container.Types keys _ (Holds_first_loop keys container.PassProperties).1

theorem mapGet_extractedKvps (pfx : String) (container : LdpContainer) (keys : List String)
    (k : String) :
    mapGet (extractedKvps pfx container keys) k
      = if "@type" ∈ keys then
          typeLookup pfx container.Types (grouped (appended keys container.PassProperties)) k
        else grouped (appended keys container.PassProperties) k := by
  unfold extractedKvps
  rw [mapGet_second_loop]
  have h := (Holds_first_loop keys container.PassProperties).2
  by_cases hmem : "@type" ∈ keys
  · simp only [hmem, if_true]
    exact typeLookup_congr pfx container.Types _ _ h k
  · simp only [hmem, if_false]
    exact h k

theorem missingKeys_eq (m : KvMap) (keys : List String) :
    missingKeys m keys = keys.filter (fun key => (mapGet m key).isNone) := by
  have h : ∀ (keys missing : List String),
      keys.foldl (fun missing key => if (mapGet m key).isNone then missing ++ [key] else missing)
        missing = missing ++ keys.filter (fun key => (mapGet m key).isNone) := by
    intro keys
    induction keys with
    | nil => simp
    | cons key keys ih =>
      intro missing
      rw [List.foldl_cons, ih, List.filter_cons]
      by_cases hk : (mapGet m key).isNone = true
      · simp only [hk, if_true]
        simp
      · simp only [hk]
        simp
  simpa [missingKeys] using h keys []

/-! ## Key extraction: the bindings as a multiset -/

theorem flatMap_swap_perm {α β γ : Type} (l1 : List α) (l2 : List β) (f : α → β → List γ) :
    (l1.flatMap (fun a => l2.flatMap (fun b => f a b))).Perm
      (l2.flatMap (fun b => l1.flatMap (fun a => f a b))) := by
  induction l1 with
  | nil =>
    have h : l2.flatMap (fun _ => ([] : List γ)) = [] := by
      induction l2 with
      | nil => rfl
      | cons b l2 ih => simp
    simp [h]
  | cons a l1 ih =>
    simp only [List.flatMap_cons]
    refine ((List.Perm.append_left _ ih).trans ?_)
    clear ih
    induction l2 with
    | nil => simp
    | cons b l2 ih2 =>
      simp only [List.flatMap_cons]
      have h1 : (f a b ++ l2.flatMap (fun b => f a b)
            ++ (l1.flatMap (fun a => f a b)
              ++ l2.flatMap (fun b => l1.flatMap (fun a => f a b)))).Perm
          (f a b ++ l1.flatMap (fun a => f a b)
            ++ (l2.flatMap (fun b => f a b)
              ++ l2.flatMap (fun b => l1.flatMap (fun a => f a b)))) := by
        simp only [List.append_assoc]
        refine List.Perm.append_left _ ?_
        rw [← List.append_assoc, ← List.append_assoc]
        exact List.Perm.append_right _ List.perm_append_comm
      exact h1.trans (List.Perm.append_left _ ih2)

theorem propBindings_key (key : String) (prop : String × List String) (kv : KvPair)
    (h : kv ∈ propBindings key prop) : kv.Key = key := by
  unfold propBindings at h
  by_cases hs : hasSuffix prop.1 key = true
  · simp only [hs, if_true, List.mem_map] at h
    obtain ⟨v, _, rfl⟩ := h
    rfl
  · simp [hs] at h

theorem propBindings_filter (q : String → Bool) (key : String) (prop : String × List String) :
    (propBindings key prop).filter (fun kv => q kv.Key)
      = if q key = true then propBindings key prop else [] := by
  by_cases hq : q key = true
  · rw [if_pos hq]
    exact List.filter_eq_self.mpr (fun kv hkv => by rw [propBindings_key key prop kv hkv]; exact hq)
  · rw [if_neg hq]
    exact List.filter_eq_nil_iff.mpr
      (fun kv hkv => by rw [propBindings_key key prop kv hkv]; exact hq)

theorem flatMap_if_filter {α β : Type} (q : α → Bool) (f : α → List β) (l : List α) :
    l.flatMap (fun a => if q a = true then f a else []) = (l.filter q).flatMap f := by
  induction l with
  | nil => rfl
  | cons a l ih =>
    by_cases hq : q a = true
    · simp [List.filter_cons, hq, ih]
    · simp [List.filter_cons, hq, ih]

theorem appended_filter_perm (q : String → Bool) (keys : List String)
    (props : List (String × List String)) :
    ((appended keys props).filter (fun kv => q kv.Key)).Perm
      ((keys.filter q).flatMap (fun key => props.flatMap (fun prop => propBindings key prop))) := by
  have h : (appended keys props).filter (fun kv => q kv.Key)
      = props.flatMap (fun prop => (keys.filter q).flatMap (fun key => propBindings key prop)) := by
    simp only [appended, List.filter_flatMap, propBindings_filter, flatMap_if_filter]
  rw [h]
  exact flatMap_swap_perm props (keys.filter q) (fun prop key => propBindings key prop)

theorem grouped_getD (pairs : List KvPair) (k : String) :
    (grouped pairs k).getD [] = pairs.filter (fun kv => kv.Key = k) := by
  by_cases h : pairs.filter (fun kv => kv.Key = k) = []
  · simp [grouped, h]
  · simp [grouped, h]

theorem count_flatten (rangeOrder : KvMap → KvMap) (m : KvMap) (a : KvPair)
    (hord : (rangeOrder m).Perm m) (hm : MapInv m) :
    (flattenKvps (rangeOrder m)).count a = ((mapGet m a.Key).getD []).count a := by
  rw [flattenKvps_eq, (List.Perm.flatMap_right (fun e => e.2) hord).count_eq,
    ← filter_flatten m a.Key hm]
  exact (List.count_filter (by simp)).symm

/-! ## Key extraction: which keys are bound -/

theorem hasBinding_iff (pfx : String) (container : LdpContainer) (k : String) :
    hasBinding pfx container k = true ↔
      (∃ prop ∈ container.PassProperties, hasSuffix prop.1 k = true ∧ prop.2 ≠ []) ∨
      (k = "@type" ∧ ∃ t ∈ container.Types, hasPrefix t pfx = true) := by
  simp [hasBinding, List.any_eq_true]

theorem mem_propBindings (key : String) (prop : String × List String) (kv : KvPair) :
    kv ∈ propBindings key prop ↔
      hasSuffix prop.1 key = true ∧ ∃ v ∈ prop.2, kv = { Key := key, Value := v } := by
  unfold propBindings
  by_cases hs : hasSuffix prop.1 key = true
  · simp only [hs, if_true, List.mem_map, true_and]
    constructor
    · rintro ⟨v, hv, rfl⟩
      exact ⟨v, hv, rfl⟩
    · rintro ⟨v, hv, rfl⟩
      exact ⟨v, hv, rfl⟩
  · simp [hs]

theorem grouped_appended_ne_none (keys : List String) (props : List (String × List String))
    (k : String) :
    grouped (appended keys props) k ≠ none ↔
      k ∈ keys ∧ ∃ prop ∈ props, hasSuffix prop.1 k = true ∧ prop.2 ≠ [] := by
  have h1 : grouped (appended keys props) k ≠ none ↔
      ∃ kv ∈ appended keys props, kv.Key = k := by
    by_cases h : (appended keys props).filter (fun kv => kv.Key = k) = []
    · have h2 := List.filter_eq_nil_iff.mp h
      simp only [grouped, h, if_true, ne_eq, not_true, false_iff, not_exists, not_and]
      intro kv hkv
      simpa using h2 kv hkv
    · simp only [grouped, h, if_false, ne_eq, not_false_eq_true, true_iff, reduceCtorEq]
      obtain ⟨kv, hkv⟩ := List.exists_mem_of_ne_nil _ h
      exact ⟨kv, (List.mem_filter.mp hkv).1, by simpa using (List.mem_filter.mp hkv).2⟩
  rw [h1]
  constructor
  · rintro ⟨kv, hkv, rfl⟩
    simp only [appended, List.mem_flatMap] at hkv
    obtain ⟨prop, hprop, key, hkey, hmem⟩ := hkv
    obtain ⟨hs, v, hv, rfl⟩ := (mem_propBindings key prop kv).mp hmem
    exact ⟨hkey, prop, hprop, hs, List.ne_nil_of_mem hv⟩
  · rintro ⟨hk, prop, hprop, hs, hne⟩
    obtain ⟨v, hv⟩ := List.exists_mem_of_ne_nil _ hne
    refine ⟨{ Key := k, Value := v }, ?_, rfl⟩
    simp only [appended, List.mem_flatMap]
    exact ⟨prop, hprop, k, hk, (mem_propBindings k prop _).mpr ⟨hs, v, hv, rfl⟩⟩

theorem passTags_getLast_none (pfx : String) (types : List String) :
    (passTags pfx types).getLast? = none ↔ ¬ ∃ t ∈ types, hasPrefix t pfx = true := by
  rw [List.getLast?_eq_none_iff, passTags, List.filter_eq_nil_iff]
  simp

theorem mapGet_extractedKvps_ne_none (pfx : String) (container : LdpContainer)
    (keys : List String) (k : String) (hk : k ∈ keys) :
    mapGet (extractedKvps pfx container keys) k ≠ none ↔ hasBinding pfx container k = true := by
  rw [mapGet_extractedKvps, hasBinding_iff]
  have hg := grouped_appended_ne_none keys container.PassProperties k
  by_cases hty : k = "@type"
  · subst hty
    simp only [hk, if_true, typeLookup, true_and]
    cases hl : (passTags pfx container.Types).getLast? with
    | none =>
      have hno := (passTags_getLast_none pfx container.Types).mp hl
      simp only [hg, hk, true_and]
      constructor
      · exact fun h => Or.inl h
      · rintro (h | h)
        · exact h
        · exact absurd h hno
    | some t =>
      have hyes : ∃ t ∈ container.Types, hasPrefix t pfx = true := by
        by_contra hcon
        rw [(passTags_getLast_none pfx container.Types).mpr hcon] at hl
        exact Option.noConfusion hl
      simp only [ne_eq, reduceCtorEq, not_false_eq_true, true_iff]
      exact Or.inr hyes
  · by_cases hmem : "@type" ∈ keys
    · simp only [hmem, if_true, typeLookup, hty, if_false, false_and, or_false, hg, hk, true_and]
    · simp only [hmem, if_false, hty, false_and, or_false, hg, hk, true_and]

theorem missingKeys_extractedKvps (pfx : String) (container : LdpContainer)
    (keys : List String) :
    missingKeys (extractedKvps pfx container keys) keys
      = keys.filter (fun k => !hasBinding pfx container k) := by
  rw [missingKeys_eq]
  apply List.filter_congr
  intro k hk
  have h := mapGet_extractedKvps_ne_none pfx container keys k hk
  cases hb : hasBinding pfx container k
  · cases hg : mapGet (extractedKvps pfx container keys) k with
    | none => rfl
    | some v =>
      have : hasBinding pfx container k = true := h.mp (by simp [hg])
      rw [hb] at this
      exact Bool.noConfusion this
  · have hne := h.mpr hb
    cases hg : mapGet (extractedKvps pfx container keys) k with
    | none => exact absurd hg hne
    | some v => rfl

/-! ## Key extraction: `extractKeys` -/

theorem extractKeys_eq (rangeOrder : KvMap → KvMap) (pfx : String) (container : LdpContainer)
    (keys : List String) :
    extractKeys rangeOrder pfx container keys
      = if keys.filter (fun k => !hasBinding pfx container k) = [] then
          (flattenKvps (rangeOrder (extractedKvps pfx container keys)), .nil)
        else
          ([], .Error .ErrMissingRequiredKey
            (join (keys.filter (fun k => !hasBinding pfx container k)) ",")) := by
  unfold extractKeys
  simp only [missingKeys_extractedKvps]
  by_cases h : keys.filter (fun k => !hasBinding pfx container k) = []
  · simp [h]
  · have hpos : (keys.filter (fun k => !hasBinding pfx container k)).length > 0 :=
      List.length_pos.mpr h
    simp only [hpos, h, if_true, if_false]

theorem extractKeys_ok (rangeOrder : KvMap → KvMap) (pfx : String) (container : LdpContainer)
    (keys : List String) (hok : (extractKeys rangeOrder pfx container keys).2 = .nil) :
    (extractKeys rangeOrder pfx container keys).1
      = flattenKvps (rangeOrder (extractedKvps pfx container keys)) := by
  rw [extractKeys_eq] at hok ⊢
  by_cases h : keys.filter (fun k => !hasBinding pfx container k) = []
  · simp [h]
  · simp [h] at hok

theorem suffixBindings_key (props : List (String × List String)) (keys : List String)
    (kv : KvPair) (h : kv ∈ suffixBindings props keys) : kv.Key ≠ "@type" := by
  simp only [suffixBindings, List.mem_flatMap, List.mem_filter] at h
  obtain ⟨key, ⟨_, hne⟩, prop, _, hmem⟩ := h
  rw [propBindings_key key prop kv hmem]
  simpa using hne

theorem typeBindings_key (pfx : String) (container : LdpContainer) (keys : List String)
    (kv : KvPair) (h : kv ∈ typeBindings pfx container keys) : kv.Key = "@type" := by
  unfold typeBindings at h
  by_cases hmem : "@type" ∈ keys
  · simp only [hmem, if_true] at h
    cases hl : (passTags pfx container.Types).getLast? with
    | none =>
      simp only [hl, List.mem_flatMap, List.mem_filter] at h
      obtain ⟨key, ⟨_, hkey⟩, prop, _, hkv⟩ := h
      rw [propBindings_key key prop kv hkv]
      simpa using hkey
    | some t =>
      simp only [hl, List.mem_singleton] at h
      rw [h]
      rfl
  · simp [hmem] at h

theorem count_type_bindings (pfx : String) (container : LdpContainer) (keys : List String)
    (a : KvPair) :
    ((mapGet (extractedKvps pfx container keys) "@type").getD []).count a
      = (typeBindings pfx container keys).count a := by
  rw [mapGet_extractedKvps]
  have hperm := appended_filter_perm (fun k => decide (k = "@type")) keys
    container.PassProperties
  by_cases hmem : "@type" ∈ keys
  · simp only [hmem, if_true, typeLookup, typeBindings]
    cases hl : (passTags pfx container.Types).getLast? with
    | none =>
      simp only [grouped_getD]
      exact hperm.count_eq a
    | some t => rfl
  · have hnil : keys.filter (fun k => decide (k = "@type")) = [] :=
      List.filter_eq_nil_iff.mpr (fun k hk => by
        intro h
        have : k = "@type" := by simpa using h
        exact hmem (this ▸ hk))
    rw [hnil] at hperm
    simp only [hmem, if_false, typeBindings, grouped_getD]
    rw [hperm.count_eq a]
    rfl

theorem count_suffix_bindings (pfx : String) (container : LdpContainer) (keys : List String)
    (a : KvPair) (ha : a.Key ≠ "@type") :
    ((mapGet (extractedKvps pfx container keys) a.Key).getD []).count a
      = (suffixBindings container.PassProperties keys).count a := by
  have hperm := appended_filter_perm (fun k => decide (k ≠ "@type")) keys
    container.PassProperties
  have hg : mapGet (extractedKvps pfx container keys) a.Key
      = grouped (appended keys container.PassProperties) a.Key := by
    rw [mapGet_extractedKvps]
    by_cases hmem : "@type" ∈ keys
    · simp [hmem, typeLookup, ha]
    · simp [hmem]
  rw [hg, grouped_getD, List.count_filter (by simp)]
  have h2 : (suffixBindings container.PassProperties keys).count a
      = ((appended keys container.PassProperties).filter
          (fun kv => decide (kv.Key ≠ "@type"))).count a := (hperm.count_eq a).symm
  rw [h2, List.count_filter (by simpa using ha)]

theorem extractKeys_perm (rangeOrder : KvMap → KvMap) (pfx : String)
    (container : LdpContainer) (keys : List String)
    (hord : ∀ m, (rangeOrder m).Perm m)
    (hok : (extractKeys rangeOrder pfx container keys).2 = .nil) :
    (extractKeys rangeOrder pfx container keys).1.Perm
      (suffixBindings container.PassProperties keys ++ typeBindings pfx container keys) := by
  rw [extractKeys_ok rangeOrder pfx container keys hok, List.perm_iff_count]
  intro a
  rw [count_flatten rangeOrder _ a (hord _) (MapInv_extractedKvps pfx container keys),
    List.count_append]
  by_cases ha : a.Key = "@type"
  · have h0 : (suffixBindings container.PassProperties keys).count a = 0 :=
      List.count_eq_zero.mpr (fun h => suffixBindings_key _ _ a h ha)
    rw [h0, Nat.zero_add, ha]
    exact count_type_bindings pfx container keys a
  · have h0 : (typeBindings pfx container keys).count a = 0 :=
      List.count_eq_zero.mpr (fun h => ha (typeBindings_key _ _ _ a h))
    rw [h0, Nat.add_zero]
    exact count_suffix_bindings pfx container keys a ha

/-- C1: when `extractKeys` succeeds, the returned bindings whose key is not `@type`
are, as a multiset, exactly one `KvPair(k, v)` for every required key `k` other
than `@type`, every property of `PassProperties()` whose name has `k` as a suffix,
and every value `v` of that property; the whole result is these bindings
together with the bindings of `@type`. -/
theorem extractKeys_suffix_binding (rangeOrder : KvMap → KvMap) (pfx : String)
    (container : LdpContainer) (keys : List String)
    (hord : ∀ m, (rangeOrder m).Perm m)
    (hok : (extractKeys rangeOrder pfx container keys).2 = .nil) :
    ((extractKeys rangeOrder pfx container keys).1.filter (fun kv => kv.Key ≠ "@type")).Perm
      (suffixBindings container.PassProperties keys) ∧
    (extractKeys rangeOrder pfx container keys).1.Perm
      (suffixBindings container.PassProperties keys ++ typeBindings pfx container keys) := by
  have hperm := extractKeys_perm rangeOrder pfx container keys hord hok
  refine ⟨?_, hperm⟩
  have hf := hperm.filter (fun kv => decide (kv.Key ≠ "@type"))
  have h1 : (suffixBindings container.PassProperties keys).filter
      (fun kv => decide (kv.Key ≠ "@type")) = suffixBindings container.PassProperties keys :=
    List.filter_eq_self.mpr (fun kv hkv => by simpa using suffixBindings_key _ _ kv hkv)
  have h2 : (typeBindings pfx container keys).filter
      (fun kv => decide (kv.Key ≠ "@type")) = [] :=
    List.filter_eq_nil_iff.mpr (fun kv hkv => by simp [typeBindings_key _ _ _ kv hkv])
  rw [List.filter_append, h1, h2, List.append_nil] at hf
  exact hf

theorem extractKeys_suffix_binding_witness :
    (extractKeys List.reverse "NS#" articleContainer ["title", "@type"]).1.Perm
      [{ Key := "title", Value := "A" }, { Key := "title", Value := "B" },
       { Key := "@type", Value := "Article" }] :=
  (extractKeys_suffix_binding List.reverse "NS#" articleContainer ["title", "@type"]
    (fun m => List.reverse_perm m) (by decide)).2

/-- C2, as stated, fails: with the type tags `NS#Article`, `NS#Journal` (both
prefixed) the value bound to `@type` is `Journal`, the local name of the last
prefixed tag, not `Article`, the local name of the first. -/
theorem extractKeys_type_counterexample :
    (passTags "NS#" twoTypesContainer.Types).head? = some "NS#Article" ∧
    extractKeys id "NS#" twoTypesContainer ["@type"]
      = ([{ Key := "@type", Value := "Journal" }], .nil) ∧
    (extractKeys id "NS#" twoTypesContainer ["@type"]).1
      ≠ [{ Key := "@type", Value := trimPrefix "NS#Article" "NS#" }] := by
  decide

/-- C2, amended: when some type tag starts with the prefix and `@type` is a
required key, the map binds `@type` to the single pair whose value is the LAST
prefixed tag (in `Types()` order) with the prefix stripped, and when
`extractKeys` succeeds that pair is the only binding of `@type` it returns. -/
theorem extractKeys_type_binding (rangeOrder : KvMap → KvMap) (pfx : String)
    (container : LdpContainer) (keys : List String)
    (hord : ∀ m, (rangeOrder m).Perm m)
    (htag : ∃ t ∈ container.Types, hasPrefix t pfx = true) (hkey : "@type" ∈ keys) :
    ∃ t, (passTags pfx container.Types).getLast? = some t ∧
      mapGet (extractedKvps pfx container keys) "@type"
        = some [{ Key := "@type", Value := trimPrefix t pfx }] ∧
      ((extractKeys rangeOrder pfx container keys).2 = .nil →
        (extractKeys rangeOrder pfx container keys).1.filter (fun kv => kv.Key = "@type")
          = [{ Key := "@type", Value := trimPrefix t pfx }]) := by
  cases hl : (passTags pfx container.Types).getLast? with
  | none => exact absurd htag ((passTags_getLast_none pfx container.Types).mp hl)
  | some t =>
    have hget : mapGet (extractedKvps pfx container keys) "@type"
        = some [{ Key := "@type", Value := trimPrefix t pfx }] := by
      rw [mapGet_extractedKvps]
      simp only [hkey, if_true, typeLookup, hl, typeBinding]
    refine ⟨t, rfl, hget, fun hok => ?_⟩
    rw [extractKeys_ok rangeOrder pfx container keys hok, flattenKvps_eq]
    have hp := ((List.Perm.flatMap_right (fun e => e.2)
      (hord (extractedKvps pfx container keys))).filter (fun kv => decide (kv.Key = "@type")))
    rw [filter_flatten _ "@type" (MapInv_extractedKvps pfx container keys), hget] at hp
    exact List.perm_singleton.mp hp

theorem extractKeys_type_binding_witness :
    ∃ t, (passTags "NS#" twoTypesContainer.Types).getLast? = some t ∧
      mapGet (extractedKvps "NS#" twoTypesContainer ["@type"]) "@type"
        = some [{ Key := "@type", Value := trimPrefix t "NS#" }] ∧
      ((extractKeys List.reverse "NS#" twoTypesContainer ["@type"]).2 = .nil →
        (extractKeys List.reverse "NS#" twoTypesContainer ["@type"]).1.filter
            (fun kv => kv.Key = "@type")
          = [{ Key := "@type", Value := trimPrefix t "NS#" }]) :=
  extractKeys_type_binding List.reverse "NS#" twoTypesContainer ["@type"]
    (fun m => List.reverse_perm m) ⟨"NS#Journal", by decide, by decide⟩ (by decide)

/-- C3: `extractKeys` returns an error if and only if some required key has no bound
value (no property whose name has the key as a suffix holds a value, and for
`@type` no type tag is prefixed); the error then satisfies
`errors.Is(err, ErrMissingRequiredKey)` and the bindings returned are nil. -/
theorem extractKeys_fails_iff (rangeOrder : KvMap → KvMap) (pfx : String)
    (container : LdpContainer) (keys : List String) :
    ((extractKeys rangeOrder pfx container keys).2 ≠ .nil ↔
      ∃ k ∈ keys, hasBinding pfx container k = false) ∧
    ((extractKeys rangeOrder pfx container keys).2 ≠ .nil →
      errorsIs (extractKeys rangeOrder pfx container keys).2 .ErrMissingRequiredKey = true ∧
      (extractKeys rangeOrder pfx container keys).1 = []) := by
  rw [extractKeys_eq]
  by_cases h : keys.filter (fun k => !hasBinding pfx container k) = []
  · simp only [h, if_true, ne_eq, not_true, false_iff, false_imp_iff, and_true]
    rintro ⟨k, hk, hb⟩
    exact List.filter_eq_nil_iff.mp h k hk (by simp [hb])
  · simp only [h, if_false, ne_eq, reduceCtorEq, not_false_eq_true, true_iff, true_imp_iff]
    obtain ⟨k, hk⟩ := List.exists_mem_of_ne_nil _ h
    refine ⟨⟨k, (List.mem_filter.mp hk).1, by simpa using (List.mem_filter.mp hk).2⟩, ?_, trivial⟩
    simp [errorsIs]

/-- C4: whenever `extractKeys` fails, the error is `Error(ErrMissingRequiredKey,
context)` where `context` is the comma-joined list of the required keys that have
no bound value: all of them, in required-key order, and no other key. -/
theorem extractKeys_names_missing (rangeOrder : KvMap → KvMap) (pfx : String)
    (container : LdpContainer) (keys : List String)
    (herr : (extractKeys rangeOrder pfx container keys).2 ≠ .nil) :
    (extractKeys rangeOrder pfx container keys).2
      = .Error .ErrMissingRequiredKey
          (join (keys.filter (fun k => !hasBinding pfx container k)) ",") ∧
    ∀ k, k ∈ keys.filter (fun k => !hasBinding pfx container k) ↔
      (k ∈ keys ∧ hasBinding pfx container k = false) := by
  refine ⟨?_, fun k => by simp [List.mem_filter]⟩
  rw [extractKeys_eq] at herr ⊢
  by_cases h : keys.filter (fun k => !hasBinding pfx container k) = []
  · simp [h] at herr
  · simp only [h, if_false]

theorem extractKeys_names_missing_witness :
    (extractKeys id "NS#" articleContainer ["doi", "title", "issn"]).2
      = .Error .ErrMissingRequiredKey "doi,issn" :=
  (extractKeys_names_missing id "NS#" articleContainer ["doi", "title", "issn"]
    (by decide)).1

/-! ## Template execution -/

theorem errorsIs_self (e : error) : errorsIs e e = true := by
  cases e <;> simp [errorsIs]

theorem extractKeys_err_cases (rangeOrder : KvMap → KvMap) (pfx : String)
    (container : LdpContainer) (keys : List String) :
    (extractKeys rangeOrder pfx container keys).2 = .nil ∨
    ∃ context, extractKeys rangeOrder pfx container keys
      = ([], .Error .ErrMissingRequiredKey context) := by
  rw [extractKeys_eq]
  by_cases h : keys.filter (fun k => !hasBinding pfx container k) = []
  · exact Or.inl (by simp [h])
  · exact Or.inr ⟨join (keys.filter (fun k => !hasBinding pfx container k)) ",",
      by simp only [h, if_false]⟩

theorem Execute_of_missing {τ : Type} (rangeOrder : KvMap → KvMap) (pfx : String)
    (ext : error → String) (render : τ → TemplateData → Except error String)
    (NewRequest : String → String → Except error Request)
    (Unmarshal : String → Except error HitsDoc) (client : HttpClient) (p : String)
    (qt : Template τ) (container : LdpContainer) (handler : Match → error)
    (hmiss : (extractKeys rangeOrder pfx container qt.Keys).2 ≠ .nil) :
    qt.Execute rangeOrder pfx ext render NewRequest Unmarshal client p container handler
      = ((extractKeys rangeOrder pfx container qt.Keys).2,
          [.logged ("Skipping query evaluation for " ++ container.Uri
            ++ ", resource is missing at least one key required to formulate the query: "
            ++ errText ext (extractKeys rangeOrder pfx container qt.Keys).2)]) := by
  rcases extractKeys_err_cases rangeOrder pfx container qt.Keys with h | ⟨context, h⟩
  · exact absurd h hmiss
  · simp [Template.Execute, h, errorsIs]

theorem Execute_of_extracted {τ : Type} (rangeOrder : KvMap → KvMap) (pfx : String)
    (ext : error → String) (render : τ → TemplateData → Except error String)
    (NewRequest : String → String → Except error Request)
    (Unmarshal : String → Except error HitsDoc) (client : HttpClient) (p : String)
    (qt : Template τ) (container : LdpContainer) (handler : Match → error)
    (hok : (extractKeys rangeOrder pfx container qt.Keys).2 = .nil) :
    qt.Execute rangeOrder pfx ext render NewRequest Unmarshal client p container handler
      = if (qt.eval render p (extractKeys rangeOrder pfx container qt.Keys).1).2 ≠ .nil then
          ((qt.eval render p (extractKeys rangeOrder pfx container qt.Keys).1).2,
            [.evaluated (extractKeys rangeOrder pfx container qt.Keys).1])
        else if (performQuery NewRequest Unmarshal
            (qt.eval render p (extractKeys rangeOrder pfx container qt.Keys).1).1
            { http := client }).2 ≠ .nil then
          ((performQuery NewRequest Unmarshal
              (qt.eval render p (extractKeys rangeOrder pfx container qt.Keys).1).1
              { http := client }).2,
            [.evaluated (extractKeys rangeOrder pfx container qt.Keys).1,
             .queried (qt.eval render p (extractKeys rangeOrder pfx container qt.Keys).1).1])
        else
          (handler { (performQuery NewRequest Unmarshal
              (qt.eval render p (extractKeys rangeOrder pfx container qt.Keys).1).1
              { http := client }).1 with
              PassUri := container.Uri, PassType := container.PassType },
            [.evaluated (extractKeys rangeOrder pfx container qt.Keys).1,
             .queried (qt.eval render p (extractKeys rangeOrder pfx container qt.Keys).1).1,
             .handled { (performQuery NewRequest Unmarshal
              (qt.eval render p (extractKeys rangeOrder pfx container qt.Keys).1).1
              { http := client }).1 with
              PassUri := container.Uri, PassType := container.PassType }]) := by
  simp only [Template.Execute, hok, errorsIs]
  simp only [decide_eq_true_eq, reduceCtorEq, if_false]
  split
  · rfl
  · split
    · rfl
    · split
      · rfl
      · rename_i h
        simp only [ne_eq, not_not] at h
        rw [h]

theorem eval_error_not_missing {τ : Type} (render : τ → TemplateData → Except error String)
    (p : String) (qt : Template τ) (kvp : List KvPair)
    (hrender : ∀ t d e, render t d = .error e → errorsIs e .ErrMissingRequiredKey = false) :
    errorsIs (qt.eval render p kvp).2 .ErrMissingRequiredKey = false := by
  unfold Template.eval
  by_cases h : kvp.length = 0
  · simp [h, errorsIs]
  · simp only [h, if_false]
    cases hr : render qt.Template
        { Scheme := "http", HostAndPort := "elasticsearch.local:9200", Index := "pass",
          KvPairs := kvp } with
    | error e => simpa using hrender _ _ e hr
    | ok text => simp [errorsIs]

theorem performQuery_error_not_missing (NewRequest : String → String → Except error Request)
    (Unmarshal : String → Except error HitsDoc) (query : String) (esClient : ElasticSearchClient)
    (hreq : ∀ m u e, NewRequest m u = .error e → errorsIs e .ErrMissingRequiredKey = false)
    (hdo : ∀ r e, esClient.http.Do r = .error e → errorsIs e .ErrMissingRequiredKey = false)
    (hdec : ∀ b e, Unmarshal b = .error e → errorsIs e .ErrMissingRequiredKey = false) :
    errorsIs (performQuery NewRequest Unmarshal query esClient).2 .ErrMissingRequiredKey
      = false := by
  cases h1 : NewRequest "GET" query with
  | error e => simpa [performQuery, h1] using hreq _ _ e h1
  | ok req =>
    cases h2 : esClient.http.Do req with
    | error e => simpa [performQuery, h1, h2] using hdo _ e h2
    | ok res =>
      cases h3 : res.Body with
      | error readErr => simp [performQuery, h1, h2, h3, errorsIs]
      | ok resbytes =>
        by_cases hs : res.StatusCode = 200
        · cases h4 : Unmarshal resbytes with
          | error e => simpa [performQuery, h1, h2, h3, h4, hs, errorsIs] using hdec _ e h4
          | ok hits =>
            by_cases h0 : hits.Hits.Total = 0
            · simp [performQuery, h1, h2, h3, h4, hs, h0, errorsIs]
            · simp [performQuery, h1, h2, h3, h4, hs, h0, errorsIs]
        · simp [performQuery, h1, h2, h3, hs, errorsIs]

/-- C11: when key extraction reports missing keys, `Template.Execute` returns that same
error, for which `errors.Is(err, ErrMissingRequiredKey)` holds, and does nothing
but log: no rendering, no search request, no handler call.  When extraction
succeeds and neither the template library, the HTTP and JSON libraries nor the
handler produce that sentinel, the error returned does not satisfy
`errors.Is(err, ErrMissingRequiredKey)`, so the skip is told apart. -/
theorem Execute_skips_on_missing_keys {τ : Type} (rangeOrder : KvMap → KvMap) (pfx : String)
    (ext : error → String) (render : τ → TemplateData → Except error String)
    (NewRequest : String → String → Except error Request)
    (Unmarshal : String → Except error HitsDoc) (client : HttpClient) (p : String)
    (qt : Template τ) (container : LdpContainer) (handler : Match → error) :
    ((extractKeys rangeOrder pfx container qt.Keys).2 ≠ .nil →
      (qt.Execute rangeOrder pfx ext render NewRequest Unmarshal client p container handler).1
        = (extractKeys rangeOrder pfx container qt.Keys).2 ∧
      errorsIs
        (qt.Execute rangeOrder pfx ext render NewRequest Unmarshal client p container handler).1
        .ErrMissingRequiredKey = true ∧
      (∀ ev ∈ (qt.Execute rangeOrder pfx ext render NewRequest Unmarshal client p container
          handler).2, ev.isLog = true) ∧
      handlerCalls (qt.Execute rangeOrder pfx ext render NewRequest Unmarshal client p container
          handler).2 = []) ∧
    ((extractKeys rangeOrder pfx container qt.Keys).2 = .nil →
      (∀ t d e, render t d = .error e → errorsIs e .ErrMissingRequiredKey = false) →
      (∀ m u e, NewRequest m u = .error e → errorsIs e .ErrMissingRequiredKey = false) →
      (∀ r e, client.Do r = .error e → errorsIs e .ErrMissingRequiredKey = false) →
      (∀ b e, Unmarshal b = .error e → errorsIs e .ErrMissingRequiredKey = false) →
      (∀ m, errorsIs (handler m) .ErrMissingRequiredKey = false) →
      errorsIs
        (qt.Execute rangeOrder pfx ext render NewRequest Unmarshal client p container handler).1
        .ErrMissingRequiredKey = false) := by
  constructor
  · intro hmiss
    rw [Execute_of_missing rangeOrder pfx ext render NewRequest Unmarshal client p qt container
      handler hmiss]
    refine ⟨rfl, ?_, ?_, ?_⟩
    · rcases extractKeys_err_cases rangeOrder pfx container qt.Keys with h | ⟨context, h⟩
      · exact absurd h hmiss
      · simp [h, errorsIs]
    · intro ev hev
      simp only [List.mem_singleton] at hev
      rw [hev]
      rfl
    · rfl
  · intro hok hrender hreq hdo hdec hhandler
    rw [Execute_of_extracted rangeOrder pfx ext render NewRequest Unmarshal client p qt
      container handler hok]
    split
    · exact eval_error_not_missing render p qt _ hrender
    · split
      · exact performQuery_error_not_missing NewRequest Unmarshal _ _ hreq hdo hdec
      · exact hhandler _

theorem Execute_skips_on_missing_keys_witness :
    (doiPlan.Execute id "NS#" (fun _ => "") renderFirst newRequestOk
        (unmarshalTo (hitsDoc 0 [])) (transportAnswering (okResponse "")) "0xc000010000"
        articleContainer duplicateHandler).1
      = (extractKeys id "NS#" articleContainer doiPlan.Keys).2 ∧
    errorsIs
      (doiPlan.Execute id "NS#" (fun _ => "") renderFirst newRequestOk
        (unmarshalTo (hitsDoc 0 [])) (transportAnswering (okResponse "")) "0xc000010000"
        articleContainer duplicateHandler).1
      .ErrMissingRequiredKey = true ∧
    (∀ ev ∈ (doiPlan.Execute id "NS#" (fun _ => "") renderFirst newRequestOk
        (unmarshalTo (hitsDoc 0 [])) (transportAnswering (okResponse "")) "0xc000010000"
        articleContainer duplicateHandler).2, ev.isLog = true) ∧
    handlerCalls (doiPlan.Execute id "NS#" (fun _ => "") renderFirst newRequestOk
        (unmarshalTo (hitsDoc 0 [])) (transportAnswering (okResponse "")) "0xc000010000"
        articleContainer duplicateHandler).2 = [] :=
  (Execute_skips_on_missing_keys id "NS#" (fun _ => "") renderFirst newRequestOk
    (unmarshalTo (hitsDoc 0 [])) (transportAnswering (okResponse "")) "0xc000010000"
    doiPlan articleContainer duplicateHandler).1 (by decide)

/-- C12: when extraction, rendering and the search all succeed, `Template.Execute`
calls the handler exactly once, with the Match of the search whose `PassUri` is
the resource's `Uri()` and whose `PassType` is its `PassType()` (`QueryUrl`,
`HitCount` and `MatchingUris` unchanged), and returns exactly what the handler
returns. -/
theorem Execute_success_path {τ : Type} (rangeOrder : KvMap → KvMap) (pfx : String)
    (ext : error → String) (render : τ → TemplateData → Except error String)
    (NewRequest : String → String → Except error Request)
    (Unmarshal : String → Except error HitsDoc) (client : HttpClient) (p : String)
    (qt : Template τ) (container : LdpContainer) (handler : Match → error)
    (query : String) (m : Match)
    (hok : (extractKeys rangeOrder pfx container qt.Keys).2 = .nil)
    (heval : qt.eval render p (extractKeys rangeOrder pfx container qt.Keys).1 = (query, .nil))
    (hsearch : performQuery NewRequest Unmarshal query { http := client } = (m, .nil)) :
    (qt.Execute rangeOrder pfx ext render NewRequest Unmarshal client p container handler).1
      = handler { QueryUrl := m.QueryUrl, HitCount := m.HitCount,
                  MatchingUris := m.MatchingUris, PassUri := container.Uri,
                  PassType := container.PassType } ∧
    handlerCalls
        (qt.Execute rangeOrder pfx ext render NewRequest Unmarshal client p container handler).2
      = [{ QueryUrl := m.QueryUrl, HitCount := m.HitCount, MatchingUris := m.MatchingUris,
           PassUri := container.Uri, PassType := container.PassType }] ∧
    (qt.Execute rangeOrder pfx ext render NewRequest Unmarshal client p container handler).2
      = [.evaluated (extractKeys rangeOrder pfx container qt.Keys).1, .queried query,
         .handled { QueryUrl := m.QueryUrl, HitCount := m.HitCount,
                    MatchingUris := m.MatchingUris, PassUri := container.Uri,
                    PassType := container.PassType }] := by
  rw [Execute_of_extracted rangeOrder pfx ext render NewRequest Unmarshal client p qt
    container handler hok, heval]
  simp only [ne_eq, not_true, if_false, hsearch]
  exact ⟨trivial, rfl, trivial⟩

theorem Execute_success_path_witness :
    (titlePlan.Execute id "NS#" (fun _ => "") renderFirst newRequestOk
        (unmarshalTo (hitsDoc 1 ["http://repo/articles/9"]))
        (transportAnswering (okResponse "one hit")) "0xc000010000" articleContainer
        duplicateHandler).1
      = duplicateHandler
          { QueryUrl := "http://elasticsearch.local:9200/pass/_search?q=A", HitCount := 1,
            MatchingUris := ["http://repo/articles/9"], PassUri := "http://repo/articles/1",
            PassType := "Article" } :=
  (Execute_success_path id "NS#" (fun _ => "") renderFirst newRequestOk
    (unmarshalTo (hitsDoc 1 ["http://repo/articles/9"]))
    (transportAnswering (okResponse "one hit")) "0xc000010000" titlePlan articleContainer
    duplicateHandler "http://elasticsearch.local:9200/pass/_search?q=A"
    { QueryUrl := "http://elasticsearch.local:9200/pass/_search?q=A", HitCount := 1,
      MatchingUris := ["http://repo/articles/9"], PassUri := "", PassType := "" }
    (by decide) (by decide) (by decide)).1

/-! ## The traversal engine -/

theorem walkUnit_fetched (ext : error → String)
    (recurse : Visitor → LdpContainer → Walked Visitor) (filter accept : LdpContainer → Bool)
    (get : String → LdpContainer × error) (cap : Nat) (hcap : 1 ≤ cap)
    (cs : List LdpContainer) (es : List error) (cc ce : Bool) (uri : String)
    (c : LdpContainer) (hget : get uri = (c, .nil)) :
    walkUnit ext recurse filter accept
        (.done { retriever := get, semaphoreCap := cap, semaphore := 0, Containers := cs,
                 Errors := es, closedContainers := cc, closedErrors := ce }) uri
      = if filter c = true then
          recurse { retriever := get, semaphoreCap := cap, semaphore := 0,
                    Containers := cs ++ (if accept c = true then [c] else []),
                    Errors := es, closedContainers := cc, closedErrors := ce } c
        else
          .done { retriever := get, semaphoreCap := cap, semaphore := 0,
                  Containers := cs ++ (if accept c = true then [c] else []),
                  Errors := es, closedContainers := cc, closedErrors := ce } := by
  have hlt : 0 < cap := hcap
  by_cases ha : accept c = true <;> by_cases hf : filter c = true <;>
    simp [walkUnit, hlt, hget, ha, hf]

theorem foldl_walkUnit_not_done (ext : error → String)
    (recurse : Visitor → LdpContainer → Walked Visitor) (filter accept : LdpContainer → Bool)
    (uris : List String) (r : Walked Visitor) (hr : ∀ v, r ≠ .done v) :
    uris.foldl (walkUnit ext recurse filter accept) r = r := by
  induction uris with
  | nil => rfl
  | cons u us ih =>
    have h1 : walkUnit ext recurse filter accept r u = r := by
      cases r with
      | done v => exact absurd rfl (hr v)
      | fatal msg => rfl
      | blocked => rfl
      | outOfFuel => rfl
    simp only [List.foldl_cons, h1]
    exact ih

mutual
theorem walkInternal_tree (ext : error → String) (filter accept : LdpContainer → Bool)
    (get : String → LdpContainer × error) (cap : Nat) (hcap : 1 ≤ cap) :
    (t : Tree) → (fuel : Nat) → (cs : List LdpContainer) → (es : List error) →
    (cc ce : Bool) → Tree.Fetched get t → Tree.height t ≤ fuel →
    walkInternal ext fuel
        { retriever := get, semaphoreCap := cap, semaphore := 0, Containers := cs,
          Errors := es, closedContainers := cc, closedErrors := ce } t.root filter accept
      = .done { retriever := get, semaphoreCap := cap, semaphore := 0,
                Containers := cs ++ (Forest.visited filter t.children).filter accept,
                Errors := es, closedContainers := cc, closedErrors := ce }
  | .node c ts, fuel, cs, es, cc, ce, hf, hh => by
    cases fuel with
    | zero => simp [Tree.height] at hh
    | succ fuel =>
      simp only [Tree.height, Nat.add_le_add_iff_right] at hh
      simp only [walkInternal, Tree.root, Tree.children]
      exact walkInternal_forest ext filter accept get cap hcap ts c.Contains fuel cs es cc ce
        hf hh
theorem walkInternal_forest (ext : error → String) (filter accept : LdpContainer → Bool)
    (get : String → LdpContainer × error) (cap : Nat) (hcap : 1 ≤ cap) :
    (ts : Forest) → (uris : List String) → (fuel : Nat) → (cs : List LdpContainer) →
    (es : List error) → (cc ce : Bool) → Forest.Fetched get uris ts →
    Forest.height ts ≤ fuel →
    uris.foldl
        (walkUnit ext (fun v c => walkInternal ext fuel v c filter accept) filter accept)
        (.done { retriever := get, semaphoreCap := cap, semaphore := 0, Containers := cs,
                 Errors := es, closedContainers := cc, closedErrors := ce })
      = .done { retriever := get, semaphoreCap := cap, semaphore := 0,
                Containers := cs ++ (Forest.visited filter ts).filter accept,
                Errors := es, closedContainers := cc, closedErrors := ce }
  | .nil, uris, fuel, cs, es, cc, ce, hf, _ => by
    cases uris with
    | nil => simp [Forest.visited]
    | cons u us => simp [Forest.Fetched] at hf
  | .cons t ts, uris, fuel, cs, es, cc, ce, hf, hh => by
    cases uris with
    | nil => simp [Forest.Fetched] at hf
    | cons u us =>
      simp only [Forest.Fetched] at hf
      obtain ⟨hget, hft, hfs⟩ := hf
      simp only [Forest.height, Nat.max_le] at hh
      rw [List.foldl_cons,
        walkUnit_fetched ext _ filter accept get cap hcap cs es cc ce u t.root hget]
      have htree := walkInternal_tree ext filter accept get cap hcap t fuel
        (cs ++ (if accept t.root = true then [t.root] else [])) es cc ce hft hh.1
      have hrest := fun cs1 => walkInternal_forest ext filter accept get cap hcap ts us fuel
        cs1 es cc ce hfs hh.2
      cases t with
      | node c cts =>
        simp only [Tree.root, Tree.children] at htree ⊢
        by_cases hfc : filter c = true <;> by_cases hac : accept c = true
        · simp only [hac, if_true] at htree
          simp [hfc, hac, htree, hrest, Forest.visited, Tree.visited, List.filter_cons]
        · simp at hac
          simp only [hac, Bool.false_eq_true, if_false, List.append_nil] at htree
          simp [hfc, hac, htree, hrest, Forest.visited, Tree.visited, List.filter_cons]
        · simp [hfc, hac, hrest, Forest.visited, Tree.visited, List.filter_cons]
        · simp [hfc, hac, hrest, Forest.visited, Tree.visited, List.filter_cons]
end

theorem Walk_tree (ext : error → String) (filter accept : LdpContainer → Bool)
    (get : String → LdpContainer × error) (N fuel : Nat) (startUri : String) (t : Tree)
    (hN : 1 ≤ N) (hroot : get startUri = (t.root, .nil)) (huri : t.root.Uri ≠ "")
    (hf : Tree.Fetched get t) (hh : Tree.height t ≤ fuel) :
    Walk ext fuel (New get N) startUri (some filter) (some accept)
      = .done { retriever := get, semaphoreCap := N, semaphore := 0,
                Containers := (Tree.reached filter t).filter accept, Errors := [],
                closedContainers := true, closedErrors := true } := by
  have htree := fun cs => walkInternal_tree ext filter accept get N hN t fuel cs [] false false
    hf hh
  cases t with
  | node c ts =>
    simp only [Tree.root, Tree.children] at htree hroot huri
    by_cases hac : accept c = true
    · simp [Walk, New, hroot, huri, hac, htree, Tree.reached, List.filter_cons]
    · simp [Walk, New, hroot, huri, hac, htree, Tree.reached, List.filter_cons]

theorem defaultAccept_iff (c : LdpContainer) :
    defaultAccept c = true ↔ (c.IsPassResource.1 = true ∧ c.Uri ≠ "") := by
  have hlen : c.Uri.length > 0 ↔ c.Uri ≠ "" := by
    constructor
    · intro h he
      rw [he] at h
      exact absurd h (by decide)
    · intro h
      exact Nat.pos_of_ne_zero (fun h0 => h (length_eq_zero _ h0))
  by_cases hp : c.IsPassResource.1 = true
  · by_cases hu : c.Uri.length > 0
    · simp [defaultAccept, hp, hu, hlen.mp hu]
    · have hne : ¬ c.Uri ≠ "" := fun h => hu (hlen.mpr h)
      simp only [ne_eq, not_not] at hne
      simp [defaultAccept, hp, hne]
  · simp [defaultAccept, hp]

/-- C15 fails on the code: when the fetch of the child `http://repo/r/gone` fails with the
cause `404 Not Found`, the value sent on the `Errors` channel is the plain error
made by `fmt.Errorf("%v", ...)` from the text of the Visit Error; it is not a
`VisitErr`, and `errors.Is` does not find the cause in it. -/
theorem Walk_fetch_error_sent :
    brokenRetriever "http://repo/r/gone" = (plainContainer "" [], .foreign "404 Not Found") ∧
    (Walk (fun _ => "") 10 (New brokenRetriever 5) "http://repo/r" none none).errors
      = some [.errorString "visit: error visiting uri http://repo/r/gone, 404 Not Found"] ∧
    errorsIs (.errorString "visit: error visiting uri http://repo/r/gone, 404 Not Found")
      (.foreign "404 Not Found") = false ∧
    (∀ u m w, error.errorString "visit: error visiting uri http://repo/r/gone, 404 Not Found"
      ≠ .VisitErr u m w) ∧
    errorsIs (.VisitErr "http://repo/r/gone" "404 Not Found" (.foreign "404 Not Found"))
      (.foreign "404 Not Found") = true := by
  refine ⟨by decide, by decide, by decide, ?_, by decide⟩
  intro u m w h
  exact error.noConfusion h

/-! ## Base URIs -/

theorem stripLoop_first (uri : String) (l1 : List String) (p : String) (l2 : List String)
    (r : String × String) (hl1 : ∀ q ∈ l1, hasPrefix uri q = false)
    (hp : hasPrefix uri p = true) :
    stripLoop uri (l1 ++ p :: l2) r = (trimPrefix uri p, p) := by
  induction l1 with
  | nil => simp [stripLoop, hp]
  | cons q l1 ih =>
    have hq : hasPrefix uri q = false := hl1 q (List.mem_cons_self _ _)
    simp only [List.cons_append, stripLoop, hq, Bool.false_eq_true, if_false]
    exact ih (fun x hx => hl1 x (List.mem_cons_of_mem _ hx))

theorem stripLoop_none (uri : String) (ps : List String) (r : String × String)
    (h : ∀ q ∈ ps, hasPrefix uri q = false) : stripLoop uri ps r = r := by
  induction ps with
  | nil => rfl
  | cons q ps ih =>
    have hq : hasPrefix uri q = false := h q (List.mem_cons_self _ _)
    simp only [stripLoop, hq, Bool.false_eq_true, if_false]
    exact ih (fun x hx => h x (List.mem_cons_of_mem _ hx))

theorem append_trimPrefix (uri p : String) (hp : hasPrefix uri p = true) :
    p ++ trimPrefix uri p = uri := by
  apply String.ext
  have hpre : p.data <+: uri.data := List.isPrefixOf_iff_prefix.mp hp
  simp only [trimPrefix, hp, if_true, String.data_append]
  exact List.prefix_iff_eq_append.mp hpre

theorem stripLoop_append (uri : String) (ps : List String) :
    (stripLoop uri ps (uri, "")).2 ++ (stripLoop uri ps (uri, "")).1 = uri := by
  induction ps with
  | nil =>
    apply String.ext
    simp [stripLoop, String.data_append]
  | cons q ps ih =>
    by_cases hq : hasPrefix uri q = true
    · simp only [stripLoop, hq, if_true]
      exact append_trimPrefix uri q hq
    · simp only [stripLoop, hq, if_false]
      exact ih

/-- C18: if some base URI is a prefix of `uri`, `StripBaseUri` returns `uri` with `p`
removed from its front together with `p`, where `p` is the first element of the
list that is a prefix of `uri`; if none is, it returns `uri` and the empty
string; in both cases the base URI followed by the resulting path is `uri`. -/
theorem StripBaseUri_spec (uri : String) (baseUris : List String) :
    (∀ l1 p l2, baseUris = l1 ++ p :: l2 → (∀ q ∈ l1, hasPrefix uri q = false) →
      hasPrefix uri p = true →
      StripBaseUri uri baseUris = (String.mk (uri.data.drop p.data.length), p)) ∧
    ((∀ q ∈ baseUris, hasPrefix uri q = false) → StripBaseUri uri baseUris = (uri, "")) ∧
    (StripBaseUri uri baseUris).2 ++ (StripBaseUri uri baseUris).1 = uri := by
  refine ⟨?_, ?_, stripLoop_append uri baseUris⟩
  · intro l1 p l2 hl hl1 hp
    rw [StripBaseUri, hl, stripLoop_first uri l1 p l2 _ hl1 hp]
    simp [trimPrefix, hp]
  · intro h
    exact stripLoop_none uri baseUris _ h

theorem StripBaseUri_spec_witness :
    StripBaseUri "http://fcrepo:8080/fcrepo/rest/policies/1"
        ["http://localhost/", "http://fcrepo:8080/fcrepo/rest", "http://fcrepo:8080/"]
      = (String.mk ("http://fcrepo:8080/fcrepo/rest/policies/1".data.drop
          "http://fcrepo:8080/fcrepo/rest".data.length), "http://fcrepo:8080/fcrepo/rest") ∧
    StripBaseUri "urn:x" ["http://localhost/"] = ("urn:x", "") :=
  ⟨(StripBaseUri_spec "http://fcrepo:8080/fcrepo/rest/policies/1"
      ["http://localhost/", "http://fcrepo:8080/fcrepo/rest", "http://fcrepo:8080/"]).1
      ["http://localhost/"] "http://fcrepo:8080/fcrepo/rest" ["http://fcrepo:8080/"] rfl
      (by decide) (by decide),
   (StripBaseUri_spec "urn:x" ["http://localhost/"]).2.1 (by decide)⟩

/-! ## The plan builder: the keys of the plan -/

theorem AddKey_of_not_built (p : String) (tb : tmplBuilderImpl) (key : String)
    (h : tb.built = false) :
    tb.AddKey p key = ({ tb with keys := tb.keys ++ [key] }, .returned ()) := by
  by_cases hk : tb.keys = []
  · simp [tmplBuilderImpl.AddKey, ifBuilt_of_not_built _ _ _ h, hk]
  · simp [tmplBuilderImpl.AddKey, ifBuilt_of_not_built _ _ _ h, hk]

theorem afterCalls_AddKey {τ : Type} [Inhabited τ] (parse : String → String → Except error τ)
    (p : String) (keys : List String) (tb : tmplBuilderImpl) (h : tb.built = false) :
    afterCalls parse p tb (keys.map BuilderCall.AddKey) = { tb with keys := tb.keys ++ keys } := by
  induction keys generalizing tb with
  | nil => simp [afterCalls]
  | cons key keys ih =>
    have hstep : BuilderCall.after parse p tb (.AddKey key)
        = { tb with keys := tb.keys ++ [key] } := by
      simp [BuilderCall.after, AddKey_of_not_built p tb key h]
    have := ih { tb with keys := tb.keys ++ [key] } h
    simp only [afterCalls, List.map_cons, List.foldl_cons, hstep] at this ⊢
    rw [this]
    simp

/-- C19: after `AddKey(k1)`, ..., `AddKey(kn)` on a fresh builder, in that order, and
`AddQuery` of a text that parses as a template, `Build()` returns without error
a Template-Plan whose `Keys` is exactly `[k1, ..., kn]`, in call order and with
duplicates. -/
theorem Build_preserves_keys {τ : Type} [Inhabited τ]
    (parse : String → String → Except error τ) (p : String) (keys : List String)
    (text : String) (tmpl : τ)
    (hparse : parse ("Template for " ++ fmtPtr p) text = .ok tmpl) :
    (afterCalls parse p newTmplBuilder
        (keys.map BuilderCall.AddKey ++ [BuilderCall.AddQuery text])).Build parse p
      = ({ built := true, keys := keys, query := text },
          .returned ({ Template := tmpl, Keys := keys }, .nil)) := by
  have h1 := afterCalls_AddKey parse p keys newTmplBuilder rfl
  have h2 : afterCalls parse p newTmplBuilder
      (keys.map BuilderCall.AddKey ++ [BuilderCall.AddQuery text])
      = { built := false, keys := keys, query := text } := by
    simp only [afterCalls, List.foldl_append, List.foldl_cons, List.foldl_nil] at h1 ⊢
    rw [h1]
    simp [BuilderCall.after, tmplBuilderImpl.AddQuery, tmplBuilderImpl.ifBuilt, newTmplBuilder]
  rw [h2]
  simp [tmplBuilderImpl.Build, tmplBuilderImpl.ifBuilt, tmplBuilderImpl.asTemplate, hparse]

theorem Build_preserves_keys_witness :
    (afterCalls (fun _ _ => (Except.ok () : Except error Unit)) "0xc000010000" newTmplBuilder
        (["title", "@type", "title"].map BuilderCall.AddKey
          ++ [BuilderCall.AddQuery "q=title"])).Build
        (fun _ _ => (Except.ok () : Except error Unit)) "0xc000010000"
      = ({ built := true, keys := ["title", "@type", "title"], query := "q=title" },
          .returned ({ Template := (), Keys := ["title", "@type", "title"] }, .nil)) :=
  Build_preserves_keys (fun _ _ => (Except.ok () : Except error Unit)) "0xc000010000"
    ["title", "@type", "title"] "q=title" () rfl

/-! ## The search client: decoding failures -/

theorem performQuery_of_undecodable (NewRequest : String → String → Except error Request)
    (Unmarshal : String → Except error HitsDoc) (query : String) (esClient : ElasticSearchClient)
    (req : Request) (res : Response) (body : String) (derr : error)
    (hreq : NewRequest "GET" query = .ok req) (hdo : esClient.http.Do req = .ok res)
    (hstatus : res.StatusCode = 200) (hbody : res.Body = .ok body)
    (hdec : Unmarshal body = .error derr) :
    performQuery NewRequest Unmarshal query esClient
      = (Match.zero, .wrapError
          ("query: unable to unmarshal body of request \x27" ++ query ++ "\x27: ") derr) := by
  simp [performQuery, hreq, hdo, hstatus, hbody, hdec]

theorem performQuery_status_is (NewRequest : String → String → Except error Request)
    (Unmarshal : String → Except error HitsDoc) (query : String) (esClient : ElasticSearchClient)
    (req : Request) (res : Response)
    (hreq : NewRequest "GET" query = .ok req) (hdo : esClient.http.Do req = .ok res)
    (hstatus : res.StatusCode ≠ 200) :
    errorsIs (performQuery NewRequest Unmarshal query esClient).2
      .ErrPerformingElasticSearchRequest = true := by
  cases hb : res.Body with
  | error readErr => simp [performQuery, hreq, hdo, hb, errorsIs]
  | ok body =>
    rw [performQuery_of_status NewRequest Unmarshal query esClient req res body hreq hdo
      hstatus hb]
    simp [errorsIs]

/-- C20: for a 200 response whose body cannot be decoded, `performQuery` returns the
empty Match and an error that wraps the decoder's error and whose text embeds
the query; as the decoder's error is not the sentinel,
`errors.Is(err, ErrPerformingElasticSearchRequest)` is false for it, whereas it
is true for the error of every response whose status is not 200. -/
theorem performQuery_decoding_error (NewRequest : String → String → Except error Request)
    (Unmarshal : String → Except error HitsDoc) (query : String) (esClient : ElasticSearchClient)
    (req : Request) (res : Response) (body : String) (derr : error)
    (hreq : NewRequest "GET" query = .ok req) (hdo : esClient.http.Do req = .ok res)
    (hstatus : res.StatusCode = 200) (hbody : res.Body = .ok body)
    (hdec : Unmarshal body = .error derr)
    (hlib : errorsIs derr .ErrPerformingElasticSearchRequest = false) :
    (∃ msg, performQuery NewRequest Unmarshal query esClient
        = (Match.zero, .wrapError msg derr) ∧ embeds msg query) ∧
    errorsIs (performQuery NewRequest Unmarshal query esClient).2 derr = true ∧
    errorsIs (performQuery NewRequest Unmarshal query esClient).2
      .ErrPerformingElasticSearchRequest = false ∧
    (∀ (esClient2 : ElasticSearchClient) (req2 : Request) (res2 : Response),
      NewRequest "GET" query = .ok req2 → esClient2.http.Do req2 = .ok res2 →
      res2.StatusCode ≠ 200 →
      errorsIs (performQuery NewRequest Unmarshal query esClient2).2
        .ErrPerformingElasticSearchRequest = true) := by
  rw [performQuery_of_undecodable NewRequest Unmarshal query esClient req res body derr
    hreq hdo hstatus hbody hdec]
  refine ⟨⟨_, rfl, ?_⟩, ?_, ?_, ?_⟩
  · exact ⟨"query: unable to unmarshal body of request \x27".data, "\x27: ".data,
      by simp [String.data_append]⟩
  · simp [errorsIs, errorsIs_self]
  · simp [errorsIs, hlib]
  · intro esClient2 req2 res2 h1 h2 h3
    exact performQuery_status_is NewRequest Unmarshal query esClient2 req2 res2 h1 h2 h3

theorem performQuery_decoding_error_witness :
    errorsIs (performQuery newRequestOk (fun _ => .error (.foreign "unexpected end of JSON input"))
        "http://es/pass/_search?q=x" (clientAnswering (okResponse "not json"))).2
      .ErrPerformingElasticSearchRequest = false :=
  (performQuery_decoding_error newRequestOk
    (fun _ => .error (.foreign "unexpected end of JSON input"))
    "http://es/pass/_search?q=x" (clientAnswering (okResponse "not json"))
    { Method := "GET", URL := "http://es/pass/_search?q=x" } (okResponse "not json") "not json"
    (.foreign "unexpected end of JSON input") rfl rfl rfl rfl rfl (by decide)).2.2.1

/-! ## The plan builder: failed builds and the overwrite guard -/

theorem Build_of_not_built {τ : Type} [Inhabited τ]
    (parse : String → String → Except error τ) (p : String) (tb : tmplBuilderImpl)
    (hb : tb.built = false) :
    tb.Build parse p
      = ({ tb with built := true },
          .returned (tmplBuilderImpl.asTemplate parse p { tb with built := true })) := by
  simp [tmplBuilderImpl.Build, ifBuilt_of_not_built _ _ _ hb]

theorem AddQuery_of_not_built (p : String) (tb : tmplBuilderImpl) (t : String)
    (hb : tb.built = false) :
    tb.AddQuery p t
      = if tb.query = "" then ({ tb with query := t }, .returned ())
        else (tb, .panicked
          ("illegal state: cannot overwrite existing query \x27" ++ tb.query
            ++ "\x27 with query \x27" ++ t ++ "\x27: " ++ fmtPtr p ++ "\n" ++ tb.toStr p)) := by
  by_cases hq : tb.query = ""
  · simp [tmplBuilderImpl.AddQuery, ifBuilt_of_not_built _ _ _ hb, hq]
  · have hlen : tb.query.length ≠ 0 := fun h => hq (length_eq_zero _ h)
    simp [tmplBuilderImpl.AddQuery, ifBuilt_of_not_built _ _ _ hb, hq, hlen]

/-- C24: when the raw query text of an unbuilt builder does not parse, `Build()`
returns the parser's error with the zero Template, yet leaves the builder marked
built: whatever is called on it afterwards, `Build()`, `AddKey` and `AddQuery`
panic, so the failed build cannot be corrected and retried. -/
theorem Build_failure_consumes {τ : Type} [Inhabited τ]
    (parse : String → String → Except error τ) (p : String) (tb : tmplBuilderImpl)
    (err : error) (calls : List BuilderCall) (key text : String)
    (hb : tb.built = false)
    (hparse : parse ("Template for " ++ fmtPtr p) tb.query = .error err) :
    tb.Build parse p
      = ({ tb with built := true }, .returned ({ Template := default, Keys := [] }, err)) ∧
    (∃ msg, (afterCalls parse p (tb.Build parse p).1 calls).Build parse p
      = (afterCalls parse p (tb.Build parse p).1 calls, .panicked msg)) ∧
    (∃ msg, (afterCalls parse p (tb.Build parse p).1 calls).AddKey p key
      = (afterCalls parse p (tb.Build parse p).1 calls, .panicked msg)) ∧
    (∃ msg, (afterCalls parse p (tb.Build parse p).1 calls).AddQuery p text
      = (afterCalls parse p (tb.Build parse p).1 calls, .panicked msg)) := by
  have hbuilt := built_after_calls parse p calls _ (built_after_Build parse p tb)
  refine ⟨?_, Build_of_built parse p _ hbuilt, AddKey_of_built p _ key hbuilt,
    AddQuery_of_built p _ text hbuilt⟩
  rw [Build_of_not_built parse p tb hb]
  simp [tmplBuilderImpl.asTemplate, hparse]

theorem Build_failure_consumes_witness :
    (tmplBuilderImpl.Build parseNever "0xc000010000"
        { built := false, keys := ["title"], query := "q=((" })
      = ({ built := true, keys := ["title"], query := "q=((" },
          .returned ({ Template := (), Keys := [] },
            .foreign "template: unexpected unclosed action")) ∧
    (∃ msg, (afterCalls parseNever "0xc000010000"
        (tmplBuilderImpl.Build parseNever "0xc000010000"
          { built := false, keys := ["title"], query := "q=((" }).1
        [BuilderCall.AddQuery "q=ok"]).Build parseNever "0xc000010000"
      = (afterCalls parseNever "0xc000010000"
        (tmplBuilderImpl.Build parseNever "0xc000010000"
          { built := false, keys := ["title"], query := "q=((" }).1
        [BuilderCall.AddQuery "q=ok"], .panicked msg)) :=
  ⟨(Build_failure_consumes parseNever "0xc000010000"
      { built := false, keys := ["title"], query := "q=((" }
      (.foreign "template: unexpected unclosed action") [BuilderCall.AddQuery "q=ok"]
      "doi" "q=ok" rfl rfl).1,
   (Build_failure_consumes parseNever "0xc000010000"
      { built := false, keys := ["title"], query := "q=((" }
      (.foreign "template: unexpected unclosed action") [BuilderCall.AddQuery "q=ok"]
      "doi" "q=ok" rfl rfl).2.1⟩

/-- C25: on an unbuilt builder `AddQuery(t)` panics if and only if the stored query
is non-empty, whatever `t` is, and otherwise stores `t`.  In particular
`AddQuery("")` on a fresh builder returns and leaves the builder as it was, so a
following `AddQuery(q)` still stores `q`; and `AddQuery("")` after a non-empty
query panics. -/
theorem AddQuery_guard (p : String) (tb : tmplBuilderImpl) (t q : String)
    (hb : tb.built = false) :
    ((∃ msg, tb.AddQuery p t = (tb, .panicked msg)) ↔ tb.query ≠ "") ∧
    (tb.query = "" → tb.AddQuery p t = ({ tb with query := t }, .returned ())) ∧
    newTmplBuilder.AddQuery p "" = (newTmplBuilder, .returned ()) ∧
    (newTmplBuilder.AddQuery p "").1.AddQuery p q
      = ({ newTmplBuilder with query := q }, .returned ()) ∧
    (q ≠ "" → ∃ msg, (newTmplBuilder.AddQuery p q).1.AddQuery p ""
      = ((newTmplBuilder.AddQuery p q).1, .panicked msg)) := by
  have hfresh : ∀ x, newTmplBuilder.AddQuery p x
      = ({ newTmplBuilder with query := x }, .returned ()) := by
    intro x
    rw [AddQuery_of_not_built p newTmplBuilder x rfl]
    simp [newTmplBuilder]
  refine ⟨?_, ?_, ?_, ?_, ?_⟩
  · rw [AddQuery_of_not_built p tb t hb]
    by_cases hq : tb.query = ""
    · simp [hq]
    · simp [hq]
  · intro hq
    rw [AddQuery_of_not_built p tb t hb]
    simp [hq]
  · rw [hfresh]
    rfl
  · rw [hfresh, AddQuery_of_not_built p _ q rfl]
    simp [newTmplBuilder]
  · intro hq
    rw [hfresh, AddQuery_of_not_built p _ "" rfl]
    simp [hq]

theorem AddQuery_guard_witness :
    ((∃ msg, tmplBuilderImpl.AddQuery "0xc000010000"
        { built := false, keys := [], query := "q=1" } ""
      = ({ built := false, keys := [], query := "q=1" }, .panicked msg)) ↔
      (tmplBuilderImpl.query { built := false, keys := [], query := "q=1" }) ≠ "") :=
  (AddQuery_guard "0xc000010000" { built := false, keys := [], query := "q=1" } "" "q=2"
    rfl).1

/-! ## Triple filters -/

theorem removeNils_eq (trips : List (Option Triple)) :
    removeNils trips = trips.filterMap id := by
  have h : ∀ (trips : List (Option Triple)) (result : List Triple),
      trips.foldl (fun result trip =>
        match trip with
        | some t => result ++ [t]
        | none => result) result = result ++ trips.filterMap id := by
    intro trips
    induction trips with
    | nil => simp
    | cons trip trips ih =>
      intro result
      cases trip with
      | none => simp [ih]
      | some t => simp [ih]
  simpa [removeNils] using h trips []

theorem passPredicateAndObjectFilter_filtered (pfx : String) (trips : List (Option Triple)) :
    removeNils (passPredicateAndObjectFilter pfx trips)
      = eitherPrefixed pfx (removeNils trips) := by
  rw [removeNils_eq, removeNils_eq]
  induction trips with
  | nil => rfl
  | cons trip trips ih =>
    cases trip with
    | none =>
      have hcons : passPredicateAndObjectFilter pfx (none :: trips)
          = none :: passPredicateAndObjectFilter pfx trips := rfl
      rw [hcons]
      simpa using ih
    | some t =>
      have hcons : passPredicateAndObjectFilter pfx (some t :: trips)
          = (if !hasPrefix t.Pred pfx && !hasPrefix t.Obj pfx then none else some t)
            :: passPredicateAndObjectFilter pfx trips := rfl
      rw [hcons]
      have hfm : (some t :: trips).filterMap id = t :: trips.filterMap id := rfl
      rw [hfm, eitherPrefixed, List.filter_cons]
      cases hp : hasPrefix t.Pred pfx <;> cases ho : hasPrefix t.Obj pfx
      · simpa [eitherPrefixed] using ih
      · simpa [eitherPrefixed] using ih
      · simpa [eitherPrefixed] using ih
      · simpa [eitherPrefixed] using ih

/-- C23 as stated is false: of the four sample triples the transformer and
`removeNils` leave three (the PASS property with a literal value, the `rdf:type`
triple of a PASS type and the PASS property with a PASS object), while only the
last of them has both a prefixed predicate and a prefixed object. -/
theorem passPredicateAndObjectFilter_both_counterexample :
    removeNils (passPredicateAndObjectFilter "NS#" (sampleTriples.map some))
      = [ { Subj := "http://repo/s", Pred := "NS#title", Obj := "A title" },
          { Subj := "http://repo/s", Pred := "rdf:type", Obj := "NS#Article" },
          { Subj := "http://repo/s", Pred := "NS#journal", Obj := "NS#J1" } ] ∧
    bothPrefixed "NS#" sampleTriples
      = [ { Subj := "http://repo/s", Pred := "NS#journal", Obj := "NS#J1" } ] ∧
    removeNils (passPredicateAndObjectFilter "NS#" (sampleTriples.map some))
      ≠ bothPrefixed "NS#" sampleTriples := by
  decide

/-- C23, amended: for every slice of triple pointers (nil entries included), after the
transformer and `removeNils` the remaining triples are exactly those non-nil
entries, in original order, that have a predicate prefixed by
`model.PassResourceUriPrefix` OR an object prefixed by it; an entry is removed
exactly when it has neither. -/
theorem passPredicateAndObjectFilter_keeps_either (pfx : String)
    (trips : List (Option Triple)) :
    removeNils (passPredicateAndObjectFilter pfx trips)
        = eitherPrefixed pfx (removeNils trips) ∧
      ∀ t : Triple, t ∈ removeNils (passPredicateAndObjectFilter pfx trips) ↔
        (t ∈ removeNils trips ∧ (hasPrefix t.Pred pfx = true ∨ hasPrefix t.Obj pfx = true)) := by
  refine ⟨passPredicateAndObjectFilter_filtered pfx trips, ?_⟩
  intro t
  rw [passPredicateAndObjectFilter_filtered]
  simp [eitherPrefixed]

/-! ## Key extraction: the bindings of a plan with keys -/

theorem mapGet_extractedKvps_nonempty (pfx : String) (container : LdpContainer)
    (keys : List String) (k : String) (l : List KvPair)
    (h : mapGet (extractedKvps pfx container keys) k = some l) : l ≠ [] := by
  rw [mapGet_extractedKvps] at h
  have hg : ∀ l2, grouped (appended keys container.PassProperties) k = some l2 → l2 ≠ [] := by
    intro l2 h2
    unfold grouped at h2
    by_cases hnil : (appended keys container.PassProperties).filter (fun kv => kv.Key = k) = []
    · simp [hnil] at h2
    · simp only [hnil, if_false, Option.some.injEq] at h2
      rw [← h2]
      exact hnil
  by_cases hmem : "@type" ∈ keys
  · simp only [hmem, if_true, typeLookup] at h
    by_cases hk : k = "@type"
    · simp only [hk, if_true] at h
      cases hl : (passTags pfx container.Types).getLast? with
      | none =>
        simp only [hl] at h
        exact hg l (hk ▸ h)
      | some t =>
        simp only [hl, Option.some.injEq] at h
        rw [← h]
        exact List.cons_ne_nil _ _
    · simp only [hk, if_false] at h
      exact hg l h
  · simp only [hmem, if_false] at h
    exact hg l h

theorem extractKeys_binds_every_key (rangeOrder : KvMap → KvMap) (pfx : String)
    (container : LdpContainer) (keys : List String)
    (hord : ∀ m, (rangeOrder m).Perm m)
    (hok : (extractKeys rangeOrder pfx container keys).2 = .nil) :
    ∀ k ∈ keys, ∃ kv ∈ (extractKeys rangeOrder pfx container keys).1, kv.Key = k := by
  intro k hk
  have hnone : keys.filter (fun k => !hasBinding pfx container k) = [] := by
    by_contra hne
    rw [extractKeys_eq] at hok
    simp [hne] at hok
  have hb : hasBinding pfx container k = true := by
    have := List.filter_eq_nil_iff.mp hnone k hk
    simpa using this
  have hget := (mapGet_extractedKvps_ne_none pfx container keys k hk).mpr hb
  cases hl : mapGet (extractedKvps pfx container keys) k with
  | none => exact absurd hl hget
  | some l =>
    obtain ⟨a, ha⟩ := List.exists_mem_of_ne_nil l
      (mapGet_extractedKvps_nonempty pfx container keys k l hl)
    have hfl := filter_flatten (extractedKvps pfx container keys) k
      (MapInv_extractedKvps pfx container keys)
    rw [hl] at hfl
    have hmem : a ∈ ((extractedKvps pfx container keys).flatMap (fun e => e.2)).filter
        (fun kv => kv.Key = k) := by
      rw [hfl]
      exact ha
    obtain ⟨hin, hkey⟩ := List.mem_filter.mp hmem
    refine ⟨a, ?_, by simpa using hkey⟩
    rw [extractKeys_ok rangeOrder pfx container keys hok, flattenKvps_eq]
    exact (List.Perm.flatMap_right (fun e => e.2)
      (hord (extractedKvps pfx container keys))).mem_iff.mpr hin

/-- C21, as stated, fails: `Build()` on a builder to which no key was added returns a
plan with no required key; for it `extractKeys` succeeds on every resource with
no binding at all, and `Execute` ends in the `empty key-value pairs` branch of
`eval`. -/
theorem extraction_nonempty_counterexample :
    (afterCalls parseAlways "0xc000010000" newTmplBuilder
        [BuilderCall.AddQuery "q"]).Build parseAlways "0xc000010000"
      = ({ built := true, keys := [], query := "q" }, .returned (noKeyPlan, .nil)) ∧
    extractKeys id "NS#" articleContainer noKeyPlan.Keys = ([], .nil) ∧
    noKeyPlan.Execute id "NS#" (fun _ => "") renderFirst newRequestOk
        (unmarshalTo (hitsDoc 0 [])) (transportAnswering (okResponse "")) "0xc000010000"
        articleContainer duplicateHandler
      = (.errorString ("query: cannot evaluate template, empty key-value pairs for "
          ++ "query.Template: Keys: [], Template: template.Template@0xc000010000"
          ++ " (error extracting keys from the LdpContainer?)"), [.evaluated []]) :=
  ⟨by decide, by decide, rfl⟩

/-- C21, amended: for every Template-Plan that has at least one required key and
every resource, if `extractKeys` on the plan's keys succeeds then every required
key has a binding among those returned, so the bindings are non-empty and `eval`
does not take its `empty key-value pairs` branch: it returns what the template
renders. -/
theorem extraction_nonempty {τ : Type} (rangeOrder : KvMap → KvMap) (pfx : String)
    (render : τ → TemplateData → Except error String) (p : String) (qt : Template τ)
    (container : LdpContainer) (hkeys : qt.Keys ≠ [])
    (hord : ∀ m, (rangeOrder m).Perm m)
    (hok : (extractKeys rangeOrder pfx container qt.Keys).2 = .nil) :
    (∀ k ∈ qt.Keys, ∃ kv ∈ (extractKeys rangeOrder pfx container qt.Keys).1, kv.Key = k) ∧
    (extractKeys rangeOrder pfx container qt.Keys).1 ≠ [] ∧
    qt.eval render p (extractKeys rangeOrder pfx container qt.Keys).1
      = match render qt.Template
          { Scheme := "http", HostAndPort := "elasticsearch.local:9200", Index := "pass",
            KvPairs := (extractKeys rangeOrder pfx container qt.Keys).1 } with
        | .error err => ("", err)
        | .ok text => (text, .nil) := by
  have hall := extractKeys_binds_every_key rangeOrder pfx container qt.Keys hord hok
  have hne : (extractKeys rangeOrder pfx container qt.Keys).1 ≠ [] := by
    obtain ⟨k, hk⟩ := List.exists_mem_of_ne_nil _ hkeys
    obtain ⟨kv, hkv, _⟩ := hall k hk
    exact List.ne_nil_of_mem hkv
  refine ⟨hall, hne, ?_⟩
  have hlen : (extractKeys rangeOrder pfx container qt.Keys).1.length ≠ 0 :=
    fun h => hne (List.length_eq_zero.mp h)
  simp only [Template.eval, hlen, if_false]

theorem extraction_nonempty_witness :
    (extractKeys List.reverse "NS#" articleContainer titlePlan.Keys).1 ≠ [] :=
  (extraction_nonempty List.reverse "NS#" renderFirst "0xc000010000" titlePlan
    articleContainer (by decide) (fun m => List.reverse_perm m) (by decide)).2.1

/-! ## The traversal engine: the predicate calls of a unit -/

mutual
theorem treeUnitCalls_accept (filter : LdpContainer → Bool) :
    (t : Tree) → acceptCalls (Tree.unitCalls filter t) = Tree.visited filter t
  | .node c ts => by
    by_cases hf : filter c = true
    · simp [Tree.unitCalls, Tree.visited, acceptCalls, hf,
        ← forestUnitCalls_accept filter ts]
    · simp [Tree.unitCalls, Tree.visited, acceptCalls, hf]
theorem forestUnitCalls_accept (filter : LdpContainer → Bool) :
    (ts : Forest) → acceptCalls (Forest.unitCalls filter ts) = Forest.visited filter ts
  | .nil => by simp [Forest.unitCalls, Forest.visited, acceptCalls]
  | .cons t ts => by
    have h1 := treeUnitCalls_accept filter t
    have h2 := forestUnitCalls_accept filter ts
    simp only [acceptCalls] at h1 h2
    simp [Forest.unitCalls, Forest.visited, acceptCalls, h1, h2]
end

mutual
theorem treeUnitCalls_filter (filter : LdpContainer → Bool) :
    (t : Tree) → filterCalls (Tree.unitCalls filter t) = Tree.visited filter t
  | .node c ts => by
    by_cases hf : filter c = true
    · simp [Tree.unitCalls, Tree.visited, filterCalls, hf,
        ← forestUnitCalls_filter filter ts]
    · simp [Tree.unitCalls, Tree.visited, filterCalls, hf]
theorem forestUnitCalls_filter (filter : LdpContainer → Bool) :
    (ts : Forest) → filterCalls (Forest.unitCalls filter ts) = Forest.visited filter ts
  | .nil => by simp [Forest.unitCalls, Forest.visited, filterCalls]
  | .cons t ts => by
    have h1 := treeUnitCalls_filter filter t
    have h2 := forestUnitCalls_filter filter ts
    simp only [filterCalls] at h1 h2
    simp [Forest.unitCalls, Forest.visited, filterCalls, h1, h2]
end

/-! ## The traversal engine: slots and fetches in flight -/

theorem slots_snoc : ∀ (us : Units) (w : WorkUnit),
    Units.slots (us.snoc w) = Units.slots us + WorkUnit.slots w
  | .nil, w => by simp [Units.snoc, Units.slots]
  | .cons u us, w => by simp [Units.snoc, Units.slots, slots_snoc us w, Nat.add_assoc]

theorem slots_set : ∀ (us : Units) (i : Nat) (u w : WorkUnit), us.get? i = some u →
    Units.slots (us.set i w) + WorkUnit.slots u = Units.slots us + WorkUnit.slots w
  | .nil, _, _, _, h => by simp [Units.get?] at h
  | .cons u0 us, 0, u, w, h => by
    simp only [Units.get?, Option.some.injEq] at h
    subst h
    simp only [Units.set, Units.slots]
    omega
  | .cons u0 us, i + 1, u, w, h => by
    simp only [Units.get?] at h
    have ih := slots_set us i u w h
    simp only [Units.set, Units.slots]
    omega

mutual
theorem frame_inFlight_le : (f : Frame) → Frame.inFlight f ≤ Frame.slots f
  | .mk _ _ _ units => by
    simp only [Frame.inFlight, Frame.slots]
    exact units_inFlight_le units
theorem units_inFlight_le : (us : Units) → Units.inFlight us ≤ Units.slots us
  | .nil => by simp [Units.inFlight, Units.slots]
  | .cons u us => by
    simp only [Units.inFlight, Units.slots]
    exact Nat.add_le_add (unit_inFlight_le u) (units_inFlight_le us)
theorem unit_inFlight_le : (u : WorkUnit) → WorkUnit.inFlight u ≤ WorkUnit.slots u
  | .running _ pc => by
    cases pc <;> simp [WorkUnit.inFlight, WorkUnit.slots]
  | .inside _ f => by
    simp only [WorkUnit.inFlight, WorkUnit.slots]
    exact frame_inFlight_le f
end

theorem stepUnit_slots (ext : error → String) (filter accept : LdpContainer → Bool)
    (s : Traced) (c : LdpContainer) (e : error) (uri : String) (pc : UnitPc) (r : UnitStep)
    (h : stepUnit ext filter accept s c e uri pc = some r) :
    match r with
    | .next s1 _ _ u1 =>
      s1.1.semaphoreCap = s.1.semaphoreCap ∧
      s1.1.semaphore + WorkUnit.slots (.running uri pc) = s.1.semaphore + WorkUnit.slots u1 ∧
      s1.1.semaphore ≤ s.1.semaphore
    | .panic s1 => s1 = s := by
  cases pc <;> simp only [stepUnit] at h
  case launched => cases h; simp [WorkUnit.slots]
  case fetching => cases h; simp [WorkUnit.slots]
  case fetched =>
    cases h
    by_cases he : e = .nil <;> simp [WorkUnit.slots, he]
  case errRelease =>
    by_cases h0 : s.1.semaphore = 0
    · simp [h0] at h
    · simp only [h0, if_false, Option.some.injEq] at h
      cases h
      simp [WorkUnit.slots]
      omega
  case errSend =>
    by_cases he : e = .nil
    · simp only [he, if_true, Option.some.injEq] at h
      cases h
      rfl
    · simp only [he, if_false, Option.some.injEq] at h
      cases h
      simp [WorkUnit.slots]
  case okRelease =>
    by_cases h0 : s.1.semaphore = 0
    · simp [h0] at h
    · simp only [h0, if_false, Option.some.injEq] at h
      cases h
      simp [WorkUnit.slots]
      omega
  case acceptCall =>
    cases h
    by_cases ha : accept c = true <;> simp [WorkUnit.slots, ha]
  case sendContainer => cases h; simp [WorkUnit.slots]
  case filterCall =>
    cases h
    by_cases hf : filter c = true <;> simp [WorkUnit.slots, hf]
  case descend => cases h; simp [WorkUnit.slots, Frame.slots, Units.slots]
  case finishing => cases h; simp [WorkUnit.slots]
  case finished => cases h

theorem slots_of_allFinished : ∀ (us : Units), us.allFinished = true → Units.slots us = 0
  | .nil, _ => by simp [Units.slots]
  | .cons u us, h => by
    simp only [Units.allFinished, Bool.and_eq_true] at h
    have ih := slots_of_allFinished us h.2
    cases u with
    | running uri pc =>
      cases pc <;> simp [WorkUnit.isFinished] at h
      simp [Units.slots, WorkUnit.slots, ih]
    | inside uri f => simp [WorkUnit.isFinished] at h

theorem stepFrame_slots (ext : error → String) (filter accept : LdpContainer → Bool) :
    ∀ (path : List Nat) (s : Traced) (f : Frame) (r : FrameStep),
      stepFrame ext filter accept path s f = some r →
      match r with
      | .stepped s1 f1 =>
        s1.1.semaphoreCap = s.1.semaphoreCap ∧
        s1.1.semaphore + Frame.slots f = s.1.semaphore + Frame.slots f1 ∧
        (s.1.semaphore ≤ s.1.semaphoreCap → s1.1.semaphore ≤ s.1.semaphoreCap)
      | .returned s1 => s1 = s ∧ Frame.slots f = 0
      | .panicked s1 => s1 = s
  | [], s, .mk c e todo units, r, h => by
    cases todo with
    | nil =>
      simp only [stepFrame] at h
      by_cases hall : units.allFinished = true
      · simp only [hall, if_true, Option.some.injEq] at h
        subst h
        exact ⟨rfl, slots_of_allFinished units hall⟩
      · simp [hall] at h
    | cons uri rest =>
      simp only [stepFrame] at h
      by_cases hlt : s.1.semaphore < s.1.semaphoreCap
      · simp only [hlt, if_true, Option.some.injEq] at h
        subst h
        simp only [Frame.slots, slots_snoc, WorkUnit.slots]
        simp
        omega
      · simp [hlt] at h
  | i :: path, s, .mk c e todo units, r, h => by
    simp only [stepFrame] at h
    cases hu : units.get? i with
    | none => simp [hu] at h
    | some u =>
      cases u with
      | running uri pc =>
        simp only [hu] at h
        cases path with
        | cons j path => simp at h
        | nil =>
          simp only at h
          cases hs : stepUnit ext filter accept s c e uri pc with
          | none => simp [hs] at h
          | some us =>
            have hslots := stepUnit_slots ext filter accept s c e uri pc us hs
            cases us with
            | next s1 c1 e1 u1 =>
              simp only [hs, Option.some.injEq] at h
              subst h
              simp only at hslots
              obtain ⟨hcap, hsem, hle⟩ := hslots
              have hset := slots_set units i _ u1 hu
              simp only [Frame.slots]
              refine ⟨hcap, ?_, ?_⟩
              · omega
              · intro hc; omega
            | panic s1 =>
              simp only [hs, Option.some.injEq] at h
              subst h
              exact hslots
      | inside uri sub =>
        simp only [hu] at h
        cases hs : stepFrame ext filter accept path s sub with
        | none => simp [hs] at h
        | some r1 =>
          have ih := stepFrame_slots ext filter accept path s sub r1 hs
          cases r1 with
          | stepped s1 sub1 =>
            simp only [hs, Option.some.injEq] at h
            subst h
            simp only at ih
            obtain ⟨hcap, hsem, hle⟩ := ih
            have hset := slots_set units i _ (.inside uri sub1) hu
            simp only [WorkUnit.slots] at hset
            simp only [Frame.slots]
            refine ⟨hcap, ?_, hle⟩
            omega
          | returned s1 =>
            simp only [hs, Option.some.injEq] at h
            subst h
            simp only at ih
            obtain ⟨hs1, hzero⟩ := ih
            subst hs1
            have hset := slots_set units i _ (.running uri .finishing) hu
            simp only [WorkUnit.slots, hzero] at hset
            simp only [Frame.slots]
            simp at hset
            refine ⟨trivial, ?_, fun hc => hc⟩
            omega
          | panicked s1 =>
            simp only [hs, Option.some.injEq] at h
            subst h
            exact ih

theorem stepWalk_bounded (ext : error → String) (filter accept : LdpContainer → Bool) (N : Nat)
    (m m1 : WalkState) (path : List Nat)
    (hinv : m.1.1.semaphoreCap = N ∧ m.1.1.semaphore ≤ N ∧
      ∀ f, m.2 = .walking f → Frame.slots f = m.1.1.semaphore)
    (h : stepWalk ext filter accept m path = some m1) :
    m1.1.1.semaphoreCap = N ∧ m1.1.1.semaphore ≤ N ∧
      ∀ f, m1.2 = .walking f → Frame.slots f = m1.1.1.semaphore := by
  obtain ⟨s, pc⟩ := m
  obtain ⟨hcap, hle, hslots⟩ := hinv
  simp only at hcap hle hslots
  cases pc with
  | returned => simp [stepWalk] at h
  | panicked => simp [stepWalk] at h
  | walking f =>
    have hf := hslots f rfl
    simp only [stepWalk] at h
    cases hs : stepFrame ext filter accept path s f with
    | none => simp [hs] at h
    | some r =>
      have hr := stepFrame_slots ext filter accept path s f r hs
      cases r with
      | stepped s1 f1 =>
        simp only [hs, Option.some.injEq] at h
        subst h
        simp only at hr
        obtain ⟨hcap1, hsem, hle1⟩ := hr
        refine ⟨hcap1.trans hcap, ?_, ?_⟩
        · have := hle1 (by omega)
          simp only
          omega
        · intro f2 hf2
          simp only [WalkPc.walking.injEq] at hf2
          subst hf2
          simp only
          omega
      | returned s1 =>
        simp only [hs, Option.some.injEq] at h
        subst h
        simp only at hr
        obtain ⟨hs1, _⟩ := hr
        subst hs1
        exact ⟨hcap, hle, by intro f2 hf2; cases hf2⟩
      | panicked s1 =>
        simp only [hs, Option.some.injEq] at h
        subst h
        simp only at hr
        subst hr
        exact ⟨hcap, hle, by intro f2 hf2; cases hf2⟩

theorem runWalk_bounded (ext : error → String) (filter accept : LdpContainer → Bool) (N : Nat) :
    ∀ (sched : List (List Nat)) (m m1 : WalkState),
      (m.1.1.semaphoreCap = N ∧ m.1.1.semaphore ≤ N ∧
        ∀ f, m.2 = .walking f → Frame.slots f = m.1.1.semaphore) →
      runWalk ext filter accept m sched = some m1 →
      m1.1.1.semaphoreCap = N ∧ m1.1.1.semaphore ≤ N ∧
        ∀ f, m1.2 = .walking f → Frame.slots f = m1.1.1.semaphore
  | [], m, m1, hinv, h => by
    simp only [runWalk, Option.some.injEq] at h
    subst h
    exact hinv
  | path :: sched, m, m1, hinv, h => by
    simp only [runWalk] at h
    cases hs : stepWalk ext filter accept m path with
    | none => simp [hs] at h
    | some m2 =>
      simp only [hs] at h
      exact runWalk_bounded ext filter accept N sched m2 m1
        (stepWalk_bounded ext filter accept N m m2 path hinv hs) h

theorem startWalk_bounded (ext : error → String) (get : String → LdpContainer × error) (N : Nat)
    (startUri : String) (accept : Option (LdpContainer → Bool)) (m : WalkState)
    (h : startWalk ext (New get N) startUri accept = .done m) :
    m.1.1.semaphoreCap = N ∧ m.1.1.semaphore ≤ N ∧
      ∀ f, m.2 = .walking f → Frame.slots f = m.1.1.semaphore := by
  simp only [startWalk] at h
  by_cases he : ((New get N).retriever startUri).2 = .nil
  · by_cases hu : ((New get N).retriever startUri).1.Uri = ""
    · simp [he, hu] at h
    · simp only [he, hu, ne_eq, not_true, if_false, Walked.done.injEq] at h
      subst h
      refine ⟨?_, ?_, ?_⟩
      · simp only
        split <;> rfl
      · simp only
        split <;> simp [New]
      · intro f hf
        simp only [WalkPc.walking.injEq] at hf
        subst hf
        simp only [Frame.slots, Units.slots]
        split <;> rfl
  · simp [he] at h

/-- C14: in every state that a walk started by `Walk` on `New(retriever, N)` reaches,
whatever the order in which the goroutines move, the number of child
`retriever.Get` calls in flight is at most the number of slots taken in the
semaphore channel, which is at most `N`. -/
theorem fetches_in_flight_bounded (ext : error → String)
    (get : String → LdpContainer × error) (N : Nat) (startUri : String)
    (filter accept : Option (LdpContainer → Bool)) (sched : List (List Nat)) (m : WalkState)
    (h : WalkUnder ext (New get N) startUri filter accept sched = some m) :
    m.inFlight ≤ m.1.1.semaphore ∧ m.1.1.semaphore ≤ N := by
  simp only [WalkUnder] at h
  cases hstart : startWalk ext (New get N) startUri accept with
  | done m0 =>
    simp only [hstart] at h
    obtain ⟨_, hle, hslots⟩ := runWalk_bounded ext _ _ N sched m0 m
      (startWalk_bounded ext get N startUri accept m0 hstart) h
    refine ⟨?_, hle⟩
    obtain ⟨s, pc⟩ := m
    cases pc with
    | walking f =>
      have := hslots f rfl
      have := frame_inFlight_le f
      simp only [WalkState.inFlight]
      simp only at *
      omega
    | returned => simp [WalkState.inFlight]
    | panicked => simp [WalkState.inFlight]
  | fatal msg => simp [hstart] at h
  | blocked => simp [hstart] at h
  | outOfFuel => simp [hstart] at h

theorem fetches_in_flight_bounded_witness :
    WalkUnder (fun _ => "") (New policiesRetriever 2) "http://repo/policies" none none
        [[], [], [0], [1]] = some bothFetching ∧
    bothFetching.inFlight = 2 ∧
    (bothFetching.inFlight ≤ bothFetching.1.1.semaphore ∧ bothFetching.1.1.semaphore ≤ 2) :=
  ⟨rfl, rfl, fetches_in_flight_bounded (fun _ => "") policiesRetriever 2 "http://repo/policies"
    none none [[], [], [0], [1]] bothFetching rfl⟩


/-! ## The traversal engine: units that run one at a time -/


theorem get?_snoc : ∀ (us : Units) (w : WorkUnit), (us.snoc w).get? us.length = some w
  | .nil, w => rfl
  | .cons u us, w => by simpa [Units.snoc, Units.length, Units.get?] using get?_snoc us w

theorem set_snoc : ∀ (us : Units) (w w1 : WorkUnit), (us.snoc w).set us.length w1 = us.snoc w1
  | .nil, w, w1 => rfl
  | .cons u us, w, w1 => by simpa [Units.snoc, Units.length, Units.set] using set_snoc us w w1

theorem length_snoc : ∀ (us : Units) (w : WorkUnit), (us.snoc w).length = us.length + 1
  | .nil, w => rfl
  | .cons u us, w => by simpa [Units.snoc, Units.length] using length_snoc us w

theorem allFinished_snoc : ∀ (us : Units) (w : WorkUnit),
    (us.snoc w).allFinished = (us.allFinished && w.isFinished)
  | .nil, w => by simp [Units.snoc, Units.allFinished]
  | .cons u us, w => by
    simp [Units.snoc, Units.allFinished, allFinished_snoc us w, Bool.and_assoc]

theorem set_get? : ∀ (us : Units) (i : Nat) (u : WorkUnit), us.get? i = some u → us.set i u = us
  | .nil, _, _, h => by simp [Units.get?] at h
  | .cons u0 us, 0, u, h => by
    simp only [Units.get?, Option.some.injEq] at h
    subst h
    rfl
  | .cons u0 us, i + 1, u, h => by
    simp only [Units.get?] at h
    simp [Units.set, set_get? us i u h]

theorem get?_set : ∀ (us : Units) (i : Nat) (u w : WorkUnit), us.get? i = some u →
    (us.set i w).get? i = some w
  | .nil, _, _, _, h => by simp [Units.get?] at h
  | .cons u0 us, 0, u, w, _ => rfl
  | .cons u0 us, i + 1, u, w, h => by
    simp only [Units.get?] at h
    simpa [Units.set, Units.get?] using get?_set us i u w h

theorem set_set : ∀ (us : Units) (i : Nat) (w w1 : WorkUnit),
    (us.set i w).set i w1 = us.set i w1
  | .nil, _, _, _ => rfl
  | .cons u0 us, 0, w, w1 => rfl
  | .cons u0 us, i + 1, w, w1 => by simp [Units.set, set_set us i w w1]


theorem readers_snoc : ∀ (us : Units) (w : WorkUnit),
    Units.readers (us.snoc w) = Units.readers us + (if w.reading then 1 else 0)
  | .nil, w => by simp [Units.snoc, Units.readers]
  | .cons u us, w => by
    simp only [Units.snoc, Units.readers, readers_snoc us w]
    omega

theorem exclusive_snoc : ∀ (us : Units) (w : WorkUnit),
    Units.exclusive (us.snoc w) = (Units.exclusive us && WorkUnit.exclusive w)
  | .nil, w => by simp [Units.snoc, Units.exclusive]
  | .cons u us, w => by
    simp [Units.snoc, Units.exclusive, exclusive_snoc us w, Bool.and_assoc]

theorem quiet_of_allFinished : ∀ (us : Units), us.allFinished = true →
    Units.readers us = 0 ∧ Units.exclusive us = true
  | .nil, _ => by simp [Units.readers, Units.exclusive]
  | .cons u us, h => by
    simp only [Units.allFinished, Bool.and_eq_true] at h
    obtain ⟨ih1, ih2⟩ := quiet_of_allFinished us h.2
    cases u with
    | running uri pc =>
      cases pc <;> simp [WorkUnit.isFinished] at h
      simp [Units.readers, Units.exclusive, WorkUnit.reading, UnitPc.reading,
        WorkUnit.exclusive, ih1, ih2]
    | inside uri f => simp [WorkUnit.isFinished] at h

theorem readers_set_inside : ∀ (units : Units) (i : Nat) (uri : String) (sub sub1 : Frame),
    units.get? i = some (.inside uri sub) →
    Units.readers (units.set i (.inside uri sub1)) = Units.readers units
  | .nil, _, _, _, _, h => by simp [Units.get?] at h
  | .cons w ws, 0, uri, sub, sub1, h => by
    simp only [Units.get?, Option.some.injEq] at h
    subst h
    simp [Units.set, Units.readers, WorkUnit.reading]
  | .cons w ws, i + 1, uri, sub, sub1, h => by
    simp only [Units.get?] at h
    simp [Units.set, Units.readers, readers_set_inside ws i uri sub sub1 h]

theorem exclusive_set_inside : ∀ (units : Units) (i : Nat) (uri : String) (sub sub1 : Frame),
    units.get? i = some (.inside uri sub) → Units.exclusive units = true →
    Frame.exclusive sub1 = true → Units.exclusive (units.set i (.inside uri sub1)) = true
  | .nil, _, _, _, _, h, _, _ => by simp [Units.get?] at h
  | .cons w ws, 0, uri, sub, sub1, h, hx, h1 => by
    simp only [Units.get?, Option.some.injEq] at h
    subst h
    simp only [Units.exclusive, Bool.and_eq_true] at hx
    simp [Units.set, Units.exclusive, WorkUnit.exclusive, h1, hx.2]
  | .cons w ws, i + 1, uri, sub, sub1, h, hx, h1 => by
    simp only [Units.get?] at h
    simp only [Units.exclusive, Bool.and_eq_true] at hx
    simp [Units.set, Units.exclusive, hx.1, exclusive_set_inside ws i uri sub sub1 h hx.2 h1]

theorem runFrame_append (ext : error → String) (filter accept : LdpContainer → Bool) :
    ∀ (a b : List (List Nat)) (s s1 : Traced) (f f1 : Frame),
      runFrame ext filter accept a s f = some (s1, f1) →
      runFrame ext filter accept (a ++ b) s f = runFrame ext filter accept b s1 f1
  | [], b, s, s1, f, f1, h => by
    simp only [runFrame, Option.some.injEq, Prod.mk.injEq] at h
    obtain ⟨h1, h2⟩ := h
    subst h1 h2
    rfl
  | path :: a, b, s, s1, f, f1, h => by
    simp only [runFrame, List.cons_append] at h ⊢
    cases hs : stepFrame ext filter accept path s f with
    | none => simp [hs] at h
    | some r =>
      cases r with
      | stepped s2 f2 =>
        simp only [hs] at h ⊢
        by_cases hx : f2.exclusive = true
        · simp only [hx, if_true] at h ⊢
          exact runFrame_append ext filter accept a b s2 s1 f2 f1 h
        · simp [hx] at h
      | returned s2 => simp [hs] at h
      | panicked s2 => simp [hs] at h

theorem runFrame_inside (ext : error → String) (filter accept : LdpContainer → Bool) :
    ∀ (sched : List (List Nat)) (s s1 : Traced) (sub sub1 : Frame),
      runFrame ext filter accept sched s sub = some (s1, sub1) →
      ∀ (c : LdpContainer) (e : error) (todo : List String) (units : Units) (i : Nat)
        (uri : String), units.get? i = some (.inside uri sub) →
        Units.readers units ≤ 1 → Units.exclusive units = true →
        runFrame ext filter accept (sched.map (fun path => i :: path)) s (.mk c e todo units)
          = some (s1, .mk c e todo (units.set i (.inside uri sub1)))
  | [], s, s1, sub, sub1, h, c, e, todo, units, i, uri, hu, _, _ => by
    simp only [runFrame, Option.some.injEq, Prod.mk.injEq] at h
    obtain ⟨h1, h2⟩ := h
    subst h1 h2
    simp [runFrame, set_get? units i _ hu]
  | path :: sched, s, s1, sub, sub1, h, c, e, todo, units, i, uri, hu, hr, hx => by
    simp only [runFrame] at h
    cases hs : stepFrame ext filter accept path s sub with
    | none => simp [hs] at h
    | some r =>
      cases r with
      | stepped s2 sub2 =>
        simp only [hs] at h
        by_cases hx2 : sub2.exclusive = true
        · simp only [hx2, if_true] at h
          have hr2 := readers_set_inside units i uri sub sub2 hu
          have hx3 := exclusive_set_inside units i uri sub sub2 hu hx hx2
          have ih := runFrame_inside ext filter accept sched s2 s1 sub2 sub1 h c e todo
            (units.set i (.inside uri sub2)) i uri (get?_set units i _ _ hu)
            (by rw [hr2]; exact hr) hx3
          have hfx : Frame.exclusive (.mk c e todo (units.set i (.inside uri sub2))) = true := by
            simp [Frame.exclusive, hr2, hr, hx3]
          simp only [List.map_cons, runFrame, stepFrame, hu, hs, hfx, if_true]
          rw [ih, set_set]
        · simp [hx2] at h
      | returned s2 => simp [hs] at h
      | panicked s2 => simp [hs] at h

theorem runWalk_of_runFrame (ext : error → String) (filter accept : LdpContainer → Bool) :
    ∀ (sched : List (List Nat)) (s s1 : Traced) (f f1 : Frame),
      runFrame ext filter accept sched s f = some (s1, f1) → f.exclusive = true →
      runWalk ext filter accept (s, .walking f) sched = some (s1, .walking f1) ∧
      ownReads ext filter accept (s, .walking f) sched = true ∧ f1.exclusive = true
  | [], s, s1, f, f1, h, hx => by
    simp only [runFrame, Option.some.injEq, Prod.mk.injEq] at h
    obtain ⟨h1, h2⟩ := h
    subst h1 h2
    exact ⟨rfl, by simpa [ownReads, WalkState.exclusive] using hx, hx⟩
  | path :: sched, s, s1, f, f1, h, hx => by
    simp only [runFrame] at h
    cases hs : stepFrame ext filter accept path s f with
    | none => simp [hs] at h
    | some r =>
      cases r with
      | stepped s2 f2 =>
        simp only [hs] at h
        by_cases hx2 : f2.exclusive = true
        · simp only [hx2, if_true] at h
          obtain ⟨ih1, ih2, ih3⟩ := runWalk_of_runFrame ext filter accept sched s2 s1 f2 f1 h hx2
          refine ⟨?_, ?_, ih3⟩
          · simp only [runWalk, stepWalk, hs]
            exact ih1
          · simp only [ownReads, stepWalk, hs, Bool.and_eq_true]
            exact ⟨by simpa [WalkState.exclusive] using hx, ih2⟩
        · simp [hx2] at h
      | returned s2 => simp [hs] at h
      | panicked s2 => simp [hs] at h

theorem runWalk_append (ext : error → String) (filter accept : LdpContainer → Bool) :
    ∀ (a b : List (List Nat)) (m m1 : WalkState),
      runWalk ext filter accept m a = some m1 →
      runWalk ext filter accept m (a ++ b) = runWalk ext filter accept m1 b
  | [], b, m, m1, h => by
    simp only [runWalk, Option.some.injEq] at h
    subst h
    rfl
  | path :: a, b, m, m1, h => by
    simp only [runWalk, List.cons_append] at h ⊢
    cases hs : stepWalk ext filter accept m path with
    | none => simp [hs] at h
    | some m2 =>
      simp only [hs] at h ⊢
      exact runWalk_append ext filter accept a b m2 m1 h

theorem ownReads_append (ext : error → String) (filter accept : LdpContainer → Bool) :
    ∀ (a b : List (List Nat)) (m m1 : WalkState),
      runWalk ext filter accept m a = some m1 →
      ownReads ext filter accept m a = true → ownReads ext filter accept m1 b = true →
      ownReads ext filter accept m (a ++ b) = true
  | [], b, m, m1, h, _, hb => by
    simp only [runWalk, Option.some.injEq] at h
    subst h
    exact hb
  | path :: a, b, m, m1, h, ha, hb => by
    simp only [runWalk] at h
    simp only [ownReads, List.cons_append, Bool.and_eq_true] at ha ⊢
    cases hs : stepWalk ext filter accept m path with
    | none => simp [hs] at h
    | some m2 =>
      simp only [hs] at h ha ⊢
      exact ⟨ha.1, ownReads_append ext filter accept a b m2 m1 h ha.2 hb⟩

/-- The steps of a unit from its launch up to and including its call of the descend
predicate, when no other goroutine moves in between. -/
theorem runFrame_unit_head (ext : error → String) (filter accept : LdpContainer → Bool)
    (get : String → LdpContainer × error) (cap : Nat) (hcap : 1 ≤ cap)
    (cs : List LdpContainer) (es : List error) (cc ce : Bool) (log : List PredicateCall)
    (c0 : LdpContainer) (e0 : error) (uri : String) (rest : List String) (units : Units)
    (hall : units.allFinished = true)
    (c : LdpContainer) (hget : get uri = (c, .nil)) (tail : List (List Nat)) :
    runFrame ext filter accept
        ([[], [units.length], [units.length], [units.length], [units.length], [units.length]]
          ++ ((if accept c = true then [[units.length]] else []) ++ ([[units.length]] ++ tail)))
        ({ retriever := get, semaphoreCap := cap, semaphore := 0, Containers := cs,
           Errors := es, closedContainers := cc, closedErrors := ce }, log)
        (.mk c0 e0 (uri :: rest) units)
      = runFrame ext filter accept tail
          ({ retriever := get, semaphoreCap := cap, semaphore := 0,
             Containers := cs ++ (if accept c = true then [c] else []),
             Errors := es, closedContainers := cc, closedErrors := ce },
           log ++ [.accept c, .filter c])
          (.mk c .nil rest
            (units.snoc (.running uri (if filter c = true then .descend else .finishing)))) := by
  have hlt : 0 < cap := hcap
  obtain ⟨hq, hx⟩ := quiet_of_allFinished units hall
  by_cases ha : accept c = true <;> by_cases hf : filter c = true <;>
    simp [runFrame, stepFrame, stepUnit, hlt, hget, ha, hf, get?_snoc, set_snoc,
      Frame.exclusive, readers_snoc, exclusive_snoc, hq, hx, WorkUnit.reading,
      UnitPc.reading, WorkUnit.exclusive]

/-- The call of the nested `walkInternal`. -/
theorem runFrame_descend (ext : error → String) (filter accept : LdpContainer → Bool)
    (s : Traced) (c : LdpContainer) (e : error) (rest : List String) (units : Units)
    (hall : units.allFinished = true) (uri : String) (tail : List (List Nat)) :
    runFrame ext filter accept ([[units.length]] ++ tail) s
        (.mk c e rest (units.snoc (.running uri .descend)))
      = runFrame ext filter accept tail s
          (.mk c e rest (units.snoc (.inside uri (.mk c .nil c.Contains .nil)))) := by
  obtain ⟨hq, hx⟩ := quiet_of_allFinished units hall
  simp [runFrame, stepFrame, stepUnit, get?_snoc, set_snoc, Frame.exclusive, readers_snoc,
    exclusive_snoc, hq, hx, WorkUnit.reading, WorkUnit.exclusive, Units.readers,
    Units.exclusive]

/-- The return of the nested `walkInternal` once all its units have ended, and the
`wg.Done()` of the unit. -/
theorem runFrame_ascend (ext : error → String) (filter accept : LdpContainer → Bool)
    (s : Traced) (c c1 : LdpContainer) (e e1 : error) (rest : List String)
    (units units1 : Units) (hall0 : units.allFinished = true) (uri : String)
    (hall : units1.allFinished = true) :
    runFrame ext filter accept ([[units.length]] ++ [[units.length]]) s
        (.mk c e rest (units.snoc (.inside uri (.mk c1 e1 [] units1))))
      = some (s, .mk c e rest (units.snoc (.running uri .finished))) := by
  obtain ⟨hq, hx⟩ := quiet_of_allFinished units hall0
  simp [runFrame, stepFrame, stepUnit, get?_snoc, set_snoc, hall, Frame.exclusive,
    readers_snoc, exclusive_snoc, hq, hx, WorkUnit.reading, UnitPc.reading,
    WorkUnit.exclusive]

/-- The `wg.Done()` of a unit that does not descend. -/
theorem runFrame_finish (ext : error → String) (filter accept : LdpContainer → Bool)
    (s : Traced) (c : LdpContainer) (e : error) (rest : List String) (units : Units)
    (hall : units.allFinished = true) (uri : String) :
    runFrame ext filter accept [[units.length]] s
        (.mk c e rest (units.snoc (.running uri .finishing)))
      = some (s, .mk c e rest (units.snoc (.running uri .finished))) := by
  obtain ⟨hq, hx⟩ := quiet_of_allFinished units hall
  simp [runFrame, stepFrame, stepUnit, get?_snoc, set_snoc, Frame.exclusive, readers_snoc,
    exclusive_snoc, hq, hx, WorkUnit.reading, UnitPc.reading, WorkUnit.exclusive]

mutual
theorem runFrame_tree (ext : error → String) (filter accept : LdpContainer → Bool)
    (get : String → LdpContainer × error) (cap : Nat) (hcap : 1 ≤ cap) :
    (t : Tree) → (uri : String) → (rest : List String) → (cs : List LdpContainer) →
    (es : List error) → (cc ce : Bool) → (log : List PredicateCall) → (c0 : LdpContainer) →
    (e0 : error) → (units : Units) → units.allFinished = true →
    get uri = (t.root, .nil) → Tree.Fetched get t →
    runFrame ext filter accept (Tree.unitSteps filter accept units.length t)
        ({ retriever := get, semaphoreCap := cap, semaphore := 0, Containers := cs,
           Errors := es, closedContainers := cc, closedErrors := ce }, log)
        (.mk c0 e0 (uri :: rest) units)
      = some (({ retriever := get, semaphoreCap := cap, semaphore := 0,
                 Containers := cs ++ (Tree.visited filter t).filter accept,
                 Errors := es, closedContainers := cc, closedErrors := ce },
               log ++ Tree.unitCalls filter t),
              .mk t.root .nil rest (units.snoc (.running uri .finished)))
  | .node c ts, uri, rest, cs, es, cc, ce, log, c0, e0, units, hall0, hget, hf => by
    simp only [Tree.root] at hget ⊢
    simp only [Tree.Fetched] at hf
    obtain ⟨hq, hx⟩ := quiet_of_allFinished units hall0
    by_cases hfc : filter c = true
    · obtain ⟨c1, e1, units1, hsub, hall⟩ := runFrame_forest ext filter accept get cap hcap ts
        c.Contains (cs ++ (if accept c = true then [c] else [])) es cc ce
        (log ++ [.accept c, .filter c]) c .nil .nil rfl hf
      simp only [Units.length] at hsub
      have hlift := runFrame_inside ext filter accept _ _ _ _ _ hsub c .nil rest
        (units.snoc (.inside uri (.mk c .nil c.Contains .nil))) units.length uri
        (get?_snoc units _)
        (by simp [readers_snoc, hq, WorkUnit.reading])
        (by simp [exclusive_snoc, hx, WorkUnit.exclusive, Frame.exclusive, Units.readers,
          Units.exclusive])
      rw [set_snoc] at hlift
      simp only [Tree.unitSteps, Tree.visited, Tree.unitCalls, hfc, ↓reduceIte,
        List.append_assoc]
      rw [runFrame_unit_head ext filter accept get cap hcap cs es cc ce log c0 e0 uri rest
        units hall0 c hget]
      simp only [hfc, ↓reduceIte]
      rw [runFrame_descend ext filter accept _ _ _ _ _ hall0,
        runFrame_append ext filter accept _ _ _ _ _ _ hlift,
        runFrame_ascend ext filter accept _ _ _ _ _ _ _ _ hall0 _ hall]
      by_cases ha : accept c = true <;> simp [ha, List.filter_cons]
    · have hfc2 : filter c = false := by simpa using hfc
      simp only [Tree.unitSteps, Tree.visited, Tree.unitCalls, hfc2, Bool.false_eq_true,
        ↓reduceIte, List.append_nil, List.nil_append, List.append_assoc]
      rw [runFrame_unit_head ext filter accept get cap hcap cs es cc ce log c0 e0 uri rest
        units hall0 c hget]
      simp only [hfc2, Bool.false_eq_true, ↓reduceIte]
      rw [runFrame_finish ext filter accept _ _ _ _ _ hall0]
      by_cases ha : accept c = true <;> simp [ha, List.filter_cons]
theorem runFrame_forest (ext : error → String) (filter accept : LdpContainer → Bool)
    (get : String → LdpContainer × error) (cap : Nat) (hcap : 1 ≤ cap) :
    (ts : Forest) → (uris : List String) → (cs : List LdpContainer) → (es : List error) →
    (cc ce : Bool) → (log : List PredicateCall) → (c0 : LdpContainer) → (e0 : error) →
    (units : Units) → units.allFinished = true → Forest.Fetched get uris ts →
    ∃ (c1 : LdpContainer) (e1 : error) (units1 : Units),
      runFrame ext filter accept (Forest.unitSteps filter accept units.length ts)
          ({ retriever := get, semaphoreCap := cap, semaphore := 0, Containers := cs,
             Errors := es, closedContainers := cc, closedErrors := ce }, log)
          (.mk c0 e0 uris units)
        = some (({ retriever := get, semaphoreCap := cap, semaphore := 0,
                   Containers := cs ++ (Forest.visited filter ts).filter accept,
                   Errors := es, closedContainers := cc, closedErrors := ce },
                 log ++ Forest.unitCalls filter ts),
                .mk c1 e1 [] units1) ∧
      units1.allFinished = true
  | .nil, uris, cs, es, cc, ce, log, c0, e0, units, hall0, hf => by
    cases uris with
    | nil =>
      exact ⟨c0, e0, units,
        by simp [Forest.unitSteps, Forest.visited, Forest.unitCalls, runFrame], hall0⟩
    | cons u us => simp [Forest.Fetched] at hf
  | .cons t ts, uris, cs, es, cc, ce, log, c0, e0, units, hall0, hf => by
    cases uris with
    | nil => simp [Forest.Fetched] at hf
    | cons u us =>
      simp only [Forest.Fetched] at hf
      obtain ⟨hget, hft, hfs⟩ := hf
      have h1 := runFrame_tree ext filter accept get cap hcap t u us cs es cc ce log c0 e0
        units hall0 hget hft
      obtain ⟨c1, e1, units1, h2, hall⟩ := runFrame_forest ext filter accept get cap hcap ts us
        (cs ++ (Tree.visited filter t).filter accept) es cc ce (log ++ Tree.unitCalls filter t)
        t.root .nil (units.snoc (.running u .finished))
        (by simp [allFinished_snoc, hall0, WorkUnit.isFinished]) hfs
      refine ⟨c1, e1, units1, ?_, hall⟩
      simp only [Forest.unitSteps]
      rw [runFrame_append ext filter accept _ _ _ _ _ _ h1]
      rw [length_snoc] at h2
      rw [h2]
      simp [Forest.visited, Forest.unitCalls]
end

theorem WalkUnder_oneAtATime (ext : error → String)
    (filter accept : Option (LdpContainer → Bool)) (get : String → LdpContainer × error)
    (N : Nat) (startUri : String) (t : Tree) (hN : 1 ≤ N)
    (hroot : get startUri = (t.root, .nil)) (huri : t.root.Uri ≠ "")
    (hf : Tree.Fetched get t) :
    WalkUnder ext (New get N) startUri filter accept
        (Tree.oneAtATime (orDefault defaultFilter filter) (orDefault defaultAccept accept) t)
      = some (({ retriever := get, semaphoreCap := N, semaphore := 0,
                 Containers := (Tree.reached (orDefault defaultFilter filter) t).filter
                   (orDefault defaultAccept accept),
                 Errors := [], closedContainers := true, closedErrors := true },
               .accept t.root :: Forest.unitCalls (orDefault defaultFilter filter) t.children),
              .returned) ∧
    WalkOwnReads ext (New get N) startUri filter accept
        (Tree.oneAtATime (orDefault defaultFilter filter) (orDefault defaultAccept accept) t)
      = true := by
  cases t with
  | node c ts =>
    simp only [Tree.root, Tree.children] at hroot huri ⊢
    simp only [Tree.Fetched] at hf
    generalize hfl : orDefault defaultFilter filter = f
    generalize ha : orDefault defaultAccept accept = a
    obtain ⟨c1, e1, units1, hrun, hall⟩ := runFrame_forest ext f a get N hN ts c.Contains
      (if a c = true then [c] else []) [] false false [.accept c] c .nil .nil rfl hf
    simp only [Units.length] at hrun
    obtain ⟨hwalk, hown, _⟩ := runWalk_of_runFrame ext f a _ _ _ _ _ hrun
      (by simp [Frame.exclusive, Units.readers, Units.exclusive])
    have hstart : startWalk ext (New get N) startUri accept
        = .done (({ retriever := get, semaphoreCap := N, semaphore := 0,
                    Containers := if a c = true then [c] else [],
                    Errors := [], closedContainers := false, closedErrors := false },
                  [.accept c]), .walking (.mk c .nil c.Contains .nil)) := by
      by_cases hac : a c = true <;> simp [startWalk, New, hroot, huri, ha, hac]
    simp only [WalkUnder, WalkOwnReads, hstart, Tree.oneAtATime, Tree.children, ha, hfl]
    refine ⟨?_, ?_⟩
    · rw [runWalk_append ext f a _ _ _ _ hwalk]
      by_cases hac : a c = true <;>
        simp [runWalk, stepWalk, stepFrame, hall, Tree.reached, List.filter_cons, hac]
    · refine ownReads_append ext f a _ _ _ _ hwalk hown ?_
      simp [ownReads, stepWalk, stepFrame, hall, WalkState.exclusive]
      obtain ⟨hq, hx⟩ := quiet_of_allFinished units1 hall
      simp [Frame.exclusive, hq, hx]

/-! ## The traversal engine: runs in which every unit reads back its own fetch result -/

theorem perm_mid {α : Type} {X1 X B D : List α} (h : X1.Perm (X ++ D)) :
    (X1 ++ B).Perm ((X ++ B) ++ D) := by
  refine (h.append_right B).trans ?_
  rw [List.append_assoc, List.append_assoc]
  exact List.Perm.append_left X List.perm_append_comm

theorem perm_tail {α : Type} {A B1 B D : List α} (h : B1.Perm (B ++ D)) :
    (A ++ B1).Perm ((A ++ B) ++ D) := by
  rw [List.append_assoc]
  exact h.append_left A

theorem unitOk_change (get : String → LdpContainer × error)
    (filter accept : LdpContainer → Bool) (c c1 : LdpContainer) (e e1 : error) :
    ∀ (w : WorkUnit) (u : String) (t : Tree),
      ((c1 = c ∧ e1 = e) ∨ w.reading = false) →
      WorkUnit.Ok get filter accept c e w u t → WorkUnit.Ok get filter accept c1 e1 w u t
  | .running uri pc, u, t, h, hok => by
    simp only [WorkUnit.Ok] at hok ⊢
    obtain ⟨h1, h2, h3, h4, h5⟩ := hok
    refine ⟨h1, h2, h3, ?_, h5⟩
    intro hr
    rcases h with ⟨hc, he⟩ | hnr
    · rw [hc, he]
      exact h4 hr
    · simp [WorkUnit.reading, hr] at hnr
  | .inside uri sub, u, t, _, hok => by
    simpa only [WorkUnit.Ok] using hok

theorem unitsOk_change (get : String → LdpContainer × error)
    (filter accept : LdpContainer → Bool) (c c1 : LdpContainer) (e e1 : error)
    (todo : List String) :
    ∀ (units : Units) (uris : List String) (ts : Forest),
      (∀ k w, units.get? k = some w → (c1 = c ∧ e1 = e) ∨ w.reading = false) →
      Units.Ok get filter accept c e todo units uris ts →
      Units.Ok get filter accept c1 e1 todo units uris ts
  | .nil, uris, ts, _, hok => by
    simpa only [Units.Ok] using hok
  | .cons w ws, [], ts, _, hok => by
    simp [Units.Ok] at hok
  | .cons w ws, u :: uris, .nil, _, hok => by
    simp [Units.Ok] at hok
  | .cons w ws, u :: uris, .cons t ts, h, hok => by
    simp only [Units.Ok] at hok ⊢
    exact ⟨unitOk_change get filter accept c c1 e e1 w u t (h 0 w rfl) hok.1,
      unitsOk_change get filter accept c c1 e e1 todo ws uris ts
        (fun k w2 hk => h (k + 1) w2 (by simpa [Units.get?] using hk)) hok.2⟩

theorem readers_pos_of_reading : ∀ (units : Units) (j : Nat) (w : WorkUnit),
    units.get? j = some w → w.reading = true → 1 ≤ Units.readers units
  | .nil, _, _, h, _ => by simp [Units.get?] at h
  | .cons w0 ws, 0, w, h, hr => by
    simp only [Units.get?, Option.some.injEq] at h
    subst h
    simp [Units.readers, hr]
  | .cons w0 ws, j + 1, w, h, hr => by
    simp only [Units.get?] at h
    have := readers_pos_of_reading ws j w h hr
    simp only [Units.readers]
    omega

theorem others_not_reading : ∀ (units : Units) (j : Nat) (w w1 : WorkUnit),
    units.get? j = some w → w1.reading = true → Units.readers (units.set j w1) ≤ 1 →
    ∀ k w2, k ≠ j → units.get? k = some w2 → w2.reading = false
  | .nil, _, _, _, h, _, _, _, _, _, _ => by simp [Units.get?] at h
  | .cons w0 ws, 0, w, w1, _, hr, hle, k, w2, hk, hget => by
    simp only [Units.set, Units.readers, hr, if_true] at hle
    cases k with
    | zero => exact absurd rfl hk
    | succ k =>
      simp only [Units.get?] at hget
      cases h2 : w2.reading with
      | false => rfl
      | true =>
        have := readers_pos_of_reading ws k w2 hget h2
        omega
  | .cons w0 ws, j + 1, w, w1, h, hr, hle, k, w2, hk, hget => by
    simp only [Units.get?] at h
    simp only [Units.set, Units.readers] at hle
    have hpos := readers_pos_of_reading (ws.set j w1) j w1 (get?_set ws j w w1 h) hr
    cases k with
    | zero =>
      simp only [Units.get?, Option.some.injEq] at hget
      subst hget
      cases h2 : w0.reading with
      | false => rfl
      | true =>
        simp only [h2, if_true] at hle
        omega
    | succ k =>
      simp only [Units.get?] at hget
      exact others_not_reading ws j w w1 h hr (by omega) k w2 (by omega) hget

theorem exclusive_get : ∀ (units : Units) (j : Nat) (uri : String) (sub : Frame),
    units.get? j = some (.inside uri sub) → Units.exclusive units = true →
    Frame.exclusive sub = true
  | .nil, _, _, _, h, _ => by simp [Units.get?] at h
  | .cons w0 ws, 0, uri, sub, h, hx => by
    simp only [Units.get?, Option.some.injEq] at h
    subst h
    simp only [Units.exclusive, WorkUnit.exclusive, Bool.and_eq_true] at hx
    exact hx.1
  | .cons w0 ws, j + 1, uri, sub, h, hx => by
    simp only [Units.get?] at h
    simp only [Units.exclusive, Bool.and_eq_true] at hx
    exact exclusive_get ws j uri sub h hx.2

/-- The unit at a position of the list, with the URI and the tree that belong to the
position, and what replacing the unit does to the list. -/
theorem units_at (get : String → LdpContainer × error) (filter accept : LdpContainer → Bool)
    (c : LdpContainer) (e : error) (todo : List String) :
    ∀ (units : Units) (uris : List String) (ts : Forest) (j : Nat) (w : WorkUnit),
      units.get? j = some w → Units.Ok get filter accept c e todo units uris ts →
      ∃ u t, WorkUnit.Ok get filter accept c e w u t ∧
        (∀ (w1 : WorkUnit) (d : List LdpContainer),
          (WorkUnit.sent filter accept w1 t).Perm (WorkUnit.sent filter accept w t ++ d) →
          (Units.sent filter accept (units.set j w1) ts).Perm
            (Units.sent filter accept units ts ++ d)) ∧
        (∀ (w1 : WorkUnit) (d : List PredicateCall),
          (WorkUnit.called filter w1 t).Perm (WorkUnit.called filter w t ++ d) →
          (Units.called filter (units.set j w1) ts).Perm (Units.called filter units ts ++ d)) ∧
        (∀ (w1 : WorkUnit) (c1 : LdpContainer) (e1 : error),
          WorkUnit.Ok get filter accept c1 e1 w1 u t →
          (∀ k w2, k ≠ j → units.get? k = some w2 → (c1 = c ∧ e1 = e) ∨ w2.reading = false) →
          Units.Ok get filter accept c1 e1 todo (units.set j w1) uris ts)
  | .nil, _, _, _, _, h, _ => by simp [Units.get?] at h
  | .cons w0 ws, [], ts, _, _, _, hok => by simp [Units.Ok] at hok
  | .cons w0 ws, u :: uris, .nil, _, _, _, hok => by simp [Units.Ok] at hok
  | .cons w0 ws, u :: uris, .cons t ts, 0, w, h, hok => by
    simp only [Units.get?, Option.some.injEq] at h
    subst h
    simp only [Units.Ok] at hok
    refine ⟨u, t, hok.1, ?_, ?_, ?_⟩
    · intro w1 d hp
      simp only [Units.set, Units.sent]
      exact perm_mid hp
    · intro w1 d hp
      simp only [Units.set, Units.called]
      exact perm_mid hp
    · intro w1 c1 e1 hw1 hothers
      simp only [Units.set, Units.Ok]
      exact ⟨hw1, unitsOk_change get filter accept c c1 e e1 todo ws uris ts
        (fun k w2 hk => hothers (k + 1) w2 (by omega) (by simpa [Units.get?] using hk)) hok.2⟩
  | .cons w0 ws, u :: uris, .cons t ts, j + 1, w, h, hok => by
    simp only [Units.get?] at h
    simp only [Units.Ok] at hok
    obtain ⟨u1, t1, hw, hs, hc, ho⟩ := units_at get filter accept c e todo ws uris ts j w h hok.2
    refine ⟨u1, t1, hw, ?_, ?_, ?_⟩
    · intro w1 d hp
      simp only [Units.set, Units.sent]
      exact perm_tail (hs w1 d hp)
    · intro w1 d hp
      simp only [Units.set, Units.called]
      exact perm_tail (hc w1 d hp)
    · intro w1 c1 e1 hw1 hothers
      simp only [Units.set, Units.Ok]
      refine ⟨unitOk_change get filter accept c c1 e e1 w0 u t
        (hothers 0 w0 (by omega) rfl) hok.1, ?_⟩
      exact ho w1 c1 e1 hw1
        (fun k w2 hk hg => hothers (k + 1) w2 (by omega) (by simpa [Units.get?] using hg))

theorem units_launch (get : String → LdpContainer × error)
    (filter accept : LdpContainer → Bool) (c : LdpContainer) (e : error) (uri : String)
    (rest : List String) :
    ∀ (units : Units) (uris : List String) (ts : Forest),
      Units.Ok get filter accept c e (uri :: rest) units uris ts →
      Units.Ok get filter accept c e rest (units.snoc (.running uri .launched)) uris ts ∧
      Units.sent filter accept (units.snoc (.running uri .launched)) ts
        = Units.sent filter accept units ts ∧
      Units.called filter (units.snoc (.running uri .launched)) ts
        = Units.called filter units ts
  | .nil, uris, ts, hok => by
    simp only [Units.Ok] at hok
    obtain ⟨huris, hf⟩ := hok
    subst huris
    cases ts with
    | nil => simp [Forest.Fetched] at hf
    | cons t ts =>
      simp only [Forest.Fetched] at hf
      simp [Units.snoc, Units.Ok, WorkUnit.Ok, UnitPc.reading, Units.sent, Units.called,
        WorkUnit.sent, WorkUnit.called, hf.1, hf.2.1, hf.2.2]
  | .cons w ws, [], ts, hok => by simp [Units.Ok] at hok
  | .cons w ws, u :: uris, .nil, hok => by simp [Units.Ok] at hok
  | .cons w ws, u :: uris, .cons t ts, hok => by
    simp only [Units.Ok] at hok
    obtain ⟨h1, h2, h3⟩ := units_launch get filter accept c e uri rest ws uris ts hok.2
    simp only [Units.snoc, Units.Ok, Units.sent, Units.called]
    exact ⟨⟨hok.1, h1⟩, by rw [h2], by rw [h3]⟩

theorem units_all_finished (get : String → LdpContainer × error)
    (filter accept : LdpContainer → Bool) (c : LdpContainer) (e : error) :
    ∀ (units : Units) (uris : List String) (ts : Forest),
      units.allFinished = true → Units.Ok get filter accept c e [] units uris ts →
      Units.sent filter accept units ts = (Forest.visited filter ts).filter accept ∧
      Units.called filter units ts = Forest.unitCalls filter ts
  | .nil, uris, ts, _, hok => by
    simp only [Units.Ok] at hok
    obtain ⟨huris, hf⟩ := hok
    subst huris
    cases ts with
    | nil => simp [Units.sent, Units.called, Forest.visited, Forest.unitCalls]
    | cons t ts => simp [Forest.Fetched] at hf
  | .cons w ws, [], ts, _, hok => by simp [Units.Ok] at hok
  | .cons w ws, u :: uris, .nil, _, hok => by simp [Units.Ok] at hok
  | .cons w ws, u :: uris, .cons t ts, hall, hok => by
    simp only [Units.Ok] at hok
    simp only [Units.allFinished, Bool.and_eq_true] at hall
    obtain ⟨h1, h2⟩ := units_all_finished get filter accept c e ws uris ts hall.2 hok.2
    cases w with
    | inside uri sub => simp [WorkUnit.isFinished] at hall
    | running uri pc =>
      cases pc <;> simp [WorkUnit.isFinished] at hall
      simp [Units.sent, Units.called, WorkUnit.sent, WorkUnit.called, Forest.visited,
        Forest.unitCalls, h1, h2]

theorem stepUnit_ok (ext : error → String) (get : String → LdpContainer × error)
    (filter accept : LdpContainer → Bool) (s : Traced) (c : LdpContainer) (e : error)
    (uri : String) (pc : UnitPc) (u : String) (t : Tree) (r : UnitStep)
    (hget : s.1.retriever = get)
    (hok : WorkUnit.Ok get filter accept c e (.running uri pc) u t)
    (h : stepUnit ext filter accept s c e uri pc = some r) :
    match r with
    | .next s1 c1 e1 w1 =>
      s1.1.retriever = get ∧ WorkUnit.Ok get filter accept c1 e1 w1 u t ∧
      ((c1 = c ∧ e1 = e) ∨ w1.reading = true) ∧
      ∃ (dc : List LdpContainer) (dl : List PredicateCall),
        s1.1.Containers = s.1.Containers ++ dc ∧ s1.2 = s.2 ++ dl ∧
        WorkUnit.sent filter accept w1 t
          = WorkUnit.sent filter accept (.running uri pc) t ++ dc ∧
        WorkUnit.called filter w1 t = WorkUnit.called filter (.running uri pc) t ++ dl
    | .panic _ => False := by
  simp only [WorkUnit.Ok] at hok
  obtain ⟨huri, hfetch, hft, hread, hne1, hne2, hsend, hdesc⟩ := hok
  subst huri
  cases pc <;> simp only [stepUnit] at h
  case launched =>
    cases h
    exact ⟨hget, by simp [WorkUnit.Ok, UnitPc.reading, hfetch, hft], Or.inl ⟨rfl, rfl⟩,
      [], [], by simp [WorkUnit.sent, WorkUnit.called]⟩
  case fetching =>
    cases h
    refine ⟨hget, ?_, Or.inr rfl, [], [], by simp [WorkUnit.sent, WorkUnit.called]⟩
    simp [WorkUnit.Ok, hget, hfetch, hft]
  case fetched =>
    cases h
    obtain ⟨hc, he⟩ := hread rfl
    subst hc he
    exact ⟨hget, by simp [WorkUnit.Ok, hfetch, hft], Or.inl ⟨rfl, rfl⟩,
      [], [], by simp [WorkUnit.sent, WorkUnit.called]⟩
  case errRelease => exact absurd rfl hne1
  case errSend => exact absurd rfl hne2
  case okRelease =>
    obtain ⟨hc, he⟩ := hread rfl
    subst hc he
    by_cases h0 : s.1.semaphore = 0
    · simp [h0] at h
    · simp only [h0, if_false, Option.some.injEq] at h
      cases h
      exact ⟨hget, by simp [WorkUnit.Ok, hfetch, hft], Or.inl ⟨rfl, rfl⟩,
        [], [], by simp [WorkUnit.sent, WorkUnit.called]⟩
  case acceptCall =>
    obtain ⟨hc, he⟩ := hread rfl
    subst hc he
    cases h
    by_cases ha : accept t.root = true
    · exact ⟨hget, by simp [WorkUnit.Ok, hfetch, hft, ha], Or.inl ⟨rfl, rfl⟩,
        [], [.accept t.root], by simp [WorkUnit.sent, WorkUnit.called, ha]⟩
    · exact ⟨hget, by simp [WorkUnit.Ok, hfetch, hft, ha], Or.inl ⟨rfl, rfl⟩,
        [], [.accept t.root], by simp [WorkUnit.sent, WorkUnit.called, ha]⟩
  case sendContainer =>
    obtain ⟨hc, he⟩ := hread rfl
    subst hc he
    cases h
    have ha := hsend rfl
    exact ⟨hget, by simp [WorkUnit.Ok, hfetch, hft], Or.inl ⟨rfl, rfl⟩,
      [t.root], [], by simp [WorkUnit.sent, WorkUnit.called, ha]⟩
  case filterCall =>
    obtain ⟨hc, he⟩ := hread rfl
    subst hc he
    cases h
    by_cases hf : filter t.root = true
    · exact ⟨hget, by simp [WorkUnit.Ok, hfetch, hft, hf], Or.inl ⟨rfl, rfl⟩,
        [], [.filter t.root], by simp [WorkUnit.sent, WorkUnit.called, hf]⟩
    · refine ⟨hget, by simp [WorkUnit.Ok, hfetch, hft, hf, UnitPc.reading], Or.inl ⟨rfl, rfl⟩,
        [], [.filter t.root], ?_⟩
      cases t with
      | node r ts =>
        simp only [Tree.root] at hf
        by_cases ha : accept r = true <;>
          simp [WorkUnit.sent, WorkUnit.called, hf, ha, Tree.visited, Tree.unitCalls, Tree.root,
            List.filter_cons]
  case descend =>
    obtain ⟨hc, he⟩ := hread rfl
    subst hc he
    cases h
    have hf := hdesc rfl
    refine ⟨hget, ?_, Or.inl ⟨rfl, rfl⟩, [], [], ?_⟩
    · cases t with
      | node r ts =>
        simp only [Tree.Fetched] at hft
        simp only [Tree.root] at hf hfetch
        simp [WorkUnit.Ok, Frame.Ok, Units.Ok, hfetch, hf, Tree.Fetched, Tree.root,
          Tree.children, hft]
    · simp [WorkUnit.sent, WorkUnit.called, Frame.sent, Frame.called, Units.sent,
        Units.called]
  case finishing =>
    cases h
    exact ⟨hget, by simp [WorkUnit.Ok, hfetch, hft, UnitPc.reading], Or.inl ⟨rfl, rfl⟩,
      [], [], by simp [WorkUnit.sent, WorkUnit.called]⟩
  case finished => cases h

theorem stepFrame_ok (ext : error → String) (get : String → LdpContainer × error)
    (filter accept : LdpContainer → Bool) :
    ∀ (path : List Nat) (s : Traced) (fr : Frame) (t : Tree) (r : FrameStep),
      s.1.retriever = get → stepFrame ext filter accept path s fr = some r →
      Frame.Ok get filter accept fr t →
      match r with
      | .stepped s1 fr1 =>
        s1.1.retriever = get ∧
        (Frame.exclusive fr1 = true → Frame.Ok get filter accept fr1 t) ∧
        ∃ (dc : List LdpContainer) (dl : List PredicateCall),
          s1.1.Containers = s.1.Containers ++ dc ∧ s1.2 = s.2 ++ dl ∧
          (Frame.sent filter accept fr1 t.children).Perm
            (Frame.sent filter accept fr t.children ++ dc) ∧
          (Frame.called filter fr1 t.children).Perm (Frame.called filter fr t.children ++ dl)
      | .returned s1 =>
        s1 = s ∧
        Frame.sent filter accept fr t.children = (Forest.visited filter t.children).filter accept ∧
        Frame.called filter fr t.children = Forest.unitCalls filter t.children
      | .panicked _ => False
  | [], s, .mk c e todo units, t, r, hget, h, hok => by
    simp only [Frame.Ok] at hok
    cases todo with
    | nil =>
      simp only [stepFrame] at h
      by_cases hall : units.allFinished = true
      · simp only [hall, if_true, Option.some.injEq] at h
        subst h
        obtain ⟨h1, h2⟩ := units_all_finished get filter accept c e units _ _ hall hok
        exact ⟨rfl, by simpa [Frame.sent] using h1, by simpa [Frame.called] using h2⟩
      · simp [hall] at h
    | cons uri rest =>
      simp only [stepFrame] at h
      by_cases hlt : s.1.semaphore < s.1.semaphoreCap
      · simp only [hlt, if_true, Option.some.injEq] at h
        subst h
        obtain ⟨h1, h2, h3⟩ := units_launch get filter accept c e uri rest units _ _ hok
        refine ⟨hget, fun _ => by simpa [Frame.Ok] using h1, [], [], ?_⟩
        simp [Frame.sent, Frame.called, h2, h3]
      · simp [hlt] at h
  | i :: path, s, .mk c e todo units, t, r, hget, h, hok => by
    simp only [Frame.Ok] at hok
    simp only [stepFrame] at h
    cases hu : units.get? i with
    | none => simp [hu] at h
    | some w =>
      obtain ⟨u, tu, hw, hsent, hcalled, hset⟩ :=
        units_at get filter accept c e todo units _ _ i w hu hok
      cases w with
      | running uri pc =>
        simp only [hu] at h
        cases path with
        | cons j path => simp at h
        | nil =>
          simp only at h
          cases hs : stepUnit ext filter accept s c e uri pc with
          | none => simp [hs] at h
          | some us =>
            have hstep := stepUnit_ok ext get filter accept s c e uri pc u tu us hget hw hs
            cases us with
            | next s1 c1 e1 w1 =>
              simp only [hs, Option.some.injEq] at h
              subst h
              simp only at hstep
              obtain ⟨hget1, hw1, hce, dc, dl, hdc, hdl, hs1, hc1⟩ := hstep
              refine ⟨hget1, ?_, dc, dl, hdc, hdl, ?_, ?_⟩
              · intro hx
                simp only [Frame.exclusive, Bool.and_eq_true, decide_eq_true_eq] at hx
                simp only [Frame.Ok]
                refine hset w1 c1 e1 hw1 ?_
                intro k w2 hk hg
                rcases hce with hsame | hreading
                · exact Or.inl hsame
                · exact Or.inr (others_not_reading units i _ w1 hu hreading hx.1 k w2 hk hg)
              · simp only [Frame.sent]
                exact hsent w1 dc (by rw [hs1])
              · simp only [Frame.called]
                exact hcalled w1 dl (by rw [hc1])
            | panic s1 =>
              simp only at hstep
      | inside uri sub =>
        simp only [hu] at h
        simp only [WorkUnit.Ok] at hw
        obtain ⟨huri, hfetch, hft, hfr, hsub⟩ := hw
        cases hs : stepFrame ext filter accept path s sub with
        | none => simp [hs] at h
        | some r1 =>
          have ih := stepFrame_ok ext get filter accept path s sub tu r1 hget hs hsub
          cases r1 with
          | stepped s1 sub1 =>
            simp only [hs, Option.some.injEq] at h
            subst h
            simp only at ih
            obtain ⟨hget1, hok1, dc, dl, hdc, hdl, hs1, hc1⟩ := ih
            refine ⟨hget1, ?_, dc, dl, hdc, hdl, ?_, ?_⟩
            · intro hx
              simp only [Frame.exclusive, Bool.and_eq_true, decide_eq_true_eq] at hx
              have hxsub := exclusive_get (units.set i (.inside uri sub1)) i uri sub1
                (get?_set units i _ _ hu) hx.2
              simp only [Frame.Ok]
              refine hset (.inside uri sub1) c e ?_ (fun _ _ _ _ => Or.inl ⟨rfl, rfl⟩)
              simp only [WorkUnit.Ok]
              exact ⟨huri, hfetch, hft, hfr, hok1 hxsub⟩
            · simp only [Frame.sent]
              refine hsent (.inside uri sub1) dc ?_
              simp only [WorkUnit.sent]
              exact perm_tail hs1
            · simp only [Frame.called]
              refine hcalled (.inside uri sub1) dl ?_
              simp only [WorkUnit.called]
              exact perm_tail hc1
          | returned s1 =>
            simp only [hs, Option.some.injEq] at h
            subst h
            simp only at ih
            obtain ⟨hs1, hsentsub, hcalledsub⟩ := ih
            subst hs1
            refine ⟨hget, ?_, [], [], by simp, by simp, ?_, ?_⟩
            · intro _
              simp only [Frame.Ok]
              refine hset (.running uri .finishing) c e ?_ (fun _ _ _ _ => Or.inl ⟨rfl, rfl⟩)
              simp [WorkUnit.Ok, UnitPc.reading, huri, hfetch, hft]
            · simp only [Frame.sent]
              refine hsent (.running uri .finishing) [] ?_
              cases tu with
              | node r ts =>
                simp only [Tree.root, Tree.children] at hfr hsentsub
                by_cases ha : accept r = true <;>
                  simp [WorkUnit.sent, Tree.visited, Tree.root, Tree.children, hfr, hsentsub, ha,
                    List.filter_cons]
            · simp only [Frame.called]
              refine hcalled (.running uri .finishing) [] ?_
              cases tu with
              | node r ts =>
                simp only [Tree.root, Tree.children] at hfr hcalledsub
                simp [WorkUnit.called, Tree.unitCalls, Tree.root, Tree.children, hfr, hcalledsub]
          | panicked s1 =>
            simp only at ih

theorem stepWalk_ok (ext : error → String) (get : String → LdpContainer × error)
    (filter accept : LdpContainer → Bool) (t : Tree) (m m1 : WalkState) (path : List Nat)
    (hok : WalkState.Ok get filter accept t m)
    (h : stepWalk ext filter accept m path = some m1) (hx : m1.exclusive = true) :
    WalkState.Ok get filter accept t m1 := by
  obtain ⟨s, pc⟩ := m
  obtain ⟨hget, hpc⟩ := hok
  simp only at hget
  cases pc with
  | returned => simp [stepWalk] at h
  | panicked => simp [stepWalk] at h
  | walking fr =>
    simp only at hpc
    obtain ⟨hfr, hsent, hcalled⟩ := hpc
    simp only [stepWalk] at h
    cases hs : stepFrame ext filter accept path s fr with
    | none => simp [hs] at h
    | some r =>
      have hr := stepFrame_ok ext get filter accept path s fr t r hget hs hfr
      cases r with
      | stepped s1 fr1 =>
        simp only [hs, Option.some.injEq] at h
        subst h
        simp only at hr
        obtain ⟨hget1, hok1, dc, dl, hdc, hdl, hs1, hc1⟩ := hr
        simp only [WalkState.exclusive] at hx
        refine ⟨hget1, hok1 hx, ?_, ?_⟩
        · simp only
          rw [hdc]
          refine (hsent.append_right dc).trans ?_
          rw [List.append_assoc]
          exact hs1.symm.append_left _
        · simp only
          rw [hdl]
          refine (hcalled.append_right dl).trans ?_
          rw [List.cons_append]
          exact (hc1.symm).cons _
      | returned s1 =>
        simp only [hs, Option.some.injEq] at h
        subst h
        simp only at hr
        obtain ⟨hs1, hsentall, hcalledall⟩ := hr
        subst hs1
        refine ⟨hget, ?_, ?_⟩
        · simp only
          rw [hsentall] at hsent
          cases t with
          | node r ts =>
            simp only [Tree.root, Tree.children] at hsent
            by_cases ha : accept r = true <;>
              simpa [Tree.reached, List.filter_cons, ha] using hsent
        · simp only
          rw [hcalledall] at hcalled
          exact hcalled
      | panicked s1 =>
        simp only at hr

theorem runWalk_ok (ext : error → String) (get : String → LdpContainer × error)
    (filter accept : LdpContainer → Bool) (t : Tree) :
    ∀ (sched : List (List Nat)) (m m1 : WalkState),
      WalkState.Ok get filter accept t m →
      runWalk ext filter accept m sched = some m1 →
      ownReads ext filter accept m sched = true →
      WalkState.Ok get filter accept t m1
  | [], m, m1, hok, h, _ => by
    simp only [runWalk, Option.some.injEq] at h
    subst h
    exact hok
  | path :: sched, m, m1, hok, h, hx => by
    simp only [runWalk] at h
    simp only [ownReads, Bool.and_eq_true] at hx
    cases hs : stepWalk ext filter accept m path with
    | none => simp [hs] at h
    | some m2 =>
      simp only [hs] at h hx
      have hx2 : m2.exclusive = true := by
        cases sched with
        | nil => simpa [ownReads] using hx.2
        | cons p sched =>
          have := hx.2
          simp only [ownReads, Bool.and_eq_true] at this
          exact this.1
      exact runWalk_ok ext get filter accept t sched m2 m1
        (stepWalk_ok ext get filter accept t m m2 path hok hs hx2) h hx.2

theorem startWalk_ok (ext : error → String) (get : String → LdpContainer × error)
    (filter : LdpContainer → Bool) (accept : Option (LdpContainer → Bool)) (N : Nat)
    (startUri : String) (t : Tree) (m : WalkState)
    (hroot : get startUri = (t.root, .nil)) (hf : Tree.Fetched get t)
    (h : startWalk ext (New get N) startUri accept = .done m) :
    WalkState.Ok get filter (orDefault defaultAccept accept) t m := by
  cases t with
  | node c ts =>
    simp only [Tree.root] at hroot
    simp only [Tree.Fetched] at hf
    simp only [startWalk, New, hroot] at h
    by_cases hu : c.Uri = ""
    · simp [hu] at h
    · simp only [hu, ne_eq, not_true, if_false, Walked.done.injEq] at h
      subst h
      by_cases ha : orDefault defaultAccept accept c = true <;>
        simp [WalkState.Ok, Frame.Ok, Units.Ok, Frame.sent, Frame.called, Units.sent,
          Units.called, Tree.root, Tree.children, hf, ha]

theorem WalkUnder_ok (ext : error → String) (get : String → LdpContainer × error)
    (filter accept : Option (LdpContainer → Bool)) (N : Nat) (startUri : String) (t : Tree)
    (sched : List (List Nat)) (m : WalkState)
    (hroot : get startUri = (t.root, .nil)) (hf : Tree.Fetched get t)
    (h : WalkUnder ext (New get N) startUri filter accept sched = some m)
    (hx : WalkOwnReads ext (New get N) startUri filter accept sched = true) :
    WalkState.Ok get (orDefault defaultFilter filter) (orDefault defaultAccept accept) t m := by
  simp only [WalkUnder] at h
  simp only [WalkOwnReads] at hx
  cases hstart : startWalk ext (New get N) startUri accept with
  | done m0 =>
    simp only [hstart] at h hx
    exact runWalk_ok ext get _ _ t sched m0 m
      (startWalk_ok ext get _ accept N startUri t m0 hroot hf hstart) h hx
  | fatal msg => simp [hstart] at h
  | blocked => simp [hstart] at h
  | outOfFuel => simp [hstart] at h

/-! ## The traversal engine: what a walk delivers -/

/-- For a tree served by the retriever, the function `Walk` gives the visitor that the
machine reaches under the schedule in which the units run one at a time. -/
theorem Walk_is_oneAtATime (ext : error → String) (filter accept : LdpContainer → Bool)
    (get : String → LdpContainer × error) (N fuel : Nat) (startUri : String) (t : Tree)
    (hN : 1 ≤ N) (hroot : get startUri = (t.root, .nil)) (huri : t.root.Uri ≠ "")
    (hf : Tree.Fetched get t) (hh : Tree.height t ≤ fuel) :
    ∃ m, WalkUnder ext (New get N) startUri (some filter) (some accept)
        (Tree.oneAtATime filter accept t) = some m ∧
      Walk ext fuel (New get N) startUri (some filter) (some accept) = .done m.1.1 := by
  refine ⟨_, (WalkUnder_oneAtATime ext (some filter) (some accept) get N startUri t hN hroot
    huri hf).1, ?_⟩
  rw [Walk_tree ext filter accept get N fuel startUri t hN hroot huri hf hh]
  rfl

/-- The failed fetch of the child `http://repo/r/gone`, on the machine: the unit is the only
one of its call, and the value it sends on `Errors` is the one that the function
`Walk` gives. -/
theorem WalkUnder_fetch_error :
    (WalkUnder (fun _ => "") (New brokenRetriever 5) "http://repo/r" none none
        [[], [0], [0], [0], [0], [0], [0], []]).map (fun m => (m.isReturned, m.1.1.Errors))
      = some (true,
          [.errorString "visit: error visiting uri http://repo/r/gone, 404 Not Found"]) := by
  decide

/-- Without a slot no unit is launched: on `New(retriever, 0)` no goroutine can move once
the start resource has children, so `Walk` does not return. -/
theorem WalkUnder_no_slots (ext : error → String) (get : String → LdpContainer × error)
    (startUri : String) (filter accept : Option (LdpContainer → Bool)) (c : LdpContainer)
    (path : List Nat) (sched : List (List Nat)) (hroot : get startUri = (c, .nil))
    (hch : c.Contains ≠ []) :
    WalkUnder ext (New get 0) startUri filter accept (path :: sched) = none := by
  simp only [WalkUnder, startWalk, New, hroot]
  by_cases hu : c.Uri = ""
  · simp [hu]
  · cases hcc : c.Contains with
    | nil => exact absurd hcc hch
    | cons u us =>
      by_cases ha : orDefault defaultAccept accept c = true <;> cases path with
      | nil => simp [hu, ha, runWalk, stepWalk, stepFrame, hcc]
      | cons i path => simp [hu, ha, runWalk, stepWalk, stepFrame, Units.get?]

/-- With nil predicates, a walk in which each unit reads back its own fetch result
delivers PASS resources with a non-empty URI only. -/
theorem Walk_nil_predicates_own_reads (ext : error → String)
    (get : String → LdpContainer × error) (N : Nat) (startUri : String) (t : Tree)
    (sched : List (List Nat)) (m : WalkState) (hroot : get startUri = (t.root, .nil))
    (hf : Tree.Fetched get t)
    (hrun : WalkUnder ext (New get N) startUri none none sched = some m)
    (hown : WalkOwnReads ext (New get N) startUri none none sched = true)
    (hret : m.isReturned = true) :
    ∀ c ∈ m.1.1.Containers, c.IsPassResource.1 = true ∧ c.Uri ≠ "" := by
  have hok := WalkUnder_ok ext get none none N startUri t sched m hroot hf hrun hown
  obtain ⟨s, pc⟩ := m
  cases pc with
  | walking fr => simp [WalkState.isReturned] at hret
  | panicked => simp [WalkState.isReturned] at hret
  | returned =>
    simp only [WalkState.Ok, orDefault] at hok
    intro c hc
    rw [hok.2.1.mem_iff] at hc
    exact (defaultAccept_iff c).mp (by simpa using (List.mem_filter.mp hc).2)

/-- C13, as stated, fails, for two reasons.  By design the descend predicate prunes: on
the chain `a` ⊃ `a/b` ⊃ `a/b/c` with the descend predicate constantly false and
the accept predicate constantly true the walk (its only unit runs from launch to
end) returns having delivered `a` and `a/b`, while accept holds of all three
nodes.  And sibling units share `c`: on `http://repo/policies` with its two
children, `N = 1` and the predicates `defaultFilter`, `defaultAccept`, when the
unit of `policies/acl` fetches between the call `accept(c)` and the send of the
unit of `policies/1`, the walk returns having delivered `policies/acl`, of which
accept does not hold, and not `policies/1`, of which it holds. -/
theorem Walk_delivered_counterexample :
    Tree.Fetched chainRetriever chainTree ∧
    chainRetriever "http://repo/a" = (chainTree.root, .nil) ∧
    (WalkUnder (fun _ => "") (New chainRetriever 2) "http://repo/a"
        (some (fun _ => false)) (some (fun _ => true))
        [[], [0], [0], [0], [0], [0], [0], [0], [0], []]).map
          (fun m => (m.isReturned, m.1.1.Containers))
      = some (true, [plainContainer "http://repo/a" ["http://repo/a/b"],
                     plainContainer "http://repo/a/b" ["http://repo/a/b/c"]]) ∧
    chainTree.nodes.filter (fun _ => true)
      = [plainContainer "http://repo/a" ["http://repo/a/b"],
         plainContainer "http://repo/a/b" ["http://repo/a/b/c"],
         plainContainer "http://repo/a/b/c" []] ∧
    Tree.Fetched policiesRetriever policiesTree ∧
    policiesRetriever "http://repo/policies" = (policiesTree.root, .nil) ∧
    (WalkUnder (fun _ => "") (New policiesRetriever 1) "http://repo/policies"
        (some defaultFilter) (some defaultAccept) overlapAfterAccept).map
          (fun m => (m.isReturned, m.1.1.Containers))
      = some (true, [plainContainer "http://repo/policies/acl" []]) ∧
    WalkOwnReads (fun _ => "") (New policiesRetriever 1) "http://repo/policies"
        (some defaultFilter) (some defaultAccept) overlapAfterAccept = false ∧
    policiesTree.nodes.filter defaultAccept = [policyContainer "http://repo/policies/1"] ∧
    (Tree.reached defaultFilter policiesTree).filter defaultAccept
      = [policyContainer "http://repo/policies/1"] := by
  refine ⟨?_, by decide, by decide, by decide, ?_, by decide, by decide, by decide, by decide,
    by decide⟩
  · simp [Tree.Fetched, Forest.Fetched, chainTree, chainRetriever, Tree.root]
  · simp [Tree.Fetched, Forest.Fetched, policiesTree, policiesRetriever, Tree.root]

/-- C13, amended: for every finite container tree whose fetches all succeed, every
descend/accept predicate pair and every `N`, in every run of `Walk` in which each
unit of work reads back its own fetch result (no fetch overwrites `c` and `e`
while a unit of the same call of `walkInternal` still has to read them), once
`Walk` has returned the resources delivered on the `Containers` channel are, up to
the order, exactly the nodes that the descent reaches (the root, its children,
and the children of every other reached node of which the descend predicate
holds) of which the accept predicate holds: the same for every `N` and every such
run.  For every `N ≥ 1` there is such a run in which `Walk` returns: the one with
the units one at a time. -/
theorem Walk_delivers_reached_accepted (ext : error → String)
    (filter accept : LdpContainer → Bool) (get : String → LdpContainer × error)
    (startUri : String) (t : Tree) (hroot : get startUri = (t.root, .nil))
    (huri : t.root.Uri ≠ "") (hf : Tree.Fetched get t) :
    (∀ (N : Nat) (sched : List (List Nat)) (m : WalkState),
      WalkUnder ext (New get N) startUri (some filter) (some accept) sched = some m →
      WalkOwnReads ext (New get N) startUri (some filter) (some accept) sched = true →
      m.isReturned = true →
      m.1.1.Containers.Perm ((Tree.reached filter t).filter accept) ∧
      ∀ c, c ∈ m.1.1.Containers ↔ (c ∈ Tree.reached filter t ∧ accept c = true)) ∧
    (∀ N, 1 ≤ N →
      ∃ m, WalkUnder ext (New get N) startUri (some filter) (some accept)
          (Tree.oneAtATime filter accept t) = some m ∧
        WalkOwnReads ext (New get N) startUri (some filter) (some accept)
          (Tree.oneAtATime filter accept t) = true ∧
        m.isReturned = true) := by
  refine ⟨?_, ?_⟩
  · intro N sched m hrun hown hret
    have hok := WalkUnder_ok ext get (some filter) (some accept) N startUri t sched m hroot hf
      hrun hown
    obtain ⟨s, pc⟩ := m
    cases pc with
    | walking fr => simp [WalkState.isReturned] at hret
    | panicked => simp [WalkState.isReturned] at hret
    | returned =>
      simp only [WalkState.Ok, orDefault] at hok
      refine ⟨hok.2.1, fun c => ?_⟩
      rw [hok.2.1.mem_iff]
      simp [List.mem_filter]
  · intro N hN
    have h := WalkUnder_oneAtATime ext (some filter) (some accept) get N startUri t hN hroot
      huri hf
    simp only [orDefault] at h
    exact ⟨_, h.1, h.2, rfl⟩

set_option maxHeartbeats 4000000 in
theorem Walk_delivers_reached_accepted_witness :
    WalkUnder (fun _ => "") (New policiesRetriever 2) "http://repo/policies"
        (some defaultFilter) (some (fun _ => true)) ownReadsOverlap = some policiesWalked ∧
    WalkOwnReads (fun _ => "") (New policiesRetriever 2) "http://repo/policies"
        (some defaultFilter) (some (fun _ => true)) ownReadsOverlap = true ∧
    policiesWalked.isReturned = true ∧
    (policiesWalked.1.1.Containers.Perm
        ((Tree.reached defaultFilter policiesTree).filter (fun _ => true)) ∧
      ∀ c, c ∈ policiesWalked.1.1.Containers ↔
        (c ∈ Tree.reached defaultFilter policiesTree ∧ (fun _ => true) c = true)) :=
  ⟨rfl, by decide, rfl,
    (Walk_delivers_reached_accepted (fun _ => "") defaultFilter (fun _ => true)
      policiesRetriever "http://repo/policies" policiesTree (by decide) (by decide)
      (by simp [Tree.Fetched, Forest.Fetched, policiesTree, policiesRetriever, Tree.root])).1
      2 ownReadsOverlap policiesWalked rfl (by decide) rfl⟩

/-- C16 fails on the code: `defaultFilter` is constantly true and `defaultAccept` holds of
a node exactly when `IsPassResource()` reports true and `Uri()` is non-empty, but
`Walk("http://repo/policies", nil, nil)` on `New(retriever, 1)` delivers the plain
container `http://repo/policies/acl`, which is not a PASS resource, when the unit
of `policies/acl` fetches between the call `accept(c)` and the send of the unit
of `policies/1`: the units of a call share the variable `c`. -/
theorem Walk_nil_predicates_delivers_plain :
    (∀ c, defaultFilter c = true) ∧
    (∀ c, defaultAccept c = true ↔ (c.IsPassResource.1 = true ∧ c.Uri ≠ "")) ∧
    (WalkUnder (fun _ => "") (New policiesRetriever 1) "http://repo/policies" none none
        overlapAfterAccept).map (fun m => (m.isReturned, m.1.1.Containers))
      = some (true, [plainContainer "http://repo/policies/acl" []]) ∧
    (plainContainer "http://repo/policies/acl" []).IsPassResource.1 = false ∧
    defaultAccept (plainContainer "http://repo/policies/acl" []) = false :=
  ⟨fun _ => rfl, defaultAccept_iff, by decide, by decide, by decide⟩

/-! ## The traversal engine: the predicate calls -/

/-- C22, as stated, fails, for two reasons.  By design the descend predicate is not
called on the root: on the chain `a` ⊃ `a/b` ⊃ `a/b/c`, with both predicates
constantly true, the walk (each unit the only one of its call) fetches the three
nodes and calls `accept` once on each, but calls the descend predicate on `a/b`
and `a/b/c` only.  And sibling units share `c`: on `http://repo/policies` with
its two children and `N = 1`, when the unit of `policies/acl` fetches after the
unit of `policies/1` has fetched and before it calls `accept(c)`, both
predicates are called twice on `policies/acl` and never on `policies/1`, which
was fetched. -/
theorem predicate_calls_counterexample :
    Tree.Fetched chainRetriever chainTree ∧
    chainRetriever "http://repo/a" = (chainTree.root, .nil) ∧
    chainTree.root = plainContainer "http://repo/a" ["http://repo/a/b"] ∧
    (WalkUnder (fun _ => "") (New chainRetriever 2) "http://repo/a"
        (some (fun _ => true)) (some (fun _ => true))
        [[], [0], [0], [0], [0], [0], [0], [0], [0], [0],
         [0, 0], [0, 0], [0, 0], [0, 0], [0, 0], [0, 0], [0, 0], [0, 0], [0, 0], [0, 0],
         [0], [0], []]).map
          (fun m => (m.isReturned, acceptCalls m.1.2, filterCalls m.1.2))
      = some (true,
          [plainContainer "http://repo/a" ["http://repo/a/b"],
           plainContainer "http://repo/a/b" ["http://repo/a/b/c"],
           plainContainer "http://repo/a/b/c" []],
          [plainContainer "http://repo/a/b" ["http://repo/a/b/c"],
           plainContainer "http://repo/a/b/c" []]) ∧
    Tree.Fetched policiesRetriever policiesTree ∧
    policiesRetriever "http://repo/policies" = (policiesTree.root, .nil) ∧
    (WalkUnder (fun _ => "") (New policiesRetriever 1) "http://repo/policies"
        (some (fun _ => true)) (some (fun _ => true)) overlapBeforeAccept).map
          (fun m => (m.isReturned, acceptCalls m.1.2, filterCalls m.1.2))
      = some (true,
          [plainContainer "http://repo/policies"
             ["http://repo/policies/1", "http://repo/policies/acl"],
           plainContainer "http://repo/policies/acl" [],
           plainContainer "http://repo/policies/acl" []],
          [plainContainer "http://repo/policies/acl" [],
           plainContainer "http://repo/policies/acl" []]) ∧
    WalkOwnReads (fun _ => "") (New policiesRetriever 1) "http://repo/policies"
        (some (fun _ => true)) (some (fun _ => true)) overlapBeforeAccept = false := by
  refine ⟨?_, by decide, by decide, by decide, ?_, by decide, by decide, by decide⟩
  · simp [Tree.Fetched, Forest.Fetched, chainTree, chainRetriever, Tree.root]
  · simp [Tree.Fetched, Forest.Fetched, policiesTree, policiesRetriever, Tree.root]

/-- C22, amended: for every finite tree whose fetches all succeed, in every run of `Walk`
in which each unit of work reads back its own fetch result (no fetch overwrites
`c` and `e` while a unit of the same call of `walkInternal` still has to read
them), once `Walk` has returned the accept predicate has been evaluated exactly
once on every node that is fetched, the root included, and the descend predicate
exactly once on every fetched node other than the root, and not on the root,
into which the walk always descends.  For every `N ≥ 1` there is such a run in
which `Walk` returns: the one with the units one at a time. -/
theorem predicate_calls_own_reads (ext : error → String)
    (filter accept : LdpContainer → Bool) (get : String → LdpContainer × error)
    (startUri : String) (t : Tree) (hroot : get startUri = (t.root, .nil))
    (huri : t.root.Uri ≠ "") (hf : Tree.Fetched get t) :
    Tree.reached filter t = t.root :: Forest.visited filter t.children ∧
    (∀ (N : Nat) (sched : List (List Nat)) (m : WalkState),
      WalkUnder ext (New get N) startUri (some filter) (some accept) sched = some m →
      WalkOwnReads ext (New get N) startUri (some filter) (some accept) sched = true →
      m.isReturned = true →
      (acceptCalls m.1.2).Perm (t.root :: Forest.visited filter t.children) ∧
      (filterCalls m.1.2).Perm (Forest.visited filter t.children) ∧
      ∀ c, (acceptCalls m.1.2).count c = (t.root :: Forest.visited filter t.children).count c ∧
        (filterCalls m.1.2).count c = (Forest.visited filter t.children).count c) ∧
    (∀ N, 1 ≤ N →
      ∃ m, WalkUnder ext (New get N) startUri (some filter) (some accept)
          (Tree.oneAtATime filter accept t) = some m ∧
        WalkOwnReads ext (New get N) startUri (some filter) (some accept)
          (Tree.oneAtATime filter accept t) = true ∧
        m.isReturned = true) := by
  refine ⟨?_, ?_, ?_⟩
  · cases t with
    | node c ts => rfl
  · intro N sched m hrun hown hret
    have hok := WalkUnder_ok ext get (some filter) (some accept) N startUri t sched m hroot hf
      hrun hown
    obtain ⟨s, pc⟩ := m
    cases pc with
    | walking fr => simp [WalkState.isReturned] at hret
    | panicked => simp [WalkState.isReturned] at hret
    | returned =>
      simp only [WalkState.Ok, orDefault] at hok
      have hlog := hok.2.2
      have ha : (acceptCalls s.2).Perm (t.root :: Forest.visited filter t.children) := by
        have h1 := hlog.filterMap (fun call => match call with
          | PredicateCall.accept c => some c
          | PredicateCall.filter _ => none)
        have h2 := forestUnitCalls_accept filter t.children
        simp only [acceptCalls] at h2
        simpa [acceptCalls, h2] using h1
      have hfl : (filterCalls s.2).Perm (Forest.visited filter t.children) := by
        have h1 := hlog.filterMap (fun call => match call with
          | PredicateCall.accept _ => none
          | PredicateCall.filter c => some c)
        have h2 := forestUnitCalls_filter filter t.children
        simp only [filterCalls] at h2
        simpa [filterCalls, h2] using h1
      exact ⟨ha, hfl, fun c => ⟨ha.count_eq c, hfl.count_eq c⟩⟩
  · intro N hN
    have h := WalkUnder_oneAtATime ext (some filter) (some accept) get N startUri t hN hroot
      huri hf
    simp only [orDefault] at h
    exact ⟨_, h.1, h.2, rfl⟩

set_option maxHeartbeats 4000000 in
theorem predicate_calls_own_reads_witness :
    WalkUnder (fun _ => "") (New policiesRetriever 2) "http://repo/policies"
        (some defaultFilter) (some (fun _ => true)) ownReadsOverlap = some policiesWalked ∧
    WalkOwnReads (fun _ => "") (New policiesRetriever 2) "http://repo/policies"
        (some defaultFilter) (some (fun _ => true)) ownReadsOverlap = true ∧
    policiesWalked.isReturned = true ∧
    ((acceptCalls policiesWalked.1.2).Perm
        (policiesTree.root :: Forest.visited defaultFilter policiesTree.children) ∧
      (filterCalls policiesWalked.1.2).Perm
        (Forest.visited defaultFilter policiesTree.children) ∧
      ∀ c, (acceptCalls policiesWalked.1.2).count c
          = (policiesTree.root :: Forest.visited defaultFilter policiesTree.children).count c ∧
        (filterCalls policiesWalked.1.2).count c
          = (Forest.visited defaultFilter policiesTree.children).count c) :=
  ⟨rfl, by decide, rfl,
    (predicate_calls_own_reads (fun _ => "") defaultFilter (fun _ => true)
      policiesRetriever "http://repo/policies" policiesTree (by decide) (by decide)
      (by simp [Tree.Fetched, Forest.Fetched, policiesTree, policiesRetriever,
        Tree.root])).2.1
      2 ownReadsOverlap policiesWalked rfl (by decide) rfl⟩

end DupeChecker
